import Mathlib

/-!
# Event pipeline: a shallow embedding and its verified properties

The development embeds the in-process event pipeline of the repository
(`internal/pipeline`, `pkg/validator`) into Lean:

* `Event`, `ProcessedEvent`, `NewEvent`            — `internal/pipeline/event.go`
* `Metrics` and its atomic counters                — `internal/pipeline/metrics.go`
* `BasicValidator.Validate`                        — `pkg/validator/validator.go`
* `Worker.processJob` and its store/retry loop     — `internal/pipeline/worker.go`
* the worker loop, `Ingest` and `Shutdown` as a
  schedule-driven transition system                — `worker.go`, `pipeline.go`

Conventions.  Go's `uint64` counters are natural numbers reduced modulo `2^64`
after each update; `int64` durations are integers wrapped into the signed
64-bit range.  Collaborators (validator, processor, sink, clock, UUID source)
are arbitrary state-passing functions over an abstract world `σ`.  Logging has
no effect on any modelled state and is left out.
-/

namespace EventPipeline

/-! ## Machine integers -/

/-- Modulus of the `uint64` counters. -/
def u64 : Nat := 2 ^ 64

/-- Go's conversion `uint64(x)` of a signed 64-bit value: reduction modulo `2^64`. -/
def toUint64 (x : Int) : Nat := (x % (2 ^ 64 : Int)).toNat

/-- Wrap an integer into the signed 64-bit range, as `int64` arithmetic does. -/
def wrapInt64 (x : Int) : Int := (x + 2 ^ 63) % 2 ^ 64 - 2 ^ 63

/-! ## Time -/

/-- An instant (`time.Time`), in nanoseconds since Go's zero instant
(January 1, year 1, 00:00:00 UTC).  The location is not represented, so
`UTC()` is the identity. -/
abbrev Time := Int

/-- A `time.Duration`: a signed 64-bit count of nanoseconds. -/
abbrev Duration := Int

/-- Go's `Time.IsZero`. -/
def Time.IsZero (t : Time) : Bool := t == 0

/-- Go's `Duration.Milliseconds`: integer division by `10^6`, truncating toward zero. -/
def Duration.Milliseconds (d : Duration) : Int := Int.tdiv d 1000000

/-- Clamp an integer into the signed 64-bit range, as `Time.Sub` does with a
difference that no `Duration` can hold. -/
def saturateInt64 (x : Int) : Int := max (-(2 ^ 63)) (min x (2 ^ 63 - 1))

/-- Go's `time.Since(start)`, that is `time.Now().Sub(start)`, given the
current clock reading `now`. -/
def Since (now start : Time) : Duration := saturateInt64 (now - start)

/-! ## Event model (`internal/pipeline/event.go`) -/

/-- A JSON-representable value, the range of `map[string]interface{}`. -/
inductive Value where
  | null : Value
  | bool (b : Bool) : Value
  | num (n : Int) : Value
  | str (s : String) : Value
  | arr (xs : List Value) : Value
  | obj (kvs : List (String × Value)) : Value

/-- The input record `Event`. -/
structure Event where
  ID : String
  /-- The Go field `Type` (a reserved word here). -/
  Typ : String
  Source : String
  Timestamp : Time
  UserID : String
  Data : List (String × Value)

/-- The output record `ProcessedEvent`: an embedded `Event` plus processing metadata. -/
structure ProcessedEvent where
  Event : Event
  ProcessingTimeMS : Int
  ProcessedAt : Time

/-- `NewEvent`: ensures ID and timestamp are set.  `fresh` is the value of
`uuid.New().String()` and `now` the value of `time.Now().UTC()` at the call. -/
def NewEvent (fresh : String) (now : Time) (e : Event) : Event :=
  let e := if e.ID == "" then { e with ID := fresh } else e
  let e := if e.Timestamp.IsZero then { e with Timestamp := now } else e
  e

/-! ## Validator (`pkg/validator/validator.go`) -/

/-- An `error` value; `errors.New msg` is represented by `msg`. -/
abbrev Err := String

/-- A parsed UUID: sixteen bytes. -/
abbrev UUID := List Nat

/-- `BasicValidator.Validate`.  The result is `none` for Go's `nil` and
`some err` for a returned error.  `uuidParse` is the external `uuid.Parse`,
returning `none` when it reports an error. -/
def BasicValidator.Validate (uuidParse : String → Option UUID) (e : Event) : Option Err :=
  if e.Typ == "" then
    some "missing type"
  else if e.Source == "" then
    some "missing source"
  else if e.ID != "" then
    match uuidParse e.ID with
    | none => some "invalid UUID format"
    | some _ => none
  else
    none

/-! ## Metrics (`internal/pipeline/metrics.go`) -/

/-- The metrics aggregator: four `uint64` totals and the start time. -/
structure Metrics where
  received : Nat
  processed : Nat
  failed : Nat
  totalLatencyMS : Nat
  startTime : Time
  deriving DecidableEq, Repr

/-- `NewMetrics`, with `now` the clock reading at construction. -/
def NewMetrics (now : Time) : Metrics :=
  { received := 0, processed := 0, failed := 0, totalLatencyMS := 0, startTime := now }

/-- `Metrics.IncReceived`: atomic add of 1 to `received`. -/
def Metrics.IncReceived (m : Metrics) : Metrics :=
  { m with received := (m.received + 1) % u64 }

/-- `Metrics.IncProcessed`: atomic add of 1 to `processed`. -/
def Metrics.IncProcessed (m : Metrics) : Metrics :=
  { m with processed := (m.processed + 1) % u64 }

/-- `Metrics.IncFailed`: atomic add of 1 to `failed`. -/
def Metrics.IncFailed (m : Metrics) : Metrics :=
  { m with failed := (m.failed + 1) % u64 }

/-- `Metrics.AddLatency`: atomic add of `uint64(ms)` to `totalLatencyMS`. -/
def Metrics.AddLatency (m : Metrics) (ms : Int) : Metrics :=
  { m with totalLatencyMS := (m.totalLatencyMS + toUint64 ms) % u64 }

/-- `Metrics.GetReceived`. -/
def Metrics.GetReceived (m : Metrics) : Nat := m.received

/-- `Metrics.GetProcessed`. -/
def Metrics.GetProcessed (m : Metrics) : Nat := m.processed

/-- `Metrics.GetFailed`. -/
def Metrics.GetFailed (m : Metrics) : Nat := m.failed

/-- `Metrics.StartTime`. -/
def Metrics.StartTime (m : Metrics) : Time := m.startTime

/-! ## Configuration (`internal/config/config.go`) -/

/-- The configuration fields the pipeline reads.  `int` fields are integers of
either sign: the loader accepts whatever `strconv.Atoi` parses. -/
structure Config where
  WorkerCount : Int
  QueueSize : Int
  MaxRetries : Int
  RetryBaseBackoff : Duration

/-! ## Collaborators (`internal/pipeline/interfaces.go`) -/

/-- The collaborators of a worker, as state-passing functions over a world `σ`
that holds whatever state the validator, processor, sink and clock keep.
A result `none` of `validate` and `store` is Go's `nil` error.  `process`
returns either a processed event or an error, the contract of the
`Processor` interface. -/
structure Env (σ : Type) where
  /-- The `Validator.Validate` call. -/
  validate : Event → σ → Option Err × σ
  /-- The `Processor.Process` call. -/
  process : Event → σ → Except Err ProcessedEvent × σ
  /-- The `Storage.Store` call. -/
  store : List ProcessedEvent → σ → Option Err × σ
  /-- The effect of `time.Sleep d` on the world. -/
  sleep : Duration → σ → σ
  /-- The reading of `time.Now()`. -/
  now : σ → Time
  /-- The value of `uuid.New().String()`. -/
  uuidNew : σ → String × σ

/-- A record of one collaborator call made by a worker, with its result. -/
inductive Call where
  | validate (e : Event) (res : Option Err) : Call
  | process (e : Event) (res : Except Err ProcessedEvent) : Call
  | store (batch : List ProcessedEvent) (res : Option Err) : Call
  | sleep (d : Duration) : Call

/-- Whether a call is a `Validate` call. -/
def Call.isValidate : Call → Bool
  | .validate _ _ => true
  | _ => false

/-- Whether a call is a `Process` call. -/
def Call.isProcess : Call → Bool
  | .process _ _ => true
  | _ => false

/-- Whether a call is a `Store` call. -/
def Call.isStore : Call → Bool
  | .store _ _ => true
  | _ => false

/-- Whether a call is a `Store` call that returned `nil`. -/
def Call.isStoreOk : Call → Bool
  | .store _ none => true
  | _ => false

/-- Whether a call is a `time.Sleep`. -/
def Call.isSleep : Call → Bool
  | .sleep _ => true
  | _ => false

/-- Number of `Store` calls in a trace. -/
def storeCount (cs : List Call) : Nat := cs.countP Call.isStore

/-- Number of `Process` calls in a trace. -/
def processCount (cs : List Call) : Nat := cs.countP Call.isProcess

/-! ## Worker: `processJob` (`internal/pipeline/worker.go`) -/

/-- What a piece of worker code leaves behind: the metrics, the world, and the
collaborator calls it made, in order. -/
structure Outcome (σ : Type) where
  metrics : Metrics
  world : σ
  calls : List Call

/-- The store loop of `processJob`,
`for attempt := 1; attempt <= maxRetries; attempt++`, entered at `attempt`
with `remaining = maxRetries - attempt + 1` iterations still admitted by the
loop test.  Returns the final value of `err`, the world and the calls made.
An attempt that fails is followed by `time.Sleep(attempt * baseBackoff)`.
The counter `attempt` is an unbounded integer; Go's `int` agrees with it unless
`maxRetries` is the largest `int`, where `attempt++` would wrap. -/
def storeLoop {σ : Type} (env : Env σ) (baseBackoff : Duration) (processed : ProcessedEvent) :
    Nat → Int → Option Err → σ → Option Err × σ × List Call
  | 0, _, err, w => (err, w, [])
  | remaining + 1, attempt, _, w =>
    let res := env.store [processed] w
    match res.1 with
    | none => (none, res.2, [Call.store [processed] none])
    | some e =>
      let d := wrapInt64 (attempt * baseBackoff)
      let rest := storeLoop env baseBackoff processed remaining (attempt + 1) (some e)
        (env.sleep d res.2)
      (rest.1, rest.2.1, Call.store [processed] (some e) :: Call.sleep d :: rest.2.2)

/-- `Worker.processJob`: validate, process, store with retries, then update
exactly the metrics the source updates. -/
def processJob {σ : Type} (env : Env σ) (cfg : Config) (job : Event) (m : Metrics) (w : σ) :
    Outcome σ :=
  let start := env.now w
  let v := env.validate job w
  match v.1 with
  | some err => { metrics := m.IncFailed, world := v.2, calls := [Call.validate job (some err)] }
  | none =>
    let p := env.process job v.2
    match p.1 with
    | .error err =>
      { metrics := m.IncFailed, world := p.2,
        calls := [Call.validate job none, Call.process job (.error err)] }
    | .ok processed =>
      let s := storeLoop env cfg.RetryBaseBackoff processed cfg.MaxRetries.toNat 1 none p.2
      let calls := Call.validate job none :: Call.process job (.ok processed) :: s.2.2
      match s.1 with
      | some _ => { metrics := m.IncFailed, world := s.2.1, calls := calls }
      | none =>
        let latency := (Since (env.now s.2.1) start).Milliseconds
        { metrics := (m.AddLatency latency).IncProcessed, world := s.2.1, calls := calls }

/-- The sink, called on `[processed]` as the store loop calls it from world `w`
at attempt number `attempt`, returns an error on each of the next `k` calls
and `nil` on the call after them. -/
def sinkFailsThenSucceeds {σ : Type} (env : Env σ) (baseBackoff : Duration)
    (processed : ProcessedEvent) : Nat → Int → σ → Bool
  | 0, _, w => (env.store [processed] w).1.isNone
  | k + 1, attempt, w =>
    (env.store [processed] w).1.isSome &&
      sinkFailsThenSucceeds env baseBackoff processed k (attempt + 1)
        (env.sleep (wrapInt64 (attempt * baseBackoff)) (env.store [processed] w).2)

/-! ## The external UUID parser -/

/-- The bytes of a Go string. -/
def goBytes (s : String) : List Nat := s.toUTF8.data.toList.map UInt8.toNat

/-- Value of one hexadecimal digit byte, `none` when the byte is not one
(the library's `xvalues` table). -/
def xvalue (b : Nat) : Option Nat :=
  if 48 ≤ b ∧ b ≤ 57 then some (b - 48)
  else if 65 ≤ b ∧ b ≤ 70 then some (b - 55)
  else if 97 ≤ b ∧ b ≤ 102 then some (b - 87)
  else none

/-- The library's `xtob`: the byte written by two hexadecimal digits. -/
def xtob (x1 x2 : Nat) : Option Nat :=
  match xvalue x1, xvalue x2 with
  | some b1, some b2 => some (16 * b1 + b2)
  | _, _ => none

/-- Decode the hexadecimal pairs that start at the given offsets. -/
def hexPairsAt (bs : List Nat) (offsets : List Nat) : Option UUID :=
  offsets.mapM fun x =>
    match bs[x]?, bs[x + 1]? with
    | some a, some b => xtob a b
    | _, _ => none

/-- The form `xxxxxxxx-xxxx-xxxx-xxxx-xxxxxxxxxxxx`, read from the start of `bs`. -/
def parseCanonical (bs : List Nat) : Option UUID :=
  if bs[8]? = some 45 ∧ bs[13]? = some 45 ∧ bs[18]? = some 45 ∧ bs[23]? = some 45 then
    hexPairsAt bs [0, 2, 4, 6, 9, 11, 14, 16, 19, 21, 24, 26, 28, 30, 32, 34]
  else
    none

/-- ASCII lower-casing of a byte. -/
def lowerByte (b : Nat) : Nat := if 65 ≤ b ∧ b ≤ 90 then b + 32 else b

/-- A model of `uuid.Parse` of the external library `github.com/google/uuid`,
which the validator calls and the repository does not contain.  It accepts the
36-byte canonical form, that form after `urn:uuid:` (any letter case) or
behind one leading and one trailing byte (`{...}`), and 32 bare hexadecimal
digits; every other length is an error.  The theorems about the validator hold
for any parser; this model instantiates them on concrete strings. -/
def uuidParse (s : String) : Option UUID :=
  let bs := goBytes s
  if bs.length = 36 then parseCanonical bs
  else if bs.length = 36 + 9 then
    if (bs.take 9).map lowerByte = goBytes "urn:uuid:" then parseCanonical (bs.drop 9) else none
  else if bs.length = 36 + 2 then parseCanonical (bs.drop 1)
  else if bs.length = 32 then
    hexPairsAt bs [0, 2, 4, 6, 8, 10, 12, 14, 16, 18, 20, 22, 24, 26, 28, 30]
  else none

/-! ## Pipeline coordinator and worker loop (`pipeline.go`, `worker.go`)

The pipeline is a transition system.  Each goroutine advances in atomic steps,
one per access to shared state (the channel, the cancellation signal, a
metrics counter) or collaborator call; a schedule, a list of `Action`s, fixes
the interleaving and the outcome of a `select` whose cases are both ready. -/

/-- Where a worker goroutine stands.  `drain` tells whether it is inside the
`for job := range w.jobChan` loop entered after `ctx.Done()` (true) or in the
`select` loop (false). -/
inductive WorkerState where
  /-- At the `select` of the main loop. -/
  | selecting : WorkerState
  /-- At the head of `for job := range w.jobChan`. -/
  | draining : WorkerState
  /-- A job was received; next is `IncReceived`. -/
  | dequeued (drain : Bool) (job : Event) : WorkerState
  /-- In `processJob`; next is `time.Now()` and `Validate`. -/
  | validating (drain : Bool) (job : Event) : WorkerState
  /-- In `processJob`; next is `Process`. -/
  | processing (drain : Bool) (job : Event) (start : Time) : WorkerState
  /-- In the store loop, the test `attempt <= maxRetries` passed; next is `Store`. -/
  | storing (drain : Bool) (processed : ProcessedEvent) (start : Time) (attempt : Int) :
      WorkerState
  /-- In the store loop after a failed `Store`; next is `time.Sleep`, `attempt++`
  and the loop test. -/
  | sleeping (drain : Bool) (processed : ProcessedEvent) (start : Time) (attempt : Int)
      (err : Err) : WorkerState
  /-- A terminal failure was decided; next is `IncFailed`. -/
  | failing (drain : Bool) : WorkerState
  /-- The store loop ended with `err == nil`; next is `AddLatency`. -/
  | succeeding (drain : Bool) (start : Time) : WorkerState
  /-- After `AddLatency`; next is `IncProcessed`. -/
  | counting (drain : Bool) : WorkerState
  /-- The goroutine returned (`wg.Done()` ran). -/
  | exited : WorkerState

/-- Whether the worker has returned. -/
def WorkerState.isExited : WorkerState → Bool
  | .exited => true
  | _ => false

/-- Whether the worker holds an event that was counted as received and not yet
as processed or failed. -/
def WorkerState.inFlight : WorkerState → Bool
  | .validating _ _ => true
  | .processing _ _ _ => true
  | .storing _ _ _ _ => true
  | .sleeping _ _ _ _ _ => true
  | .failing _ => true
  | .succeeding _ _ => true
  | .counting _ => true
  | _ => false

/-- The loop head a worker returns to after `processJob`. -/
def WorkerState.loopHead (drain : Bool) : WorkerState :=
  if drain then .draining else .selecting

/-- The state of an `EventPipeline`: the channel, the cancellation signal, the
worker goroutines, the metrics and the world of the collaborators.  `calls` is
the record of collaborator calls in the order they were made; `panicked` is
set when a goroutine panics, which ends the process. -/
structure Pipeline (σ : Type) where
  cfg : Config
  queue : List Event
  closed : Bool
  cancelled : Bool
  workers : List WorkerState
  metrics : Metrics
  world : σ
  startTime : Time
  calls : List Call
  panicked : Bool

/-- `NewEventPipeline`: an open, empty channel of capacity `cfg.QueueSize`, a
live context and `cfg.WorkerCount` started workers.  A negative queue size
makes `make(chan Event, n)` panic. -/
def NewEventPipeline {σ : Type} (env : Env σ) (cfg : Config) (metrics : Metrics) (w : σ) :
    Pipeline σ :=
  { cfg := cfg
    queue := []
    closed := false
    cancelled := false
    workers := if cfg.QueueSize < 0 then [] else List.replicate cfg.WorkerCount.toNat .selecting
    metrics := metrics
    world := w
    startTime := env.now w
    calls := []
    panicked := decide (cfg.QueueSize < 0) }

/-- `EventPipeline.Metrics`. -/
def Pipeline.Metrics {σ : Type} (p : Pipeline σ) : Metrics := p.metrics

/-- `EventPipeline.WorkerCount`. -/
def Pipeline.WorkerCount {σ : Type} (p : Pipeline σ) : Nat := p.workers.length

/-- `EventPipeline.StartTime`. -/
def Pipeline.StartTime {σ : Type} (p : Pipeline σ) : Time := p.startTime

/-- The event `Ingest` sends, `NewEvent(ev)`, and the world after producing
it: the UUID source is consulted only for an empty id. -/
def normalize {σ : Type} (env : Env σ) (ev : Event) (w : σ) : Event × σ :=
  (NewEvent (env.uuidNew w).1 (env.now w) ev, if ev.ID == "" then (env.uuidNew w).2 else w)

/-- `EventPipeline.Ingest`: send `NewEvent(ev)` on the channel.  The send panics
on a closed channel and blocks (`none`) while the buffer is full.  The channel
is taken to be buffered: a send on a channel of capacity 0, which completes
only by handing the event to a waiting receiver, stays blocked here. -/
def Pipeline.Ingest {σ : Type} (env : Env σ) (ev : Event) (p : Pipeline σ) :
    Option (Pipeline σ) :=
  let n := normalize env ev p.world
  if p.closed then
    some { p with world := n.2, panicked := true }
  else if (p.queue.length : Int) < p.cfg.QueueSize then
    some { p with world := n.2, queue := p.queue ++ [n.1] }
  else
    none

/-- One atomic step of a worker in state `ws`; `none` when the worker is
blocked or has returned.  `preferDone` resolves a `select` whose two cases are
both ready in favour of `ctx.Done()`. -/
def workerStep {σ : Type} (env : Env σ) (preferDone : Bool) (ws : WorkerState)
    (p : Pipeline σ) : Option (WorkerState × Pipeline σ) :=
  match ws with
  | .selecting =>
    let recvReady := !p.queue.isEmpty || p.closed
    if p.cancelled && (preferDone || !recvReady) then
      some (.draining, p)
    else
      match p.queue with
      | job :: rest => some (.dequeued false job, { p with queue := rest })
      | [] => if p.closed then some (.exited, p) else none
  | .draining =>
    match p.queue with
    | job :: rest => some (.dequeued true job, { p with queue := rest })
    | [] => if p.closed then some (.exited, p) else none
  | .dequeued drain job =>
    some (.validating drain job, { p with metrics := p.metrics.IncReceived })
  | .validating drain job =>
    let start := env.now p.world
    let v := env.validate job p.world
    let p1 := { p with world := v.2, calls := p.calls ++ [Call.validate job v.1] }
    match v.1 with
    | some _ => some (.failing drain, p1)
    | none => some (.processing drain job start, p1)
  | .processing drain job start =>
    let r := env.process job p.world
    let p1 := { p with world := r.2, calls := p.calls ++ [Call.process job r.1] }
    match r.1 with
    | .error _ => some (.failing drain, p1)
    | .ok processed =>
      if 1 ≤ p.cfg.MaxRetries then some (.storing drain processed start 1, p1)
      else some (.succeeding drain start, p1)
  | .storing drain processed start attempt =>
    let s := env.store [processed] p.world
    let p1 := { p with world := s.2, calls := p.calls ++ [Call.store [processed] s.1] }
    match s.1 with
    | none => some (.succeeding drain start, p1)
    | some err => some (.sleeping drain processed start attempt err, p1)
  | .sleeping drain processed start attempt _ =>
    let d := wrapInt64 (attempt * p.cfg.RetryBaseBackoff)
    let p1 := { p with world := env.sleep d p.world, calls := p.calls ++ [Call.sleep d] }
    if attempt + 1 ≤ p.cfg.MaxRetries then some (.storing drain processed start (attempt + 1), p1)
    else some (.failing drain, p1)
  | .failing drain =>
    some (WorkerState.loopHead drain, { p with metrics := p.metrics.IncFailed })
  | .succeeding drain start =>
    let latency := (Since (env.now p.world) start).Milliseconds
    some (.counting drain, { p with metrics := p.metrics.AddLatency latency })
  | .counting drain =>
    some (WorkerState.loopHead drain, { p with metrics := p.metrics.IncProcessed })
  | .exited => none

/-- Let one worker take `k` steps in a row, with no other goroutine in between. -/
def workerRun {σ : Type} (env : Env σ) :
    Nat → WorkerState → Pipeline σ → Option (WorkerState × Pipeline σ)
  | 0, ws, p => some (ws, p)
  | k + 1, ws, p =>
    match workerStep env false ws p with
    | none => none
    | some (ws1, p1) => workerRun env k ws1 p1

/-- What the scheduler may run next. -/
inductive Action where
  /-- A producer's `Ingest(ev)`. -/
  | ingest (ev : Event) : Action
  /-- `close(p.ingestionChan)`, the first step of `Shutdown`. -/
  | closeQueue : Action
  /-- `p.cancel()`, the second step of `Shutdown`. -/
  | cancel : Action
  /-- One step of worker `i` (counted from 0). -/
  | work (i : Nat) (preferDone : Bool) : Action

/-- One transition of the pipeline; `none` when the action cannot run (it is
blocked, names no worker, or the process has panicked).  Closing a closed
channel panics. -/
def Pipeline.step {σ : Type} (env : Env σ) (a : Action) (p : Pipeline σ) :
    Option (Pipeline σ) :=
  if p.panicked then none
  else
    match a with
    | .ingest ev => p.Ingest env ev
    | .closeQueue =>
      if p.closed then some { p with panicked := true } else some { p with closed := true }
    | .cancel => some { p with cancelled := true }
    | .work i preferDone =>
      match p.workers[i]? with
      | none => none
      | some ws =>
        match workerStep env preferDone ws p with
        | none => none
        | some (ws1, p1) => some { p1 with workers := p1.workers.set i ws1 }

/-- Run a schedule; `none` when one of its actions cannot run. -/
def Pipeline.run {σ : Type} (env : Env σ) : List Action → Pipeline σ → Option (Pipeline σ)
  | [], p => some p
  | a :: rest, p =>
    match p.step env a with
    | none => none
    | some p1 => Pipeline.run env rest p1

/-- `wg.Wait()` has nothing left to wait for: every worker has returned. -/
def Pipeline.allExited {σ : Type} (p : Pipeline σ) : Bool := p.workers.all WorkerState.isExited

/-- `Shutdown` has returned: the channel is closed, the context cancelled and
every worker has returned, without a panic. -/
def Pipeline.shutDown {σ : Type} (p : Pipeline σ) : Bool :=
  p.closed && p.cancelled && p.allExited && !p.panicked

/-- Number of events counted as received and not yet as processed or failed. -/
def Pipeline.inFlight {σ : Type} (p : Pipeline σ) : Nat := p.workers.countP WorkerState.inFlight

/-- The counters are in balance after at most `n` steps: they are the `uint64`
images of true counts `r`, `pr`, `f` with `r = pr + f + inFlight`. -/
def Pipeline.Balanced {σ : Type} (p : Pipeline σ) (n : Nat) : Prop :=
  ∃ r pr f : Nat, p.metrics.received = r % u64 ∧ p.metrics.processed = pr % u64 ∧
    p.metrics.failed = f % u64 ∧ r = pr + f + p.inFlight ∧ r ≤ n

/-- Once some worker has returned, the channel is closed and empty. -/
def Pipeline.Drained {σ : Type} (p : Pipeline σ) : Prop :=
  (∃ ws ∈ p.workers, ws.isExited = true) → p.closed = true ∧ p.queue = []

/-! ## Sample collaborators -/

/-- A sample world: the clock and the number of `Store` calls seen so far. -/
structure SampleWorld where
  clock : Time
  storeCalls : Nat
  deriving DecidableEq, Repr

/-- Sample collaborators in the manner of the test mocks: a validator that
rejects an empty type, a processor that fails on the source `"bad"` and
otherwise stamps the event after 5 ms, and a sink that fails its first
`shouldFail` calls (`FlakyStorage`). -/
def sampleEnv (shouldFail : Nat) : Env SampleWorld where
  validate := fun e w => (if e.Typ == "" then some "missing type" else none, w)
  process := fun e w =>
    if e.Source == "bad" then (.error "cannot process", w)
    else
      let w1 := { w with clock := w.clock + 5000000 }
      (.ok { Event := e, ProcessingTimeMS := 5, ProcessedAt := w1.clock }, w1)
  store := fun _ w =>
    (if w.storeCalls < shouldFail then some "forced failure" else none,
      { w with storeCalls := w.storeCalls + 1 })
  sleep := fun d w => { w with clock := w.clock + d }
  now := fun w => w.clock
  uuidNew := fun w => ("123e4567-e89b-42d3-a456-426614174000", w)

/-- The sample collaborators with a sink that fails every call (the
`AlwaysFailIDs` case of `FlakyStorage`). -/
def failingEnv : Env SampleWorld :=
  { sampleEnv 0 with
    store := fun _ w =>
      (some "forced permanent failure", { w with storeCalls := w.storeCalls + 1 }) }

/-- The processed event the sample processor returns for `job` in world `w`. -/
def sampleProcessed (job : Event) (w : SampleWorld) : ProcessedEvent :=
  { Event := job, ProcessingTimeMS := 5, ProcessedAt := w.clock + 5000000 }

/-- A sample event with type and source set. -/
def sampleEvent : Event :=
  { ID := "", Typ := "user_action", Source := "web", Timestamp := 0, UserID := "", Data := [] }

/-- A sample configuration: the defaults of `config.Load`. -/
def sampleConfig : Config :=
  { WorkerCount := 4, QueueSize := 1000, MaxRetries := 3, RetryBaseBackoff := 20000000 }

/-- A sample starting world. -/
def sampleWorld : SampleWorld := { clock := 1000000000, storeCalls := 0 }

/-- A sample pipeline, freshly constructed with a single worker. -/
def samplePipeline : Pipeline SampleWorld :=
  NewEventPipeline (sampleEnv 2) { sampleConfig with WorkerCount := 1 } (NewMetrics 0) sampleWorld

/-- A schedule that lets worker `i` take `n` steps in a row. -/
def workSteps (i n : Nat) : List Action := List.replicate n (Action.work i false)

/-- A sample schedule for one worker: two ingests, `Shutdown`'s close and
cancel, and the worker steps that handle both events and return. -/
def sampleSchedule : List Action :=
  [Action.ingest sampleEvent, Action.ingest { sampleEvent with Typ := "" }] ++
    workSteps 0 3 ++ [Action.closeQueue, Action.cancel] ++ workSteps 0 13

/-! ## Reading a trace -/

/-- The durations of the `time.Sleep` calls in a trace, in order. -/
def sleepDurations : List Call → List Duration
  | [] => []
  | Call.sleep d :: cs => d :: sleepDurations cs
  | _ :: cs => sleepDurations cs

/-- The batches handed to `Store` in a trace, in order. -/
def storeBatches : List Call → List (List ProcessedEvent)
  | [] => []
  | Call.store batch _ :: cs => batch :: storeBatches cs
  | _ :: cs => storeBatches cs

/-- The linear backoff `attempt * baseBackoff` for the `k` attempts that start
at attempt number `first`, each product taken in `int64` as
`time.Duration(attempt) * baseBackoff` is. -/
def linearBackoff (baseBackoff : Duration) (first : Int) (k : Nat) : List Duration :=
  (List.range k).map fun (i : Nat) => wrapInt64 ((first + (i : Int)) * baseBackoff)

/-- The two steps `Shutdown` takes before it waits on the workers:
`close(p.ingestionChan)` and `p.cancel()`. -/
def shutdownSteps : List Action := [Action.closeQueue, Action.cancel]

/-! ## Ingest order and store order -/

/-- The jobs handed to `Validate` in a trace, in order: the events the workers
took up, each at the start of its `processJob`. -/
def validatedJobs (cs : List Call) : List Event :=
  cs.filterMap fun c =>
    match c with
    | Call.validate job _ => some job
    | _ => none

/-- The processed events the sink accepted: the contents of the batches of the
`Store` calls that returned `nil`, in order. -/
def acceptedEvents (cs : List Call) : List ProcessedEvent :=
  cs.flatMap fun c =>
    match c with
    | Call.store batch none => batch
    | _ => []

/-- One step of reading a single worker's trace: a `Validate` call opens the
handling of its job; the first successful one-element `Store` after it is
recorded with that job and closes it. -/
def readCall (s : Option Event × List (Event × ProcessedEvent)) (c : Call) :
    Option Event × List (Event × ProcessedEvent) :=
  match s, c with
  | (_, out), Call.validate job _ => (some job, out)
  | (some job, out), Call.store [pe] none => (none, out ++ [(job, pe)])
  | s, _ => s

/-- Reading of a whole trace: the job being handled, if it is not yet stored,
and the stored jobs so far, each with the processed event the sink accepted. -/
def reading (cs : List Call) : Option Event × List (Event × ProcessedEvent) :=
  cs.foldl readCall (none, [])

/-- The jobs whose processed event the sink accepted, each with that event, in
the order of the successful `Store` calls. -/
def storedJobs (cs : List Call) : List (Event × ProcessedEvent) := (reading cs).2

/-- The event an action sends on the channel from state `p`, if any: an
`Ingest` on an open channel sends `NewEvent(ev)`. -/
def sentBy {σ : Type} (env : Env σ) (a : Action) (p : Pipeline σ) : List Event :=
  match a with
  | Action.ingest ev => if p.closed then [] else [(normalize env ev p.world).1]
  | _ => []

/-- The events sent on the channel along a schedule, in the order of the sends. -/
def Pipeline.sent {σ : Type} (env : Env σ) : List Action → Pipeline σ → List Event
  | [], _ => []
  | a :: rest, p =>
    match p.step env a with
    | none => []
    | some p1 => sentBy env a p ++ Pipeline.sent env rest p1

/-- The event a worker has received and not yet handed to `Validate`. -/
def WorkerState.pending : WorkerState → List Event
  | .dequeued _ job => [job]
  | .validating _ job => [job]
  | _ => []

/-- Whether the worker is between `Validate` and the end of the store loop. -/
def WorkerState.beforeStore : WorkerState → Bool
  | .processing _ _ _ => true
  | .storing _ _ _ _ => true
  | .sleeping _ _ _ _ _ => true
  | _ => false

/-- The ordering invariant of a pipeline with the single worker `ws`, against
the events `sent` so far: they are the jobs taken up, then the one in the
worker's hands, then the queue; a worker before the end of its store loop has
an open job in the trace; and every accepted event is recorded with its job. -/
def Pipeline.Ordered {σ : Type} (p : Pipeline σ) (sent : List Event) : Prop :=
  ∃ ws, p.workers = [ws] ∧
    sent = validatedJobs p.calls ++ ws.pending ++ p.queue ∧
    (ws.beforeStore = true → (reading p.calls).1.isSome = true) ∧
    acceptedEvents p.calls = (storedJobs p.calls).map Prod.snd

/-- A sample schedule for one worker: two ingests of valid events, from the
sources `"web"` and `"app"`, and the worker steps that store both. -/
def orderSchedule : List Action :=
  [Action.ingest sampleEvent, Action.ingest { sampleEvent with Source := "app" }] ++
    workSteps 0 18

/-! ## The external UUID encoder -/

/-- The lower-case hexadecimal digit of a value below 16. -/
def hexDigit (n : Nat) : Char := if n < 10 then Char.ofNat (48 + n) else Char.ofNat (87 + n)

/-- The two hexadecimal digits of a byte. -/
def hexByte (b : Nat) : List Char := [hexDigit (b / 16), hexDigit (b % 16)]

/-- A model of `UUID.String` of the external library `github.com/google/uuid`,
which renders the value `uuid.New()` returns: the sixteen bytes in lower-case
hexadecimal, grouped 4-2-2-2-6 and joined by hyphens. -/
def uuidString (u : UUID) : String :=
  String.mk
    ((u.take 4).flatMap hexByte ++ ['-'] ++ ((u.drop 4).take 2).flatMap hexByte ++ ['-'] ++
      ((u.drop 6).take 2).flatMap hexByte ++ ['-'] ++ ((u.drop 8).take 2).flatMap hexByte ++
      ['-'] ++ (u.drop 10).flatMap hexByte)

/-- The byte of a lower-case hexadecimal digit. -/
def hexCode (n : Nat) : Nat := if n < 10 then 48 + n else 87 + n

/-- A sample UUID value, as `uuid.New()` may return it (version 4, variant 10). -/
def sampleUUID : UUID := [18, 62, 69, 103, 232, 155, 66, 211, 164, 86, 66, 102, 20, 23, 64, 0]

/-! ## Derived metrics (`internal/pipeline/metrics.go`)

`AvgLatencyMS` computes in `float64`.  A `float64` is modelled by the rational
number it holds; conversion and division round to the nearest value with a
53-bit significand, ties to even, as IEEE 754 binary64 does.  The operands that
occur, `uint64` values and their quotients, stay inside the normal range. -/

/-- Position of the highest set bit, by halving at most `fuel` times. -/
def log2Fuel : Nat → Nat → Nat
  | 0, _ => 0
  | fuel + 1, n => if n < 2 then 0 else log2Fuel fuel (n / 2) + 1

/-- The exponent `e` with `2^e <= n < 2^(e+1)`, for `n >= 1`. -/
def floorLog2 (n : Nat) : Nat := log2Fuel n n

/-- The integer nearest to `n / d`, a tie going to the even one. -/
def roundHalfEven (n d : Nat) : Nat :=
  if 2 * (n % d) < d then n / d
  else if d < 2 * (n % d) then n / d + 1
  else if (n / d) % 2 = 0 then n / d else n / d + 1

/-- The value of Go's conversion `float64(x)` of a `uint64`: `x` itself below
`2^53`, and otherwise `x` rounded to 53 significant bits. -/
def float64OfUint64 (x : Nat) : Nat :=
  if x < 2 ^ 53 then x
  else roundHalfEven x (2 ^ (floorLog2 x - 52)) * 2 ^ (floorLog2 x - 52)

/-- The binary exponent of the quotient `a / b`: the `e` with
`2^e <= a / b < 2^(e+1)`, for `a, b >= 1`. -/
def quotExponent (a b : Nat) : Int :=
  if b * 2 ^ floorLog2 a ≤ a * 2 ^ floorLog2 b then (floorLog2 a : Int) - floorLog2 b
  else (floorLog2 a : Int) - floorLog2 b - 1

/-- Significand and scale of the `float64` quotient of `a` by `b`: the quotient
is `significand * 2^scale`, with the significand rounded to 53 bits. -/
def float64DivParts (a b : Nat) : Nat × Int :=
  let s := quotExponent a b - 52
  (if 0 ≤ s then roundHalfEven a (b * 2 ^ s.toNat) else roundHalfEven (a * 2 ^ (-s).toNat) b, s)

/-- The value of the `float64` division `a / b` of two floats that hold the
natural numbers `a` and `b`.  A zero dividend gives zero; a zero divisor does
not occur in `AvgLatencyMS` and is given zero here. -/
def float64Div (a b : Nat) : ℚ :=
  if a = 0 ∨ b = 0 then 0
  else
    if 0 ≤ (float64DivParts a b).2 then
      ((float64DivParts a b).1 : ℚ) * ((2 ^ (float64DivParts a b).2.toNat : Nat) : ℚ)
    else
      ((float64DivParts a b).1 : ℚ) / ((2 ^ (-(float64DivParts a b).2).toNat : Nat) : ℚ)

/-- `Metrics.AvgLatencyMS`: 0 when nothing was processed, otherwise
`float64(total) / float64(processed)`. -/
def Metrics.AvgLatencyMS (m : Metrics) : ℚ :=
  if m.processed = 0 then 0
  else float64Div (float64OfUint64 m.totalLatencyMS) (float64OfUint64 m.processed)

/-- A call of one of the mutating methods of `Metrics`. -/
inductive MetricsCall where
  | IncReceived : MetricsCall
  | IncProcessed : MetricsCall
  | IncFailed : MetricsCall
  | AddLatency (ms : Int) : MetricsCall
  deriving DecidableEq, Repr

/-- The metrics after one call. -/
def Metrics.apply (m : Metrics) : MetricsCall → Metrics
  | .IncReceived => m.IncReceived
  | .IncProcessed => m.IncProcessed
  | .IncFailed => m.IncFailed
  | .AddLatency ms => m.AddLatency ms

/-- The metrics after a sequence of calls, made one after the other. -/
def Metrics.applyAll (m : Metrics) (cs : List MetricsCall) : Metrics := cs.foldl Metrics.apply m

/-- The arguments of the `AddLatency` calls of a sequence, in order. -/
def latencies : List MetricsCall → List Int
  | [] => []
  | .AddLatency ms :: cs => ms :: latencies cs
  | _ :: cs => latencies cs

/-- The number of `IncProcessed` calls of a sequence. -/
def processedCalls : List MetricsCall → Nat
  | [] => 0
  | .IncProcessed :: cs => processedCalls cs + 1
  | _ :: cs => processedCalls cs

/-- The calls of the metrics unit test: two processed events with latencies 10
and 20, one failed event. -/
def sampleMetricsCalls : List MetricsCall :=
  [.IncReceived, .IncProcessed, .AddLatency 10, .IncReceived, .IncProcessed, .AddLatency 20,
    .IncReceived, .IncFailed]

/-- Three processed events with a latency of `2^53 + 1` ms each. -/
def hugeLatencyCalls : List MetricsCall :=
  [.IncProcessed, .AddLatency 9007199254740993, .IncProcessed, .AddLatency 9007199254740993,
    .IncProcessed, .AddLatency 9007199254740993]

/-- The number of `IncReceived` calls of a sequence. -/
def receivedCalls : List MetricsCall → Nat
  | [] => 0
  | .IncReceived :: cs => receivedCalls cs + 1
  | _ :: cs => receivedCalls cs

/-- The number of `IncFailed` calls of a sequence. -/
def failedCalls : List MetricsCall → Nat
  | [] => 0
  | .IncFailed :: cs => failedCalls cs + 1
  | _ :: cs => failedCalls cs

/-! ## The health endpoint (`internal/api/handlers.go`) -/

/-- `EventPipeline.Context().Err()`: `nil` until the context is cancelled,
`context.Canceled` from then on. -/
def Pipeline.ContextErr {σ : Type} (p : Pipeline σ) : Option Err :=
  if p.cancelled then some "context canceled" else none

/-- `Server.handleHealth`: the value of the `healthy` field of the response,
`s.Pipeline.Context().Err() == nil`. -/
def handleHealth {σ : Type} (p : Pipeline σ) : Bool := p.ContextErr.isNone

/-! ## The worker pool and the batch endpoint -/

/-- The `id` of the worker at index `i` of the pool: the loop of
`NewEventPipeline` appends, for `i` from 0, a worker with `id: i + 1`. -/
def workerId (i : Nat) : Int := (i : Int) + 1

/-- The ids of the workers of the pool, in pool order. -/
def Pipeline.workerIds {σ : Type} (p : Pipeline σ) : List Int :=
  (List.range p.workers.length).map workerId

/-- The events a sequence of `Ingest` calls sends, in order, and the world
after the last of them. -/
def normalizeAll {σ : Type} (env : Env σ) : List Event → σ → List Event × σ
  | [], w => ([], w)
  | ev :: rest, w =>
    ((normalize env ev w).1 :: (normalizeAll env rest (normalize env ev w).2).1,
      (normalizeAll env rest (normalize env ev w).2).2)

/-- How a handler call stands: it wrote a status and returned, it was unwound
by a panic before writing one, or it waits in an `Ingest` on a full queue. -/
inductive Reply (σ : Type) where
  /-- The handler wrote the status `code` and returned. -/
  | status (code : Nat) (p : Pipeline σ) : Reply σ
  /-- An `Ingest` panicked: the channel was closed. -/
  | aborted (p : Pipeline σ) : Reply σ
  /-- An `Ingest` waits for room in the queue. -/
  | blocked (p : Pipeline σ) : Reply σ

/-- The loop `for _, ev := range req.Events { s.Pipeline.Ingest(ev) }` of
`handleBatchEvents` and the `w.WriteHeader(http.StatusAccepted)` after it, run
with no other goroutine in between. -/
def ingestBatch {σ : Type} (env : Env σ) : List Event → Pipeline σ → Reply σ
  | [], p => .status 202 p
  | ev :: rest, p =>
    match p.Ingest env ev with
    | none => .blocked p
    | some p1 => if p.closed then .aborted p1 else ingestBatch env rest p1

/-- `Server.handleBatchEvents` on a request with method `method` whose body
decodes to `body` (`none` when the JSON decoder fails): 405 for a method other
than POST, 400 for an undecodable body and for more than 100 events, and
otherwise the ingest loop and 202. -/
def handleBatchEvents {σ : Type} (env : Env σ) (method : String) (body : Option (List Event))
    (p : Pipeline σ) : Reply σ :=
  if method != "POST" then .status 405 p
  else
    match body with
    | none => .status 400 p
    | some events => if events.length > 100 then .status 400 p else ingestBatch env events p

/-- A batch of two events: the sample event and one from the source `"app"`. -/
def sampleBatch : List Event := [sampleEvent, { sampleEvent with Source := "app" }]

/-! ## Events per second (`metrics.go`)

`EPS` computes in `float64`, modelled as before by the rational a float holds.
`float64Round` is the rounding every `float64` operation ends with. -/

/-- The `float64` nearest to the rational `q`, a tie going to the even
significand: the rounding of IEEE 754 binary64 inside the normal range. -/
def float64Round (q : ℚ) : ℚ :=
  if 0 ≤ q then float64Div q.num.toNat q.den else -float64Div (-q.num).toNat q.den

/-- `Duration.Seconds`: `float64(sec) + float64(nsec)/1e9` with
`sec := d / Second` and `nsec := d % Second`, Go's truncated division.  The two
conversions and the constant are exact, `sec` being below `2^63 / 10^9` and
`nsec` below `10^9` in size; the division and the addition round. -/
def Duration.Seconds (d : Duration) : ℚ :=
  float64Round (((Int.tdiv d 1000000000 : Int) : ℚ)
    + float64Round (((Int.tmod d 1000000000 : Int) : ℚ) / 1000000000))

/-- `Metrics.EPS`, read at the instant `now`: 0 when the elapsed seconds are not
positive, otherwise `float64(processed) / secs`. -/
def Metrics.EPS (m : Metrics) (now : Time) : ℚ :=
  if (Since now m.startTime).Seconds ≤ 0 then 0
  else float64Round ((float64OfUint64 m.GetProcessed : ℚ) / (Since now m.startTime).Seconds)

/-! # Theorems -/

/-! ## The store loop -/

/-- With no iteration admitted the loop leaves `err` and the world as they are. -/
theorem storeLoop_zero {σ : Type} (env : Env σ) (base : Duration) (pe : ProcessedEvent)
    (a : Int) (err : Option Err) (w : σ) :
    storeLoop env base pe 0 a err w = (err, w, []) := rfl

/-- Against a sink that errors on every call, the loop makes one `Store` call
per admitted iteration and ends with an error once it has run at all. -/
theorem storeLoop_all_fail {σ : Type} (env : Env σ) (base : Duration) (pe : ProcessedEvent)
    (hs : ∀ batch w, (env.store batch w).1 ≠ none) :
    ∀ (n : Nat) (a : Int) (err : Option Err) (w : σ),
      storeCount (storeLoop env base pe n a err w).2.2 = n ∧
      (0 < n → (storeLoop env base pe n a err w).1 ≠ none) := by
  intro n
  induction n with
  | zero => intro a err w; simp [storeLoop, storeCount]
  | succ n ih =>
    intro a err w
    cases h : (env.store [pe] w).1 with
    | none => exact absurd h (hs _ _)
    | some e =>
      have ih1 := ih (a + 1) (some e) (env.sleep (wrapInt64 (a * base)) (env.store [pe] w).2)
      simp only [storeLoop, h]
      refine ⟨?_, fun _ => ?_⟩
      · have := ih1.1
        simp only [storeCount] at this ⊢
        simp [List.countP_cons, Call.isStore, this]
      · rcases Nat.eq_zero_or_pos n with h0 | hpos
        · subst h0; simp [storeLoop]
        · exact ih1.2 hpos

/-- When the sink errors `k` times and then succeeds, and the loop admits more
than `k` iterations, it makes `k + 1` `Store` calls, of which exactly the last
returns `nil`, and ends with `err == nil`. -/
theorem storeLoop_fails_then_succeeds {σ : Type} (env : Env σ) (base : Duration)
    (pe : ProcessedEvent) :
    ∀ (k n : Nat) (a : Int) (err : Option Err) (w : σ), k < n →
      sinkFailsThenSucceeds env base pe k a w = true →
      (storeLoop env base pe n a err w).1 = none ∧
      storeCount (storeLoop env base pe n a err w).2.2 = k + 1 ∧
      (storeLoop env base pe n a err w).2.2.countP Call.isStoreOk = 1 := by
  intro k
  induction k with
  | zero =>
    intro n a err w hn hk
    obtain ⟨n, rfl⟩ : ∃ n', n = n' + 1 := ⟨n - 1, by omega⟩
    simp only [sinkFailsThenSucceeds, Option.isNone_iff_eq_none] at hk
    simp [storeLoop, hk, storeCount, Call.isStore, Call.isStoreOk]
  | succ k ih =>
    intro n a err w hn hk
    obtain ⟨n, rfl⟩ : ∃ n', n = n' + 1 := ⟨n - 1, by omega⟩
    simp only [sinkFailsThenSucceeds, Bool.and_eq_true, Option.isSome_iff_exists] at hk
    obtain ⟨⟨e, he⟩, hrest⟩ := hk
    have ih1 := ih n (a + 1) (some e) _ (by omega) hrest
    simp only [storeLoop, he]
    refine ⟨ih1.1, ?_, ?_⟩
    · have := ih1.2.1
      simp only [storeCount] at this ⊢
      simp [List.countP_cons, Call.isStore, this]
    · have := ih1.2.2
      simp [List.countP_cons, Call.isStoreOk, this]

/-- A `uint64` counter never keeps its value when 1 is added to it. -/
theorem succ_mod_u64_ne (x : Nat) : (x + 1) % u64 ≠ x := by
  unfold u64
  omega

/-- The loop ends with `err == nil` exactly when one of its `Store` calls
returned `nil`, provided it runs at least once or starts from an error. -/
theorem storeLoop_nil_iff {σ : Type} (env : Env σ) (base : Duration) (pe : ProcessedEvent) :
    ∀ (n : Nat) (a : Int) (err : Option Err) (w : σ), (0 < n ∨ err ≠ none) →
      ((storeLoop env base pe n a err w).1 = none ↔
        (storeLoop env base pe n a err w).2.2.any Call.isStoreOk = true) := by
  intro n
  induction n with
  | zero =>
    intro a err w h
    rcases h with h | h
    · omega
    · simp [storeLoop, h]
  | succ n ih =>
    intro a err w _
    cases h : (env.store [pe] w).1 with
    | none => simp [storeLoop, h, Call.isStoreOk]
    | some e =>
      have ih1 := ih (a + 1) (some e) (env.sleep (wrapInt64 (a * base)) (env.store [pe] w).2)
        (Or.inr (by simp))
      simp only [storeLoop, h]
      rw [ih1]
      simp [Call.isStoreOk]

/-! ## `processJob` -/

/-- Claim C2.  For `max_retries = N >= 1` and an event that passes validation
and processing, a sink that errors on every call is invoked exactly `N` times
by `processJob`, `failed` goes up by one, and `processed` and the total latency
stay as they were. -/
theorem processJob_sink_always_fails {σ : Type} (env : Env σ) (cfg : Config) (job : Event)
    (m : Metrics) (w : σ) (pe : ProcessedEvent)
    (hN : 1 ≤ cfg.MaxRetries)
    (hv : (env.validate job w).1 = none)
    (hp : (env.process job (env.validate job w).2).1 = .ok pe)
    (hs : ∀ batch w1, (env.store batch w1).1 ≠ none) :
    (storeCount (processJob env cfg job m w).calls : Int) = cfg.MaxRetries ∧
    (processJob env cfg job m w).metrics.failed = (m.failed + 1) % u64 ∧
    (processJob env cfg job m w).metrics.processed = m.processed ∧
    (processJob env cfg job m w).metrics.totalLatencyMS = m.totalLatencyMS := by
  have hl := storeLoop_all_fail env cfg.RetryBaseBackoff pe hs cfg.MaxRetries.toNat 1 none
    (env.process job (env.validate job w).2).2
  have hpos : 0 < cfg.MaxRetries.toNat := by omega
  have hne := hl.2 hpos
  have hcnt := hl.1
  simp only [processJob, hv, hp]
  cases hres : (storeLoop env cfg.RetryBaseBackoff pe cfg.MaxRetries.toNat 1 none
      (env.process job (env.validate job w).2).2).1 with
  | none => exact absurd hres hne
  | some e =>
    simp only [storeCount] at hcnt ⊢
    simp [List.countP_cons, Call.isStore, hcnt, Metrics.IncFailed]
    omega

/-- Witness for C2: the default three attempts against a sink that never succeeds. -/
theorem processJob_sink_always_fails_witness :
    (1 ≤ sampleConfig.MaxRetries ∧
      (∀ batch w1, (failingEnv.store batch w1).1 ≠ none)) ∧
    ((storeCount (processJob failingEnv sampleConfig sampleEvent (NewMetrics 0)
        sampleWorld).calls : Int) = sampleConfig.MaxRetries ∧
    (processJob failingEnv sampleConfig sampleEvent (NewMetrics 0) sampleWorld).metrics.failed
      = ((NewMetrics 0).failed + 1) % u64 ∧
    (processJob failingEnv sampleConfig sampleEvent (NewMetrics 0) sampleWorld).metrics.processed
      = (NewMetrics 0).processed ∧
    (processJob failingEnv sampleConfig sampleEvent (NewMetrics 0)
        sampleWorld).metrics.totalLatencyMS = (NewMetrics 0).totalLatencyMS) :=
  ⟨⟨by decide, fun _ _ => by simp [failingEnv]⟩,
    processJob_sink_always_fails failingEnv sampleConfig sampleEvent (NewMetrics 0) sampleWorld
      (sampleProcessed sampleEvent sampleWorld) (by decide) rfl rfl
      (fun _ _ => by simp [failingEnv])⟩

/-- Claim C3.  For `max_retries = N >= 1`, `K < N` and an event that passes
validation and processing, a sink that errors on the first `K` `Store` calls
for the event and succeeds on the next is invoked exactly `K + 1` times by
`processJob`, `processed` goes up by one and `failed` stays as it was. -/
theorem processJob_retry_then_success {σ : Type} (env : Env σ) (cfg : Config) (job : Event)
    (m : Metrics) (w : σ) (pe : ProcessedEvent) (K : Nat)
    (hN : 1 ≤ cfg.MaxRetries) (hK : (K : Int) < cfg.MaxRetries)
    (hv : (env.validate job w).1 = none)
    (hp : (env.process job (env.validate job w).2).1 = .ok pe)
    (hs : sinkFailsThenSucceeds env cfg.RetryBaseBackoff pe K 1
      (env.process job (env.validate job w).2).2 = true) :
    storeCount (processJob env cfg job m w).calls = K + 1 ∧
    (processJob env cfg job m w).metrics.processed = (m.processed + 1) % u64 ∧
    (processJob env cfg job m w).metrics.failed = m.failed := by
  have hl := storeLoop_fails_then_succeeds env cfg.RetryBaseBackoff pe K cfg.MaxRetries.toNat 1
    none (env.process job (env.validate job w).2).2 (by omega) hs
  simp only [processJob, hv, hp, hl.1]
  have hcnt := hl.2.1
  simp only [storeCount] at hcnt ⊢
  simp [List.countP_cons, Call.isStore, hcnt, Metrics.IncProcessed, Metrics.AddLatency]

/-- Witness for C3: the sink fails twice and succeeds on the third of three attempts. -/
theorem processJob_retry_then_success_witness :
    (1 ≤ sampleConfig.MaxRetries ∧ ((2 : Nat) : Int) < sampleConfig.MaxRetries ∧
      sinkFailsThenSucceeds (sampleEnv 2) sampleConfig.RetryBaseBackoff
        (sampleProcessed sampleEvent sampleWorld) 2 1
        (((sampleEnv 2).process sampleEvent
          ((sampleEnv 2).validate sampleEvent sampleWorld).2).2) = true) ∧
    (storeCount (processJob (sampleEnv 2) sampleConfig sampleEvent (NewMetrics 0)
        sampleWorld).calls = 2 + 1 ∧
    (processJob (sampleEnv 2) sampleConfig sampleEvent (NewMetrics 0)
        sampleWorld).metrics.processed = ((NewMetrics 0).processed + 1) % u64 ∧
    (processJob (sampleEnv 2) sampleConfig sampleEvent (NewMetrics 0)
        sampleWorld).metrics.failed = (NewMetrics 0).failed) :=
  ⟨⟨by decide, by decide, by decide⟩,
    processJob_retry_then_success (sampleEnv 2) sampleConfig sampleEvent (NewMetrics 0)
      sampleWorld (sampleProcessed sampleEvent sampleWorld) 2 (by decide) (by decide) rfl rfl
      (by decide)⟩

/-- Claim C4, as the code has it.  One call of `processJob` adds one to exactly
one of `processed` and `failed` and leaves the other as it was, for every
configuration; and for `max_retries >= 1` the counter that goes up is
`processed` exactly when one of the `Store` calls for the event returned
success. -/
theorem processJob_counts_once {σ : Type} (env : Env σ) (cfg : Config) (job : Event)
    (m : Metrics) (w : σ) :
    (((processJob env cfg job m w).metrics.processed = (m.processed + 1) % u64 ∧
        (processJob env cfg job m w).metrics.failed = m.failed) ∨
      ((processJob env cfg job m w).metrics.failed = (m.failed + 1) % u64 ∧
        (processJob env cfg job m w).metrics.processed = m.processed)) ∧
    (1 ≤ cfg.MaxRetries →
      ((processJob env cfg job m w).metrics.processed = (m.processed + 1) % u64 ↔
        (processJob env cfg job m w).calls.any Call.isStoreOk = true)) := by
  have hne := succ_mod_u64_ne m.processed
  cases hv : (env.validate job w).1 with
  | some e =>
    simp only [processJob, hv]
    refine ⟨Or.inr ⟨by simp [Metrics.IncFailed], by simp [Metrics.IncFailed]⟩, fun _ => ?_⟩
    constructor
    · intro h
      simp [Metrics.IncFailed] at h
      exact absurd h.symm hne
    · intro h
      simp [Call.isStoreOk] at h
  | none =>
    cases hp : (env.process job (env.validate job w).2).1 with
    | error e =>
      simp only [processJob, hv, hp]
      refine ⟨Or.inr ⟨by simp [Metrics.IncFailed], by simp [Metrics.IncFailed]⟩, fun _ => ?_⟩
      constructor
      · intro h
        simp [Metrics.IncFailed] at h
        exact absurd h.symm hne
      · intro h
        simp [Call.isStoreOk] at h
    | ok pe =>
      have hiff := storeLoop_nil_iff env cfg.RetryBaseBackoff pe cfg.MaxRetries.toNat 1 none
        (env.process job (env.validate job w).2).2
      cases hres : (storeLoop env cfg.RetryBaseBackoff pe cfg.MaxRetries.toNat 1 none
          (env.process job (env.validate job w).2).2).1 with
      | none =>
        simp only [processJob, hv, hp, hres]
        refine ⟨Or.inl ⟨by simp [Metrics.IncProcessed, Metrics.AddLatency],
          by simp [Metrics.IncProcessed, Metrics.AddLatency]⟩, fun hN => ?_⟩
        have h1 := (hiff (Or.inl (by omega))).1 hres
        simp only [List.any_cons, Call.isStoreOk, Bool.false_or]
        simp [Metrics.IncProcessed, Metrics.AddLatency]
        simpa using h1
      | some e =>
        simp only [processJob, hv, hp, hres]
        refine ⟨Or.inr ⟨by simp [Metrics.IncFailed], by simp [Metrics.IncFailed]⟩, fun hN => ?_⟩
        have h1 := (hiff (Or.inl (by omega)))
        rw [hres] at h1
        simp only [List.any_cons, Call.isStoreOk, Bool.false_or]
        constructor
        · intro h
          simp [Metrics.IncFailed] at h
          exact absurd h.symm hne
        · intro h
          exact absurd (h1.2 h) (by simp)

/-- Witness for C4: with three attempts allowed and a sink that succeeds at
once, `processed` is the counter that goes up and a `Store` call succeeded. -/
theorem processJob_counts_once_witness :
    1 ≤ sampleConfig.MaxRetries ∧
    ((processJob (sampleEnv 0) sampleConfig sampleEvent (NewMetrics 0)
        sampleWorld).metrics.processed = ((NewMetrics 0).processed + 1) % u64 ↔
      (processJob (sampleEnv 0) sampleConfig sampleEvent (NewMetrics 0)
        sampleWorld).calls.any Call.isStoreOk = true) :=
  ⟨by decide,
    (processJob_counts_once (sampleEnv 0) sampleConfig sampleEvent (NewMetrics 0)
      sampleWorld).2 (by decide)⟩

/-- Counterexample to C4 as stated: with `max_retries = 0` an event that passes
validation and processing is counted as processed although no `Store` call was
made, let alone one that succeeded. -/
theorem processJob_processed_without_store :
    (processJob (sampleEnv 0) { sampleConfig with MaxRetries := 0 } sampleEvent (NewMetrics 0)
        sampleWorld).metrics.processed = ((NewMetrics 0).processed + 1) % u64 ∧
    (processJob (sampleEnv 0) { sampleConfig with MaxRetries := 0 } sampleEvent (NewMetrics 0)
        sampleWorld).calls.any Call.isStoreOk = false ∧
    storeCount (processJob (sampleEnv 0) { sampleConfig with MaxRetries := 0 } sampleEvent
        (NewMetrics 0) sampleWorld).calls = 0 := by
  decide

/-- Claim C5.  For an event the validator rejects, `processJob` adds one to
`failed`, leaves `processed` and the total latency as they were, and makes no
call other than the one `Validate` call: neither the processor nor the sink is
called. -/
theorem processJob_validation_failure {σ : Type} (env : Env σ) (cfg : Config) (job : Event)
    (m : Metrics) (w : σ) (err : Err)
    (hv : (env.validate job w).1 = some err) :
    (processJob env cfg job m w).metrics.failed = (m.failed + 1) % u64 ∧
    (processJob env cfg job m w).metrics.processed = m.processed ∧
    (processJob env cfg job m w).metrics.totalLatencyMS = m.totalLatencyMS ∧
    (processJob env cfg job m w).calls = [Call.validate job (some err)] ∧
    processCount (processJob env cfg job m w).calls = 0 ∧
    storeCount (processJob env cfg job m w).calls = 0 := by
  simp [processJob, hv, Metrics.IncFailed, processCount, storeCount, Call.isProcess,
    Call.isStore]

/-- Witness for C5: an event without a type. -/
theorem processJob_validation_failure_witness :
    ((sampleEnv 0).validate { sampleEvent with Typ := "" } sampleWorld).1 = some "missing type" ∧
    ((processJob (sampleEnv 0) sampleConfig { sampleEvent with Typ := "" } (NewMetrics 0)
        sampleWorld).metrics.failed = ((NewMetrics 0).failed + 1) % u64 ∧
    (processJob (sampleEnv 0) sampleConfig { sampleEvent with Typ := "" } (NewMetrics 0)
        sampleWorld).metrics.processed = (NewMetrics 0).processed ∧
    (processJob (sampleEnv 0) sampleConfig { sampleEvent with Typ := "" } (NewMetrics 0)
        sampleWorld).metrics.totalLatencyMS = (NewMetrics 0).totalLatencyMS ∧
    (processJob (sampleEnv 0) sampleConfig { sampleEvent with Typ := "" } (NewMetrics 0)
        sampleWorld).calls = [Call.validate { sampleEvent with Typ := "" } (some "missing type")] ∧
    processCount (processJob (sampleEnv 0) sampleConfig { sampleEvent with Typ := "" }
        (NewMetrics 0) sampleWorld).calls = 0 ∧
    storeCount (processJob (sampleEnv 0) sampleConfig { sampleEvent with Typ := "" }
        (NewMetrics 0) sampleWorld).calls = 0) :=
  ⟨rfl,
    processJob_validation_failure (sampleEnv 0) sampleConfig { sampleEvent with Typ := "" }
      (NewMetrics 0) sampleWorld "missing type" rfl⟩

/-- Claim C6.  For an event that passes validation and on which the processor
returns an error, `processJob` calls the processor exactly once and the sink
not at all, adds one to `failed`, and leaves `processed` and the total latency
as they were. -/
theorem processJob_processing_failure {σ : Type} (env : Env σ) (cfg : Config) (job : Event)
    (m : Metrics) (w : σ) (err : Err)
    (hv : (env.validate job w).1 = none)
    (hp : (env.process job (env.validate job w).2).1 = .error err) :
    processCount (processJob env cfg job m w).calls = 1 ∧
    storeCount (processJob env cfg job m w).calls = 0 ∧
    (processJob env cfg job m w).metrics.failed = (m.failed + 1) % u64 ∧
    (processJob env cfg job m w).metrics.processed = m.processed ∧
    (processJob env cfg job m w).metrics.totalLatencyMS = m.totalLatencyMS := by
  simp [processJob, hv, hp, Metrics.IncFailed, processCount, storeCount, Call.isProcess,
    Call.isStore]

/-- Witness for C6: the sample processor fails on the source `"bad"`. -/
theorem processJob_processing_failure_witness :
    (((sampleEnv 0).validate { sampleEvent with Source := "bad" } sampleWorld).1 = none ∧
      ((sampleEnv 0).process { sampleEvent with Source := "bad" }
        ((sampleEnv 0).validate { sampleEvent with Source := "bad" } sampleWorld).2).1
        = .error "cannot process") ∧
    (processCount (processJob (sampleEnv 0) sampleConfig { sampleEvent with Source := "bad" }
        (NewMetrics 0) sampleWorld).calls = 1 ∧
    storeCount (processJob (sampleEnv 0) sampleConfig { sampleEvent with Source := "bad" }
        (NewMetrics 0) sampleWorld).calls = 0 ∧
    (processJob (sampleEnv 0) sampleConfig { sampleEvent with Source := "bad" } (NewMetrics 0)
        sampleWorld).metrics.failed = ((NewMetrics 0).failed + 1) % u64 ∧
    (processJob (sampleEnv 0) sampleConfig { sampleEvent with Source := "bad" } (NewMetrics 0)
        sampleWorld).metrics.processed = (NewMetrics 0).processed ∧
    (processJob (sampleEnv 0) sampleConfig { sampleEvent with Source := "bad" } (NewMetrics 0)
        sampleWorld).metrics.totalLatencyMS = (NewMetrics 0).totalLatencyMS) :=
  ⟨⟨rfl, rfl⟩,
    processJob_processing_failure (sampleEnv 0) sampleConfig { sampleEvent with Source := "bad" }
      (NewMetrics 0) sampleWorld "cannot process" rfl rfl⟩

/-! ## `BasicValidator.Validate` -/

/-- Claim C7.  `BasicValidator.Validate` succeeds exactly when the type is
non-empty, the source is non-empty, and the id is empty or parses as a UUID. -/
theorem validate_ok_iff (parse : String → Option UUID) (e : Event) :
    BasicValidator.Validate parse e = none ↔
      e.Typ ≠ "" ∧ e.Source ≠ "" ∧ (e.ID = "" ∨ (parse e.ID).isSome = true) := by
  unfold BasicValidator.Validate
  by_cases ht : e.Typ = ""
  · simp [ht]
  · by_cases hs : e.Source = ""
    · simp [ht, hs]
    · by_cases hi : e.ID = ""
      · simp [ht, hs, hi]
      · cases hparse : parse e.ID <;> simp [ht, hs, hi, hparse]

/-- Claim C8.  `BasicValidator.Validate` reports errors by field in a fixed
order: an empty type gives the missing-type error whatever the source and id;
a non-empty type with an empty source gives the missing-source error whatever
the id; and the invalid-UUID error is returned only when type and source are
both non-empty (and then the id is non-empty and does not parse). -/
theorem validate_error_order (parse : String → Option UUID) (e : Event) :
    (e.Typ = "" → BasicValidator.Validate parse e = some "missing type") ∧
    (e.Typ ≠ "" → e.Source = "" →
      BasicValidator.Validate parse e = some "missing source") ∧
    (BasicValidator.Validate parse e = some "invalid UUID format" →
      e.Typ ≠ "" ∧ e.Source ≠ "" ∧ e.ID ≠ "" ∧ parse e.ID = none) := by
  unfold BasicValidator.Validate
  by_cases ht : e.Typ = ""
  · simp [ht]
  · by_cases hs : e.Source = ""
    · simp [ht, hs]
    · by_cases hi : e.ID = ""
      · simp [ht, hs, hi]
      · cases hparse : parse e.ID <;> simp [ht, hs, hi, hparse]

/-- Witness for C8: an event with neither type nor source and a malformed id
gets the missing-type error; with a type, the missing-source error. -/
theorem validate_error_order_witness :
    BasicValidator.Validate uuidParse
        { sampleEvent with ID := "not-a-uuid", Typ := "", Source := "" } = some "missing type" ∧
    BasicValidator.Validate uuidParse
        { sampleEvent with ID := "not-a-uuid", Source := "" } = some "missing source" :=
  ⟨(validate_error_order uuidParse
      { sampleEvent with ID := "not-a-uuid", Typ := "", Source := "" }).1 rfl,
    (validate_error_order uuidParse
      { sampleEvent with ID := "not-a-uuid", Source := "" }).2.1 (by decide) rfl⟩

/-- The validator's unit tests, run on the model with the library parser: a
malformed id, an event with no field set, and a well-formed id. -/
theorem validate_unit_tests :
    BasicValidator.Validate uuidParse { sampleEvent with ID := "not-a-uuid" }
      = some "invalid UUID format" ∧
    BasicValidator.Validate uuidParse { sampleEvent with Typ := "", Source := "" }
      = some "missing type" ∧
    BasicValidator.Validate uuidParse
      { sampleEvent with ID := "123e4567-e89b-42d3-a456-426614174000" } = none := by
  decide

/-! ## `NewEvent` -/

/-- The id and timestamp `NewEvent` returns. -/
theorem newEvent_id_timestamp (fresh : String) (now : Time) (e : Event) :
    (NewEvent fresh now e).ID = (if e.ID = "" then fresh else e.ID) ∧
    (NewEvent fresh now e).Timestamp = (if e.Timestamp = 0 then now else e.Timestamp) := by
  unfold NewEvent Time.IsZero
  by_cases hi : e.ID = "" <;> by_cases ht : e.Timestamp = 0 <;> simp [hi, ht]

/-- Claim C10.  `NewEvent` keeps a non-empty id and replaces an empty one by
the freshly generated UUID string, keeps a non-zero timestamp and replaces a
zero one by the current UTC instant, and returns type, source, user id and
data unchanged. -/
theorem newEvent_defaults (fresh : String) (now : Time) (e : Event) :
    (NewEvent fresh now e).ID = (if e.ID = "" then fresh else e.ID) ∧
    (NewEvent fresh now e).Timestamp = (if e.Timestamp = 0 then now else e.Timestamp) ∧
    (NewEvent fresh now e).Typ = e.Typ ∧
    (NewEvent fresh now e).Source = e.Source ∧
    (NewEvent fresh now e).UserID = e.UserID ∧
    (NewEvent fresh now e).Data = e.Data := by
  unfold NewEvent Time.IsZero
  by_cases hi : e.ID = "" <;> by_cases ht : e.Timestamp = 0 <;> simp [hi, ht]

/-! ## `Ingest` -/

/-- Claim C9, as the code has it.  `Ingest` on an open pipeline appends one
event to the queue.  When the submitted id is empty or already a valid UUID,
the UUID source yields a valid UUID and the clock does not read the zero
instant, that event has a non-empty id that parses as a UUID and a non-zero
timestamp. -/
theorem ingest_normalizes {σ : Type} (env : Env σ) (parse : String → Option UUID)
    (ev : Event) (p p1 : Pipeline σ)
    (hempty : parse "" = none)
    (hgen : (parse (env.uuidNew p.world).1).isSome = true)
    (hnow : env.now p.world ≠ 0)
    (hid : ev.ID = "" ∨ (parse ev.ID).isSome = true)
    (hopen : p.closed = false)
    (hstep : p.Ingest env ev = some p1) :
    ∃ e, p1.queue = p.queue ++ [e] ∧ e.ID ≠ "" ∧ (parse e.ID).isSome = true ∧
      e.Timestamp.IsZero = false := by
  unfold Pipeline.Ingest at hstep
  simp only [hopen, Bool.false_eq_true, if_false] at hstep
  split at hstep
  · simp only [Option.some.injEq] at hstep
    subst hstep
    refine ⟨(normalize env ev p.world).1, rfl, ?_⟩
    have hd := newEvent_id_timestamp (env.uuidNew p.world).1 (env.now p.world) ev
    simp only [normalize]
    have hfresh : (env.uuidNew p.world).1 ≠ "" := by
      intro h
      rw [h, hempty] at hgen
      simp at hgen
    refine ⟨?_, ?_, ?_⟩
    · rw [hd.1]
      split <;> assumption
    · rw [hd.1]
      split
      · exact hgen
      · rcases hid with h | h
        · contradiction
        · exact h
    · simp only [Time.IsZero, beq_eq_false_iff_ne, ne_eq]
      rw [hd.2]
      split <;> assumption
  · simp at hstep

/-- Witness for C9: an event without id or timestamp, ingested into a fresh pipeline. -/
theorem ingest_normalizes_witness :
    (uuidParse "" = none ∧
      (uuidParse ((sampleEnv 0).uuidNew samplePipeline.world).1).isSome = true ∧
      (sampleEnv 0).now samplePipeline.world ≠ 0 ∧
      samplePipeline.closed = false) ∧
    ∃ p1, samplePipeline.Ingest (sampleEnv 0) sampleEvent = some p1 ∧
      ∃ e, p1.queue = samplePipeline.queue ++ [e] ∧
        e.ID ≠ "" ∧ (uuidParse e.ID).isSome = true ∧ e.Timestamp.IsZero = false :=
  ⟨⟨by decide, by decide, by decide, rfl⟩,
    _, rfl,
    ingest_normalizes (sampleEnv 0) uuidParse sampleEvent samplePipeline _
      (by decide) (by decide) (by decide) (Or.inl rfl) rfl rfl⟩

/-- Counterexample to C9 as stated: `Ingest` of an event whose id is
`"custom-id"` puts that event on the queue with the id unchanged, and
`"custom-id"` is not a UUID. -/
theorem ingest_keeps_malformed_id :
    ((samplePipeline.Ingest (sampleEnv 0) { sampleEvent with ID := "custom-id" }).map
      fun p => p.queue.map fun e => (e.ID, uuidParse e.ID)) = some [("custom-id", none)] := by
  decide

/-! ## The worker's steps against `processJob` -/

/-- Run undisturbed from a `Store` attempt, the worker's steps do what
`storeLoop` does: they end before `AddLatency` when the loop ends with
`err == nil` and before `IncFailed` otherwise, having made the same calls. -/
theorem workerRun_storeLoop {σ : Type} (env : Env σ) (d : Bool) (pe : ProcessedEvent)
    (start : Time) :
    ∀ (n : Nat) (a : Int) (err : Option Err) (p : Pipeline σ), a + n = p.cfg.MaxRetries →
      ∃ k, workerRun env k (.storing d pe start a) p = some
        ((match (storeLoop env p.cfg.RetryBaseBackoff pe (n + 1) a err p.world).1 with
          | none => WorkerState.succeeding d start
          | some _ => WorkerState.failing d),
         { p with
           world := (storeLoop env p.cfg.RetryBaseBackoff pe (n + 1) a err p.world).2.1
           calls := p.calls ++
             (storeLoop env p.cfg.RetryBaseBackoff pe (n + 1) a err p.world).2.2 }) := by
  intro n
  induction n with
  | zero =>
    intro a err p ha
    cases h : (env.store [pe] p.world).1 with
    | none =>
      refine ⟨1, ?_⟩
      simp [workerRun, workerStep, storeLoop, h]
    | some e =>
      refine ⟨2, ?_⟩
      have hgt : ¬ a + 1 ≤ p.cfg.MaxRetries := by omega
      simp [workerRun, workerStep, storeLoop, h, hgt]
  | succ n ih =>
    intro a err p ha
    cases h : (env.store [pe] p.world).1 with
    | none =>
      refine ⟨1, ?_⟩
      simp [workerRun, workerStep, storeLoop, h]
    | some e =>
      have hle : a + 1 ≤ p.cfg.MaxRetries := by omega
      obtain ⟨k, hk⟩ := ih (a + 1) (some e)
        { p with
          world := env.sleep (wrapInt64 (a * p.cfg.RetryBaseBackoff)) (env.store [pe] p.world).2
          calls := p.calls ++ [Call.store [pe] (some e)] ++
            [Call.sleep (wrapInt64 (a * p.cfg.RetryBaseBackoff))] }
        (by simp only; omega)
      refine ⟨k + 2, ?_⟩
      simp only [workerRun, workerStep, h, hle, if_true]
      rw [hk]
      simp [storeLoop, h]

/-- Taking `j + k` steps is taking `j` steps and then `k` more. -/
theorem workerRun_add {σ : Type} (env : Env σ) :
    ∀ (j k : Nat) (ws : WorkerState) (p : Pipeline σ),
      workerRun env (j + k) ws p =
        match workerRun env j ws p with
        | none => none
        | some (ws1, p1) => workerRun env k ws1 p1 := by
  intro j
  induction j with
  | zero => intro k ws p; simp [workerRun]
  | succ j ih =>
    intro k ws p
    rw [Nat.add_right_comm]
    simp only [workerRun]
    cases workerStep env false ws p with
    | none => rfl
    | some res => exact ih k res.1 res.2

/-- Run undisturbed from the start of `processJob`, the worker's steps arrive
back at its loop head with the metrics, world and calls of `processJob`. -/
theorem workerRun_processJob {σ : Type} (env : Env σ) (d : Bool) (job : Event)
    (p : Pipeline σ) :
    ∃ k, workerRun env k (.validating d job) p = some
      (WorkerState.loopHead d,
       { p with
         metrics := (processJob env p.cfg job p.metrics p.world).metrics
         world := (processJob env p.cfg job p.metrics p.world).world
         calls := p.calls ++ (processJob env p.cfg job p.metrics p.world).calls }) := by
  cases hv : (env.validate job p.world).1 with
  | some e =>
    refine ⟨2, ?_⟩
    simp [workerRun, workerStep, processJob, hv]
  | none =>
    cases hp : (env.process job (env.validate job p.world).2).1 with
    | error e =>
      refine ⟨3, ?_⟩
      simp [workerRun, workerStep, processJob, hv, hp]
    | ok pe =>
      by_cases hN : 1 ≤ p.cfg.MaxRetries
      · obtain ⟨n, hn⟩ : ∃ n : Nat, p.cfg.MaxRetries.toNat = n + 1 :=
          ⟨p.cfg.MaxRetries.toNat - 1, by omega⟩
        obtain ⟨k, hk⟩ := workerRun_storeLoop env d pe (env.now p.world) n 1 none
          { p with
            world := (env.process job (env.validate job p.world).2).2
            calls := p.calls ++ [Call.validate job none] ++ [Call.process job (.ok pe)] }
          (by simp only; omega)
        simp only at hk
        have h2 : workerRun env 2 (.validating d job) p = some
            (WorkerState.storing d pe (env.now p.world) 1,
             { p with
               world := (env.process job (env.validate job p.world).2).2
               calls := p.calls ++ [Call.validate job none] ++ [Call.process job (.ok pe)] }) := by
          simp [workerRun, workerStep, hv, hp, hN]
        cases hres : (storeLoop env p.cfg.RetryBaseBackoff pe (n + 1) 1 none
            (env.process job (env.validate job p.world).2).2).1 with
        | none =>
          refine ⟨2 + (k + 2), ?_⟩
          rw [workerRun_add env 2 (k + 2), h2]
          simp only
          rw [workerRun_add env k 2, hk]
          simp [hres, workerRun, workerStep, processJob, hv, hp, hn]
        | some e =>
          refine ⟨2 + (k + 1), ?_⟩
          rw [workerRun_add env 2 (k + 1), h2]
          simp only
          rw [workerRun_add env k 1, hk]
          simp [hres, workerRun, workerStep, processJob, hv, hp, hn]
      · have h0 : p.cfg.MaxRetries.toNat = 0 := by omega
        refine ⟨4, ?_⟩
        simp [workerRun, workerStep, processJob, hv, hp, hN, h0, storeLoop]

/-! ## The worker loop and `Shutdown` -/

/-- What one worker step does to the shared metrics, against what it does to
the worker's own in-flight status: the worker list is not touched, and either
no counter moves, or `received` goes up as the event becomes in flight, or
`failed` or `processed` goes up as it stops being in flight, or latency is
added. -/
theorem workerStep_effect {σ : Type} (env : Env σ) (c : Bool) (ws ws1 : WorkerState)
    (p p1 : Pipeline σ) (h : workerStep env c ws p = some (ws1, p1)) :
    p1.workers = p.workers ∧
    ((p1.metrics = p.metrics ∧ ws1.inFlight = ws.inFlight) ∨
      (p1.metrics = p.metrics.IncReceived ∧ ws.inFlight = false ∧ ws1.inFlight = true) ∨
      (p1.metrics = p.metrics.IncFailed ∧ ws.inFlight = true ∧ ws1.inFlight = false) ∨
      (p1.metrics = p.metrics.IncProcessed ∧ ws.inFlight = true ∧ ws1.inFlight = false) ∨
      (∃ ms, p1.metrics = p.metrics.AddLatency ms ∧ ws1.inFlight = ws.inFlight)) := by
  cases ws with
  | selecting =>
    simp only [workerStep] at h
    split at h
    · cases h; simp [WorkerState.inFlight]
    · split at h
      · cases h; simp [WorkerState.inFlight]
      · split at h
        · cases h; simp [WorkerState.inFlight]
        · cases h
  | draining =>
    simp only [workerStep] at h
    split at h
    · cases h; simp [WorkerState.inFlight]
    · split at h
      · cases h; simp [WorkerState.inFlight]
      · cases h
  | dequeued d job =>
    simp only [workerStep] at h
    cases h; simp [WorkerState.inFlight]
  | validating d job =>
    simp only [workerStep] at h
    split at h <;> (cases h; simp [WorkerState.inFlight])
  | processing d job start =>
    simp only [workerStep] at h
    split at h
    · cases h; simp [WorkerState.inFlight]
    · split at h <;> (cases h; simp [WorkerState.inFlight])
  | storing d pe start k =>
    simp only [workerStep] at h
    split at h <;> (cases h; simp [WorkerState.inFlight])
  | sleeping d pe start k e =>
    simp only [workerStep] at h
    split at h <;> (cases h; simp [WorkerState.inFlight])
  | failing d =>
    simp only [workerStep] at h
    cases h
    cases d <;> simp [WorkerState.inFlight, WorkerState.loopHead]
  | succeeding d start =>
    simp only [workerStep] at h
    cases h
    refine ⟨rfl, Or.inr (Or.inr (Or.inr (Or.inr ⟨_, rfl, ?_⟩)))⟩
    simp [WorkerState.inFlight]
  | counting d =>
    simp only [workerStep] at h
    cases h
    cases d <;> simp [WorkerState.inFlight, WorkerState.loopHead]
  | exited => simp [workerStep] at h

/-- Replacing the entry at a valid index changes a count by the difference of
the two entries. -/
theorem countP_set_add {α : Type} (q : α → Bool) (l : List α) (i : Nat) (a b : α)
    (h : l[i]? = some a) :
    (l.set i b).countP q + (if q a = true then 1 else 0)
      = l.countP q + (if q b = true then 1 else 0) := by
  induction l generalizing i with
  | nil => simp at h
  | cons x xs ih =>
    cases i with
    | zero =>
      simp only [List.getElem?_cons_zero, Option.some.injEq] at h
      subst h
      simp only [List.set_cons_zero, List.countP_cons]
      omega
    | succ i =>
      simp only [List.getElem?_cons_succ] at h
      have := ih i h
      simp only [List.set_cons_succ, List.countP_cons]
      omega

/-- A fresh pipeline is in balance. -/
theorem newEventPipeline_balanced {σ : Type} (env : Env σ) (cfg : Config) (t : Time) (w : σ) :
    (NewEventPipeline env cfg (NewMetrics t) w).Balanced 0 := by
  refine ⟨0, 0, 0, ?_⟩
  simp only [NewEventPipeline, NewMetrics, Pipeline.inFlight]
  split <;> simp [List.countP_replicate, WorkerState.inFlight]

/-- Every transition keeps the counters in balance. -/
theorem step_balanced {σ : Type} (env : Env σ) (a : Action) (p p1 : Pipeline σ) (n : Nat)
    (hstep : p.step env a = some p1) (hb : p.Balanced n) : p1.Balanced (n + 1) := by
  obtain ⟨r, pr, f, hr, hpr, hf, heq, hle⟩ := hb
  unfold Pipeline.step at hstep
  split at hstep
  · cases hstep
  · cases a with
    | ingest ev =>
      simp only [Pipeline.Ingest] at hstep
      split at hstep
      · cases hstep
        exact ⟨r, pr, f, hr, hpr, hf, heq, by omega⟩
      · split at hstep
        · cases hstep
          exact ⟨r, pr, f, hr, hpr, hf, heq, by omega⟩
        · cases hstep
    | closeQueue =>
      simp only at hstep
      split at hstep <;> (cases hstep; exact ⟨r, pr, f, hr, hpr, hf, heq, by omega⟩)
    | cancel =>
      simp only at hstep
      cases hstep
      exact ⟨r, pr, f, hr, hpr, hf, heq, by omega⟩
    | work i c =>
      simp only at hstep
      cases hws : p.workers[i]? with
      | none => simp [hws] at hstep
      | some ws =>
        simp only [hws] at hstep
        cases hw : workerStep env c ws p with
        | none => simp [hw] at hstep
        | some res =>
          obtain ⟨ws1, p2⟩ := res
          simp only [hw, Option.some.injEq] at hstep
          subst hstep
          obtain ⟨hwk, heff⟩ := workerStep_effect env c ws ws1 p p2 hw
          have hcount := countP_set_add WorkerState.inFlight p.workers i ws ws1 hws
          simp only [Pipeline.inFlight] at heq
          simp only [Pipeline.Balanced, Pipeline.inFlight, hwk]
          rcases heff with ⟨hm, hfl⟩ | ⟨hm, h0, h1⟩ | ⟨hm, h0, h1⟩ | ⟨hm, h0, h1⟩ | ⟨ms, hm, hfl⟩
          · refine ⟨r, pr, f, by rw [hm]; exact hr, by rw [hm]; exact hpr, by rw [hm]; exact hf,
              ?_, by omega⟩
            rw [hfl] at hcount
            omega
          · refine ⟨r + 1, pr, f, ?_, by rw [hm]; exact hpr, by rw [hm]; exact hf, ?_,
              by omega⟩
            · rw [hm]
              simp only [Metrics.IncReceived, hr, u64]
              omega
            · simp only [h0, h1, if_true] at hcount
              simp at hcount
              omega
          · refine ⟨r, pr, f + 1, by rw [hm]; exact hr, by rw [hm]; exact hpr, ?_, ?_,
              by omega⟩
            · rw [hm]
              simp only [Metrics.IncFailed, hf, u64]
              omega
            · simp only [h0, h1, if_true] at hcount
              simp at hcount
              omega
          · refine ⟨r, pr + 1, f, by rw [hm]; exact hr, ?_, by rw [hm]; exact hf, ?_,
              by omega⟩
            · rw [hm]
              simp only [Metrics.IncProcessed, hpr, u64]
              omega
            · simp only [h0, h1, if_true] at hcount
              simp at hcount
              omega
          · refine ⟨r, pr, f, by rw [hm]; exact hr, by rw [hm]; exact hpr, by rw [hm]; exact hf,
              ?_, by omega⟩
            rw [hfl] at hcount
            omega

/-- Every schedule keeps the counters in balance. -/
theorem run_balanced {σ : Type} (env : Env σ) (sched : List Action) :
    ∀ (p p1 : Pipeline σ) (n : Nat), Pipeline.run env sched p = some p1 → p.Balanced n →
      p1.Balanced (n + sched.length) := by
  induction sched with
  | nil =>
    intro p p1 n h hb
    simp only [Pipeline.run, Option.some.injEq] at h
    subst h
    simpa using hb
  | cons a rest ih =>
    intro p p1 n h hb
    simp only [Pipeline.run] at h
    cases hs : p.step env a with
    | none => simp [hs] at h
    | some p2 =>
      simp only [hs] at h
      have := ih p2 p1 (n + 1) h (step_balanced env a p p2 n hs hb)
      simpa [Nat.add_assoc, Nat.add_comm 1] using this

/-- A worker step leaves the channel open or closed as it was, cannot fill an
empty channel, and lets the worker return only from a closed, empty channel. -/
theorem workerStep_queue {σ : Type} (env : Env σ) (c : Bool) (ws ws1 : WorkerState)
    (p p1 : Pipeline σ) (h : workerStep env c ws p = some (ws1, p1)) :
    p1.closed = p.closed ∧ (p.queue = [] → p1.queue = []) ∧
    (ws1.isExited = true → p.closed = true ∧ p.queue = []) := by
  cases ws with
  | selecting =>
    simp only [workerStep] at h
    split at h
    · cases h; simp [WorkerState.isExited]
    · split at h
      · cases h; simp_all [WorkerState.isExited]
      · split at h
        · cases h; simp_all [WorkerState.isExited]
        · cases h
  | draining =>
    simp only [workerStep] at h
    split at h
    · cases h; simp_all [WorkerState.isExited]
    · split at h
      · cases h; simp_all [WorkerState.isExited]
      · cases h
  | dequeued d job =>
    simp only [workerStep] at h
    cases h; simp [WorkerState.isExited]
  | validating d job =>
    simp only [workerStep] at h
    split at h <;> (cases h; simp [WorkerState.isExited])
  | processing d job start =>
    simp only [workerStep] at h
    split at h
    · cases h; simp [WorkerState.isExited]
    · split at h <;> (cases h; simp [WorkerState.isExited])
  | storing d pe start k =>
    simp only [workerStep] at h
    split at h <;> (cases h; simp [WorkerState.isExited])
  | sleeping d pe start k e =>
    simp only [workerStep] at h
    split at h <;> (cases h; simp [WorkerState.isExited])
  | failing d =>
    simp only [workerStep] at h
    cases h
    cases d <;> simp [WorkerState.isExited, WorkerState.loopHead]
  | succeeding d start =>
    simp only [workerStep] at h
    cases h
    simp [WorkerState.isExited]
  | counting d =>
    simp only [workerStep] at h
    cases h
    cases d <;> simp [WorkerState.isExited, WorkerState.loopHead]
  | exited => simp [workerStep] at h

/-- No worker of a fresh pipeline has returned. -/
theorem newEventPipeline_drained {σ : Type} (env : Env σ) (cfg : Config) (m : Metrics) (w : σ) :
    (NewEventPipeline env cfg m w).Drained := by
  intro ⟨ws, hmem, hex⟩
  simp only [NewEventPipeline] at hmem
  split at hmem
  · simp at hmem
  · rw [List.mem_replicate] at hmem
    rw [hmem.2] at hex
    simp [WorkerState.isExited] at hex

/-- Every transition keeps the channel closed and empty once a worker has returned. -/
theorem step_drained {σ : Type} (env : Env σ) (a : Action) (p p1 : Pipeline σ)
    (hstep : p.step env a = some p1) (hd : p.Drained) : p1.Drained := by
  unfold Pipeline.step at hstep
  split at hstep
  · cases hstep
  · cases a with
    | ingest ev =>
      simp only [Pipeline.Ingest] at hstep
      split at hstep
      · cases hstep
        exact hd
      · rename_i hopen
        split at hstep
        · cases hstep
          intro hex
          have := (hd hex).1
          exact absurd this hopen
        · cases hstep
    | closeQueue =>
      simp only at hstep
      split at hstep
      · cases hstep
        exact hd
      · cases hstep
        intro hex
        exact ⟨rfl, (hd hex).2⟩
    | cancel =>
      simp only at hstep
      cases hstep
      exact hd
    | work i c =>
      simp only at hstep
      cases hws : p.workers[i]? with
      | none => simp [hws] at hstep
      | some ws =>
        simp only [hws] at hstep
        cases hw : workerStep env c ws p with
        | none => simp [hw] at hstep
        | some res =>
          obtain ⟨ws1, p2⟩ := res
          simp only [hw, Option.some.injEq] at hstep
          subst hstep
          obtain ⟨hwk, _⟩ := workerStep_effect env c ws ws1 p p2 hw
          obtain ⟨hcl, hq, hex1⟩ := workerStep_queue env c ws ws1 p p2 hw
          intro ⟨ws2, hmem, hex2⟩
          simp only [hwk] at hmem
          have hold : p.closed = true ∧ p.queue = [] := by
            rcases List.mem_or_eq_of_mem_set hmem with h | h
            · exact hd ⟨ws2, h, hex2⟩
            · subst h
              exact hex1 hex2
          exact ⟨by simp only [hcl]; exact hold.1, hq hold.2⟩

/-- Every schedule keeps the channel closed and empty once a worker has returned. -/
theorem run_drained {σ : Type} (env : Env σ) (sched : List Action) :
    ∀ (p p1 : Pipeline σ), Pipeline.run env sched p = some p1 → p.Drained → p1.Drained := by
  induction sched with
  | nil =>
    intro p p1 h hd
    simp only [Pipeline.run, Option.some.injEq] at h
    subst h
    exact hd
  | cons a rest ih =>
    intro p p1 h hd
    simp only [Pipeline.run] at h
    cases hs : p.step env a with
    | none => simp [hs] at h
    | some p2 =>
      simp only [hs] at h
      exact ih p2 p1 h (step_drained env a p p2 hs hd)

/-- Claim C1.  Start from a fresh pipeline with fresh metrics and run any
schedule of ingests, worker steps and the steps of `Shutdown`, with any
validator, processor and sink.  Once `Shutdown` has returned, the counters
satisfy `received == processed + failed` in `uint64` arithmetic, and as plain
numbers when the schedule is shorter than `2^64` steps; and if the pipeline has
a worker at all, no event is left on the queue. -/
theorem shutdown_received_eq_processed_add_failed {σ : Type} (env : Env σ) (cfg : Config)
    (t : Time) (w : σ) (sched : List Action) (p : Pipeline σ)
    (hrun : Pipeline.run env sched (NewEventPipeline env cfg (NewMetrics t) w) = some p)
    (hdone : p.shutDown = true) :
    p.metrics.GetReceived = (p.metrics.GetProcessed + p.metrics.GetFailed) % u64 ∧
    (sched.length < u64 →
      p.metrics.GetReceived = p.metrics.GetProcessed + p.metrics.GetFailed) ∧
    (p.workers ≠ [] → p.queue = []) := by
  have hb := run_balanced env sched _ p 0 hrun (newEventPipeline_balanced env cfg t w)
  have hdr := run_drained env sched _ p hrun (newEventPipeline_drained env cfg _ w)
  obtain ⟨r, pr, f, hr, hpr, hf, heq, hle⟩ := hb
  simp only [Pipeline.shutDown, Pipeline.allExited, Bool.and_eq_true, List.all_eq_true] at hdone
  have hfl : p.inFlight = 0 := by
    simp only [Pipeline.inFlight, List.countP_eq_zero]
    intro ws hws
    have := hdone.1.2 ws hws
    cases ws <;> simp_all [WorkerState.isExited, WorkerState.inFlight]
  have hq : p.workers ≠ [] → p.queue = [] := by
    intro hne
    obtain ⟨ws, hws⟩ := List.exists_mem_of_ne_nil _ hne
    exact (hdr ⟨ws, hws, hdone.1.2 ws hws⟩).2
  simp only [Metrics.GetReceived, Metrics.GetProcessed, Metrics.GetFailed, hr, hpr, hf]
  rw [hfl] at heq
  subst heq
  simp only [u64] at *
  refine ⟨by omega, fun hlen => by omega, hq⟩

/-- Witness for C1: one worker, two ingested events (one stored on the third
attempt, one rejected by the validator), then `Shutdown`. -/
theorem shutdown_received_eq_processed_add_failed_witness :
    ∃ p, Pipeline.run (sampleEnv 2) sampleSchedule samplePipeline = some p ∧
      p.shutDown = true ∧
      (p.metrics.GetReceived = (p.metrics.GetProcessed + p.metrics.GetFailed) % u64 ∧
      (sampleSchedule.length < u64 →
        p.metrics.GetReceived = p.metrics.GetProcessed + p.metrics.GetFailed) ∧
      (p.workers ≠ [] → p.queue = [])) := by
  have hsome : ((Pipeline.run (sampleEnv 2) sampleSchedule samplePipeline).map
      Pipeline.shutDown) = some true := by decide
  cases hrun : Pipeline.run (sampleEnv 2) sampleSchedule samplePipeline with
  | none => simp [hrun] at hsome
  | some p =>
    have hdone : p.shutDown = true := by simpa [hrun] using hsome
    exact ⟨p, rfl, hdone,
      shutdown_received_eq_processed_add_failed (sampleEnv 2) { sampleConfig with WorkerCount := 1 }
        0 sampleWorld sampleSchedule p hrun hdone⟩

/-! ## Backoff -/

/-- Shifting the first attempt by one drops the first entry of the backoff. -/
theorem linearBackoff_succ (base : Duration) (a : Int) (k : Nat) :
    linearBackoff base a (k + 1) = wrapInt64 (a * base) :: linearBackoff base (a + 1) k := by
  simp only [linearBackoff, List.range_succ_eq_map, List.map_cons, List.map_map]
  congr 1
  · simp
  · apply List.map_congr_left
    intro i _
    show wrapInt64 ((a + ((i + 1 : Nat) : Int)) * base) = wrapInt64 ((a + 1 + (i : Int)) * base)
    congr 2
    push_cast
    ring

/-- Against a sink that errors on every call the loop sleeps after each of its
attempts, the last one included. -/
theorem storeLoop_sleeps_all_fail {σ : Type} (env : Env σ) (base : Duration)
    (pe : ProcessedEvent) (hs : ∀ batch w, (env.store batch w).1 ≠ none) :
    ∀ (n : Nat) (a : Int) (err : Option Err) (w : σ),
      sleepDurations (storeLoop env base pe n a err w).2.2 = linearBackoff base a n := by
  intro n
  induction n with
  | zero => intro a err w; simp [storeLoop, sleepDurations, linearBackoff]
  | succ n ih =>
    intro a err w
    cases h : (env.store [pe] w).1 with
    | none => exact absurd h (hs _ _)
    | some e =>
      rw [linearBackoff_succ]
      simp only [storeLoop, h, sleepDurations]
      rw [ih]

/-- When the sink errors `k` times and then succeeds, the loop sleeps after
each of the `k` failed attempts and its last call is the `Store` that
succeeded. -/
theorem storeLoop_sleeps_fails_then_succeeds {σ : Type} (env : Env σ) (base : Duration)
    (pe : ProcessedEvent) :
    ∀ (k n : Nat) (a : Int) (err : Option Err) (w : σ), k < n →
      sinkFailsThenSucceeds env base pe k a w = true →
      sleepDurations (storeLoop env base pe n a err w).2.2 = linearBackoff base a k ∧
      (storeLoop env base pe n a err w).2.2.getLast? = some (Call.store [pe] none) := by
  intro k
  induction k with
  | zero =>
    intro n a err w hn hk
    obtain ⟨n, rfl⟩ : ∃ n', n = n' + 1 := ⟨n - 1, by omega⟩
    simp only [sinkFailsThenSucceeds, Option.isNone_iff_eq_none] at hk
    simp [storeLoop, hk, sleepDurations, linearBackoff]
  | succ k ih =>
    intro n a err w hn hk
    obtain ⟨n, rfl⟩ : ∃ n', n = n' + 1 := ⟨n - 1, by omega⟩
    simp only [sinkFailsThenSucceeds, Bool.and_eq_true, Option.isSome_iff_exists] at hk
    obtain ⟨⟨e, he⟩, hrest⟩ := hk
    have ih1 := ih n (a + 1) (some e) _ (by omega) hrest
    rw [linearBackoff_succ]
    simp only [storeLoop, he, sleepDurations]
    refine ⟨by rw [ih1.1], ?_⟩
    have h2 := ih1.2
    revert h2
    generalize (storeLoop env base pe n (a + 1) (some e)
      (env.sleep (wrapInt64 (a * base)) (env.store [pe] w).2)).2.2 = cs
    intro h2
    cases cs with
    | nil => simp at h2
    | cons c cs => simpa [List.getLast?_cons_cons] using h2

/-- A product inside the signed 64-bit range is not changed by wrapping. -/
theorem wrapInt64_of_range (x : Int) (hlo : -(2 ^ 63) ≤ x) (hhi : x < 2 ^ 63) :
    wrapInt64 x = x := by
  unfold wrapInt64
  omega

/-- Without `int64` overflow the linear backoff is the plain list of products. -/
theorem linearBackoff_exact (base : Duration) (k : Nat) (hbase : 0 ≤ base)
    (hk : (k : Int) * base < 2 ^ 63) :
    linearBackoff base 1 k = (List.range k).map fun (i : Nat) => ((i : Int) + 1) * base := by
  unfold linearBackoff
  apply List.map_congr_left
  intro i hi
  rw [List.mem_range] at hi
  have h1 : (1 + (i : Int)) * base ≤ (k : Int) * base :=
    mul_le_mul_of_nonneg_right (by omega) hbase
  have h0 : 0 ≤ (1 + (i : Int)) * base := mul_nonneg (by omega) hbase
  rw [wrapInt64_of_range _ (by omega) (by omega)]
  ring

/-- For `max_retries = N >= 1` and a sink that errors on every call, `processJob`
sleeps `N` times, after every failed attempt: the durations are
`1*base, 2*base, ..., N*base`. -/
theorem processJob_sleeps_all_fail {σ : Type} (env : Env σ) (cfg : Config) (job : Event)
    (m : Metrics) (w : σ) (pe : ProcessedEvent)
    (hv : (env.validate job w).1 = none)
    (hp : (env.process job (env.validate job w).2).1 = .ok pe)
    (hs : ∀ batch w1, (env.store batch w1).1 ≠ none) :
    sleepDurations (processJob env cfg job m w).calls
      = linearBackoff cfg.RetryBaseBackoff 1 cfg.MaxRetries.toNat := by
  have hl := storeLoop_sleeps_all_fail env cfg.RetryBaseBackoff pe hs cfg.MaxRetries.toNat 1 none
    (env.process job (env.validate job w).2).2
  simp only [processJob, hv, hp]
  split <;> simpa [sleepDurations] using hl

/-- Claim C13, evaluated on the code.  With `max_retries = 3`, a base backoff of
20 ms and a sink that fails every attempt, `processJob` sleeps three times, for
20, 40 and 60 ms: the last call it makes is the sleep after the failed third
attempt, and only then does it count the event as failed. -/
theorem processJob_sleeps_after_last_failure :
    sleepDurations (processJob failingEnv sampleConfig sampleEvent (NewMetrics 0)
        sampleWorld).calls = [20000000, 40000000, 60000000] ∧
    storeCount (processJob failingEnv sampleConfig sampleEvent (NewMetrics 0)
        sampleWorld).calls = 3 ∧
    (processJob failingEnv sampleConfig sampleEvent (NewMetrics 0)
        sampleWorld).calls.getLast?.map Call.isSleep = some true ∧
    (processJob failingEnv sampleConfig sampleEvent (NewMetrics 0)
        sampleWorld).metrics.failed = 1 := by
  decide

/-- Claim C14.  For `max_retries = N`, `K < N` and an event whose first `K`
`Store` attempts fail and whose attempt `K + 1` succeeds, the sleeps made by
`processJob` are exactly `1*base, 2*base, ..., K*base`, each product taken in
`int64` (and equal to the plain product when `K*base` does not overflow); the
last call made is the successful `Store`, so no sleep follows it. -/
theorem processJob_linear_backoff {σ : Type} (env : Env σ) (cfg : Config) (job : Event)
    (m : Metrics) (w : σ) (pe : ProcessedEvent) (K : Nat)
    (hK : (K : Int) < cfg.MaxRetries)
    (hv : (env.validate job w).1 = none)
    (hp : (env.process job (env.validate job w).2).1 = .ok pe)
    (hs : sinkFailsThenSucceeds env cfg.RetryBaseBackoff pe K 1
      (env.process job (env.validate job w).2).2 = true) :
    sleepDurations (processJob env cfg job m w).calls
      = linearBackoff cfg.RetryBaseBackoff 1 K ∧
    (processJob env cfg job m w).calls.getLast? = some (Call.store [pe] none) ∧
    (0 ≤ cfg.RetryBaseBackoff → (K : Int) * cfg.RetryBaseBackoff < 2 ^ 63 →
      sleepDurations (processJob env cfg job m w).calls
        = (List.range K).map fun (i : Nat) => ((i : Int) + 1) * cfg.RetryBaseBackoff) := by
  have hl := storeLoop_sleeps_fails_then_succeeds env cfg.RetryBaseBackoff pe K
    cfg.MaxRetries.toNat 1 none (env.process job (env.validate job w).2).2 (by omega) hs
  have hnil := (storeLoop_fails_then_succeeds env cfg.RetryBaseBackoff pe K
    cfg.MaxRetries.toNat 1 none (env.process job (env.validate job w).2).2 (by omega) hs).1
  have hsl : sleepDurations (processJob env cfg job m w).calls
      = linearBackoff cfg.RetryBaseBackoff 1 K := by
    simp only [processJob, hv, hp, hnil]
    simpa [sleepDurations] using hl.1
  refine ⟨hsl, ?_, fun hb hk => ?_⟩
  · simp only [processJob, hv, hp, hnil]
    have h2 := hl.2
    revert h2
    generalize (storeLoop env cfg.RetryBaseBackoff pe cfg.MaxRetries.toNat 1 none
      (env.process job (env.validate job w).2).2).2.2 = cs
    intro h2
    cases cs with
    | nil => simp at h2
    | cons c cs => simpa [List.getLast?_cons_cons] using h2
  · rw [hsl, linearBackoff_exact _ _ hb hk]

/-- Witness for C14: the sink fails twice and succeeds on the third of three
attempts; the sleeps are 20 ms and 40 ms. -/
theorem processJob_linear_backoff_witness :
    (((2 : Nat) : Int) < sampleConfig.MaxRetries ∧
      sinkFailsThenSucceeds (sampleEnv 2) sampleConfig.RetryBaseBackoff
        (sampleProcessed sampleEvent sampleWorld) 2 1
        (((sampleEnv 2).process sampleEvent
          ((sampleEnv 2).validate sampleEvent sampleWorld).2).2) = true) ∧
    (sleepDurations (processJob (sampleEnv 2) sampleConfig sampleEvent (NewMetrics 0)
        sampleWorld).calls = linearBackoff sampleConfig.RetryBaseBackoff 1 2 ∧
    (processJob (sampleEnv 2) sampleConfig sampleEvent (NewMetrics 0)
        sampleWorld).calls.getLast?
      = some (Call.store [sampleProcessed sampleEvent sampleWorld] none) ∧
    (0 ≤ sampleConfig.RetryBaseBackoff →
      ((2 : Nat) : Int) * sampleConfig.RetryBaseBackoff < 2 ^ 63 →
      sleepDurations (processJob (sampleEnv 2) sampleConfig sampleEvent (NewMetrics 0)
          sampleWorld).calls
        = (List.range 2).map fun (i : Nat) => ((i : Int) + 1) * sampleConfig.RetryBaseBackoff)) :=
  ⟨⟨by decide, by decide⟩,
    processJob_linear_backoff (sampleEnv 2) sampleConfig sampleEvent (NewMetrics 0)
      sampleWorld (sampleProcessed sampleEvent sampleWorld) 2 (by decide) rfl rfl (by decide)⟩

/-- The sample run behind the witness for C14, spelled out. -/
theorem processJob_linear_backoff_sample :
    sleepDurations (processJob (sampleEnv 2) sampleConfig sampleEvent (NewMetrics 0)
        sampleWorld).calls = [20000000, 40000000] := by
  decide

/-! ## What the sink is given -/

/-- Every `Store` call of the loop is given the one-element batch `[pe]`, and
the loop never calls the processor. -/
theorem storeLoop_batches {σ : Type} (env : Env σ) (base : Duration) (pe : ProcessedEvent) :
    ∀ (n : Nat) (a : Int) (err : Option Err) (w : σ),
      (∀ batch ∈ storeBatches (storeLoop env base pe n a err w).2.2, batch = [pe]) ∧
      processCount (storeLoop env base pe n a err w).2.2 = 0 := by
  intro n
  induction n with
  | zero => intro a err w; simp [storeLoop, storeBatches, processCount]
  | succ n ih =>
    intro a err w
    cases h : (env.store [pe] w).1 with
    | none => simp [storeLoop, h, storeBatches, processCount, Call.isProcess]
    | some e =>
      have ih1 := ih (a + 1) (some e) (env.sleep (wrapInt64 (a * base)) (env.store [pe] w).2)
      simp only [storeLoop, h, storeBatches, List.mem_cons]
      refine ⟨?_, ?_⟩
      · intro batch hb
        rcases hb with hb | hb
        · exact hb
        · exact ih1.1 batch hb
      · have := ih1.2
        simp only [processCount] at this ⊢
        simp [List.countP_cons, Call.isProcess, this]

/-- Claim C15.  In one `processJob`, the processor is called at most once, and
every `Store` call is given a batch of exactly one element: the
`ProcessedEvent` that the one `Process` call for the event returned, the same
on every retry. -/
theorem processJob_store_batches {σ : Type} (env : Env σ) (cfg : Config) (job : Event)
    (m : Metrics) (w : σ) :
    processCount (processJob env cfg job m w).calls ≤ 1 ∧
    ∀ batch ∈ storeBatches (processJob env cfg job m w).calls,
      ∃ pe, batch = [pe] ∧
        (env.process job (env.validate job w).2).1 = .ok pe ∧
        processCount (processJob env cfg job m w).calls = 1 := by
  cases hv : (env.validate job w).1 with
  | some e => simp [processJob, hv, processCount, storeBatches, Call.isProcess]
  | none =>
    cases hp : (env.process job (env.validate job w).2).1 with
    | error e => simp [processJob, hv, hp, processCount, storeBatches, Call.isProcess]
    | ok pe =>
      have hl := storeLoop_batches env cfg.RetryBaseBackoff pe cfg.MaxRetries.toNat 1 none
        (env.process job (env.validate job w).2).2
      have hcount : processCount (processJob env cfg job m w).calls = 1 := by
        have := hl.2
        simp only [processCount] at this
        simp only [processJob, hv, hp, processCount]
        split <;> simp [List.countP_cons, Call.isProcess, this]
      refine ⟨by omega, fun batch hb => ⟨pe, ?_, rfl, hcount⟩⟩
      simp only [processJob, hv, hp] at hb
      apply hl.1
      revert hb
      split <;> simp [storeBatches]

/-- Witness for C15: three attempts for one event, each given the processed
event the sample processor returned. -/
theorem processJob_store_batches_witness :
    storeBatches (processJob (sampleEnv 2) sampleConfig sampleEvent (NewMetrics 0)
        sampleWorld).calls
      = [[sampleProcessed sampleEvent sampleWorld], [sampleProcessed sampleEvent sampleWorld],
          [sampleProcessed sampleEvent sampleWorld]] ∧
    ∃ pe, [sampleProcessed sampleEvent sampleWorld] = [pe] ∧
      ((sampleEnv 2).process sampleEvent
        ((sampleEnv 2).validate sampleEvent sampleWorld).2).1 = .ok pe ∧
      processCount (processJob (sampleEnv 2) sampleConfig sampleEvent (NewMetrics 0)
        sampleWorld).calls = 1 :=
  ⟨rfl,
    (processJob_store_batches (sampleEnv 2) sampleConfig sampleEvent (NewMetrics 0)
      sampleWorld).2 [sampleProcessed sampleEvent sampleWorld] (List.Mem.head _)⟩

/-! ## `Shutdown`, called again -/

/-- Once the channel is closed, the first step of another `Shutdown`,
`close(p.ingestionChan)`, panics, and its `p.cancel()` is never reached. -/
theorem shutdown_again_panics {σ : Type} (env : Env σ) (p : Pipeline σ)
    (hclosed : p.closed = true) (hlive : p.panicked = false) :
    p.step env Action.closeQueue = some { p with panicked := true } ∧
    Pipeline.run env shutdownSteps p = none := by
  simp [Pipeline.run, shutdownSteps, Pipeline.step, hclosed, hlive]

/-- Claim C12, evaluated on the code.  On the sample pipeline the first
`Shutdown` returns (channel closed, context cancelled, the worker gone, no
panic); the `close(p.ingestionChan)` of a second `Shutdown` then panics. -/
theorem shutdown_twice_panics :
    (Pipeline.run (sampleEnv 2) sampleSchedule samplePipeline).map Pipeline.shutDown
      = some true ∧
    (Pipeline.run (sampleEnv 2) (sampleSchedule ++ [Action.closeQueue]) samplePipeline).map
      (fun p => p.panicked) = some true ∧
    (Pipeline.run (sampleEnv 2) (sampleSchedule ++ shutdownSteps) samplePipeline).isNone
      = true := by
  decide

/-! ## `received` against `processed + failed` -/

/-- The only worker step that changes `received` is the one taken right after a
dequeue, in the `select` loop and in the drain loop alike; it adds one and
hands the event to `processJob`. -/
theorem workerStep_received {σ : Type} (env : Env σ) (c : Bool) (ws ws1 : WorkerState)
    (p p1 : Pipeline σ) (h : workerStep env c ws p = some (ws1, p1)) :
    (∀ d job, ws = .dequeued d job →
      ws1 = .validating d job ∧ p1.metrics = p.metrics.IncReceived) ∧
    ((∀ d job, ws ≠ .dequeued d job) → p1.metrics.received = p.metrics.received) := by
  cases ws with
  | selecting =>
    simp only [workerStep] at h
    split at h
    · cases h; simp
    · split at h
      · cases h; simp
      · split at h
        · cases h; simp
        · cases h
  | draining =>
    simp only [workerStep] at h
    split at h
    · cases h; simp
    · split at h
      · cases h; simp
      · cases h
  | dequeued d job =>
    simp only [workerStep] at h
    cases h; simp
  | validating d job =>
    simp only [workerStep] at h
    split at h <;> (cases h; simp)
  | processing d job start =>
    simp only [workerStep] at h
    split at h
    · cases h; simp
    · split at h <;> (cases h; simp)
  | storing d pe start k =>
    simp only [workerStep] at h
    split at h <;> (cases h; simp)
  | sleeping d pe start k e =>
    simp only [workerStep] at h
    split at h <;> (cases h; simp)
  | failing d =>
    simp only [workerStep] at h
    cases h
    simp [Metrics.IncFailed]
  | succeeding d start =>
    simp only [workerStep] at h
    cases h
    simp [Metrics.AddLatency]
  | counting d =>
    simp only [workerStep] at h
    cases h
    simp [Metrics.IncProcessed]
  | exited => simp [workerStep] at h

/-- Claim C17.  In every state the pipeline reaches from fresh metrics by a
schedule shorter than `2^64` steps, `received` is `processed + failed` plus the
number of events in flight, so `received >= processed + failed`.  The step a
worker takes after a dequeue is `IncReceived`, on the `select` path and on the
drain path, and it comes before the event's `processJob`. -/
theorem received_ge_processed_add_failed {σ : Type} (env : Env σ) (cfg : Config)
    (t : Time) (w : σ) (sched : List Action) (p : Pipeline σ)
    (hrun : Pipeline.run env sched (NewEventPipeline env cfg (NewMetrics t) w) = some p)
    (hlen : sched.length < u64) :
    p.metrics.GetReceived = p.metrics.GetProcessed + p.metrics.GetFailed + p.inFlight ∧
    p.metrics.GetReceived ≥ p.metrics.GetProcessed + p.metrics.GetFailed ∧
    (∀ (c d : Bool) (job : Event) (q : Pipeline σ),
      workerStep env c (.dequeued d job) q
        = some (.validating d job, { q with metrics := q.metrics.IncReceived })) := by
  have hb := run_balanced env sched _ p 0 hrun (newEventPipeline_balanced env cfg t w)
  obtain ⟨r, pr, f, hr, hpr, hf, heq, hle⟩ := hb
  simp only [Metrics.GetReceived, Metrics.GetProcessed, Metrics.GetFailed, hr, hpr, hf]
  simp only [u64] at *
  refine ⟨by omega, by omega, fun c d job q => rfl⟩

/-- Witness for C17: the sample run stopped after eight steps, with one event
in flight. -/
theorem received_ge_processed_add_failed_witness :
    ∃ p, Pipeline.run (sampleEnv 2) (sampleSchedule.take 8) samplePipeline = some p ∧
      (sampleSchedule.take 8).length < u64 ∧
      p.inFlight = 1 ∧
      (p.metrics.GetReceived = p.metrics.GetProcessed + p.metrics.GetFailed + p.inFlight ∧
      p.metrics.GetReceived ≥ p.metrics.GetProcessed + p.metrics.GetFailed ∧
      (∀ (c d : Bool) (job : Event) (q : Pipeline SampleWorld),
        workerStep (sampleEnv 2) c (.dequeued d job) q
          = some (.validating d job, { q with metrics := q.metrics.IncReceived }))) := by
  have hsome : ((Pipeline.run (sampleEnv 2) (sampleSchedule.take 8) samplePipeline).map
      Pipeline.inFlight) = some 1 := by decide
  cases hrun : Pipeline.run (sampleEnv 2) (sampleSchedule.take 8) samplePipeline with
  | none => simp [hrun] at hsome
  | some p =>
    have hfl : p.inFlight = 1 := by simpa [hrun] using hsome
    exact ⟨p, rfl, by decide, hfl,
      received_ge_processed_add_failed (sampleEnv 2) { sampleConfig with WorkerCount := 1 }
        0 sampleWorld (sampleSchedule.take 8) p hrun (by decide)⟩

/-! ## `AddLatency` -/

/-- Claim C20, as the code has it.  For every metrics state and every `ms >= 0`
that does not carry the total past `2^64 - 1`, `AddLatency(ms)` adds exactly
`ms`, so the total after the call is at least the total before it. -/
theorem addLatency_monotone (m : Metrics) (ms : Int) (hms : 0 ≤ ms)
    (hfit : (m.totalLatencyMS : Int) + ms < 2 ^ 64) :
    ((m.AddLatency ms).totalLatencyMS : Int) = m.totalLatencyMS + ms ∧
    m.totalLatencyMS ≤ (m.AddLatency ms).totalLatencyMS := by
  have hconv : toUint64 ms = ms.toNat := by
    unfold toUint64
    congr 1
    omega
  simp only [Metrics.AddLatency, hconv, u64]
  omega

/-- Witness for C20: 20 ms added to a total of 10 ms. -/
theorem addLatency_monotone_witness :
    ((0 : Int) ≤ 20 ∧ ((((NewMetrics 0).AddLatency 10).totalLatencyMS : Int) + 20 < 2 ^ 64)) ∧
    (((((NewMetrics 0).AddLatency 10).AddLatency 20).totalLatencyMS : Int)
        = ((NewMetrics 0).AddLatency 10).totalLatencyMS + 20 ∧
      ((NewMetrics 0).AddLatency 10).totalLatencyMS
        ≤ (((NewMetrics 0).AddLatency 10).AddLatency 20).totalLatencyMS) :=
  ⟨⟨by decide, by decide⟩,
    addLatency_monotone ((NewMetrics 0).AddLatency 10) 20 (by decide) (by decide)⟩

/-- Counterexample to C20 as stated: on a total of 10, `AddLatency(-1)` leaves
9, because `uint64(-1)` is `2^64 - 1` and the sum wraps; and on a total of
`2^64 - 1`, `AddLatency(1)` leaves 0. -/
theorem addLatency_can_decrease :
    (((NewMetrics 0).AddLatency 10).AddLatency (-1)).totalLatencyMS = 9 ∧
    ((NewMetrics 0).AddLatency 10).totalLatencyMS = 10 ∧
    (((NewMetrics 0).AddLatency (-1)).AddLatency 1).totalLatencyMS = 0 ∧
    ((NewMetrics 0).AddLatency (-1)).totalLatencyMS = 2 ^ 64 - 1 := by
  decide

/-! ## Single worker: stored in ingest order -/

/-- Reading a trace extended by one call. -/
theorem reading_concat (cs : List Call) (c : Call) :
    reading (cs ++ [c]) = readCall (reading cs) c := by
  simp [reading, List.foldl_append]

/-- The validated jobs of a trace, call by call. -/
theorem validatedJobs_cons (c : Call) (cs : List Call) :
    validatedJobs (c :: cs) = validatedJobs [c] ++ validatedJobs cs := by
  cases c <;> simp [validatedJobs, List.filterMap_cons]

/-- The validated jobs of two traces, one after the other. -/
theorem validatedJobs_append (cs ds : List Call) :
    validatedJobs (cs ++ ds) = validatedJobs cs ++ validatedJobs ds := by
  simp [validatedJobs, List.filterMap_append]

/-- The stored jobs, followed by the job still open, are among the validated
jobs, in the same order; this holds from any starting point of the reading. -/
theorem foldl_readCall_sublist (cs : List Call) :
    ∀ (s : Option Event × List (Event × ProcessedEvent)) (seen : List Event),
      (s.2.map Prod.fst ++ s.1.toList).Sublist seen →
      (((cs.foldl readCall s).2.map Prod.fst) ++ (cs.foldl readCall s).1.toList).Sublist
        (seen ++ validatedJobs cs) := by
  induction cs with
  | nil => intro s seen h; simpa [validatedJobs] using h
  | cons c cs ih =>
    intro s seen h
    obtain ⟨cur, out⟩ := s
    have hout : (out.map Prod.fst).Sublist seen :=
      (List.sublist_append_left _ _).trans h
    have key : ((readCall (cur, out) c).2.map Prod.fst
        ++ (readCall (cur, out) c).1.toList).Sublist (seen ++ validatedJobs [c]) := by
      cases c with
      | validate job res =>
        simp only [readCall, validatedJobs, List.filterMap_cons, List.filterMap_nil,
          Option.toList]
        exact List.Sublist.append hout (List.Sublist.refl _)
      | process job res =>
        cases cur <;> simpa [readCall, validatedJobs] using h
      | sleep d =>
        cases cur <;> simpa [readCall, validatedJobs] using h
      | store batch res =>
        cases cur with
        | none => simpa [readCall, validatedJobs] using h
        | some job =>
          cases res with
          | some e => simpa [readCall, validatedJobs] using h
          | none =>
            match batch with
            | [] => simpa [readCall, validatedJobs] using h
            | [pe] => simpa [readCall, validatedJobs] using h
            | _ :: _ :: _ => simpa [readCall, validatedJobs] using h
    have := ih (readCall (cur, out) c) (seen ++ validatedJobs [c]) key
    rw [validatedJobs_cons, ← List.append_assoc]
    exact this

/-- The stored jobs of a trace are among its validated jobs, in the same order. -/
theorem storedJobs_sublist_validatedJobs (cs : List Call) :
    ((storedJobs cs).map Prod.fst).Sublist (validatedJobs cs) := by
  have := foldl_readCall_sublist cs (none, []) [] (by simp)
  simp only [List.nil_append] at this
  exact (List.sublist_append_left _ _).trans this

/-- The accepted events of two traces, one after the other. -/
theorem acceptedEvents_append (cs ds : List Call) :
    acceptedEvents (cs ++ ds) = acceptedEvents cs ++ acceptedEvents ds := by
  simp [acceptedEvents, List.flatMap_append]

/-- A `Validate` call opens its job and records nothing. -/
theorem readCall_validate (s : Option Event × List (Event × ProcessedEvent)) (job : Event)
    (res : Option Err) : readCall s (Call.validate job res) = (some job, s.2) := by
  obtain ⟨cur, out⟩ := s
  cases cur <;> rfl

/-- A `Process` call changes nothing in the reading. -/
theorem readCall_process (s : Option Event × List (Event × ProcessedEvent)) (job : Event)
    (res : Except Err ProcessedEvent) : readCall s (Call.process job res) = s := by
  obtain ⟨cur, out⟩ := s
  cases cur <;> rfl

/-- A sleep changes nothing in the reading. -/
theorem readCall_sleep (s : Option Event × List (Event × ProcessedEvent)) (d : Duration) :
    readCall s (Call.sleep d) = s := by
  obtain ⟨cur, out⟩ := s
  cases cur <;> rfl

/-- A failed `Store` call changes nothing in the reading. -/
theorem readCall_store_error (s : Option Event × List (Event × ProcessedEvent))
    (batch : List ProcessedEvent) (e : Err) : readCall s (Call.store batch (some e)) = s := by
  obtain ⟨cur, out⟩ := s
  cases cur with
  | none => rfl
  | some job =>
    match batch with
    | [] => rfl
    | [_] => rfl
    | _ :: _ :: _ => rfl

/-- A worker step keeps the ordering facts of a single-worker pipeline: the
events sent are the jobs taken up, the job in hand and the queue; a worker
before the end of its store loop has an open job in the trace; and every
accepted event is recorded with its job. -/
theorem workerStep_ordered {σ : Type} (env : Env σ) (c : Bool) (ws ws1 : WorkerState)
    (p p1 : Pipeline σ) (sent : List Event) (h : workerStep env c ws p = some (ws1, p1))
    (h1 : sent = validatedJobs p.calls ++ ws.pending ++ p.queue)
    (h2 : ws.beforeStore = true → (reading p.calls).1.isSome = true)
    (h3 : acceptedEvents p.calls = (storedJobs p.calls).map Prod.snd) :
    sent = validatedJobs p1.calls ++ ws1.pending ++ p1.queue ∧
    (ws1.beforeStore = true → (reading p1.calls).1.isSome = true) ∧
    acceptedEvents p1.calls = (storedJobs p1.calls).map Prod.snd := by
  cases ws with
  | selecting =>
    simp only [workerStep] at h
    split at h
    · cases h
      exact ⟨h1, by simp [WorkerState.beforeStore], h3⟩
    · split at h
      · rename_i job rest hq
        cases h
        refine ⟨?_, by simp [WorkerState.beforeStore], h3⟩
        simp [h1, hq, WorkerState.pending]
      · split at h
        · cases h
          exact ⟨h1, by simp [WorkerState.beforeStore], h3⟩
        · cases h
  | draining =>
    simp only [workerStep] at h
    split at h
    · rename_i job rest hq
      cases h
      refine ⟨?_, by simp [WorkerState.beforeStore], h3⟩
      simp [h1, hq, WorkerState.pending]
    · split at h
      · cases h
        exact ⟨h1, by simp [WorkerState.beforeStore], h3⟩
      · cases h
  | dequeued d job =>
    simp only [workerStep] at h
    cases h
    exact ⟨h1, by simp [WorkerState.beforeStore], h3⟩
  | validating d job =>
    simp only [workerStep] at h
    have hv : validatedJobs (p.calls ++ [Call.validate job (env.validate job p.world).1])
        = validatedJobs p.calls ++ [job] := by
      rw [validatedJobs_append]; rfl
    have ha : acceptedEvents (p.calls ++ [Call.validate job (env.validate job p.world).1])
        = acceptedEvents p.calls := by
      rw [acceptedEvents_append]; simp [acceptedEvents]
    split at h <;>
      (cases h
       refine ⟨?_, ?_, ?_⟩
       · simp only [hv]
         simpa [WorkerState.pending] using h1
       · intro _
         simp [reading_concat, readCall_validate]
       · simp only [ha, storedJobs, reading_concat, readCall_validate]
         exact h3)
  | processing d job start =>
    simp only [workerStep] at h
    have hv : validatedJobs (p.calls ++ [Call.process job (env.process job p.world).1])
        = validatedJobs p.calls := by
      rw [validatedJobs_append]; simp [validatedJobs]
    have ha : acceptedEvents (p.calls ++ [Call.process job (env.process job p.world).1])
        = acceptedEvents p.calls := by
      rw [acceptedEvents_append]; simp [acceptedEvents]
    have hr : reading (p.calls ++ [Call.process job (env.process job p.world).1])
        = reading p.calls := by
      rw [reading_concat, readCall_process]
    have hopen := h2 rfl
    split at h
    · cases h
      refine ⟨?_, by simp [WorkerState.beforeStore], ?_⟩
      · simp only [hv]; simpa [WorkerState.pending] using h1
      · simp only [ha, storedJobs, hr]; exact h3
    · split at h <;>
        (cases h
         refine ⟨?_, ?_, ?_⟩
         · simp only [hv]; simpa [WorkerState.pending] using h1
         · intro _; simp only [hr]; exact hopen
         · simp only [ha, storedJobs, hr]; exact h3)
  | storing d pe start k =>
    simp only [workerStep] at h
    have hopen := h2 rfl
    split at h
    · rename_i hres
      cases h
      obtain ⟨job, hjob⟩ := Option.isSome_iff_exists.1 hopen
      have hr : reading (p.calls ++ [Call.store [pe] (env.store [pe] p.world).1])
          = (none, (reading p.calls).2 ++ [(job, pe)]) := by
        rw [reading_concat, hres]
        rcases hs : reading p.calls with ⟨cur, out⟩
        rw [hs] at hjob
        simp only at hjob
        subst hjob
        rfl
      refine ⟨?_, by simp [WorkerState.beforeStore], ?_⟩
      · rw [validatedJobs_append]
        simpa [validatedJobs, WorkerState.pending] using h1
      · rw [hres] at hr
        rw [acceptedEvents_append]
        simp only [storedJobs, hres, hr, List.map_append, List.map_cons, List.map_nil]
        simp only [storedJobs] at h3
        rw [h3]
        simp [acceptedEvents]
    · rename_i e hres
      cases h
      have hr : reading (p.calls ++ [Call.store [pe] (env.store [pe] p.world).1])
          = reading p.calls := by
        rw [reading_concat, hres, readCall_store_error]
      refine ⟨?_, ?_, ?_⟩
      · rw [validatedJobs_append]
        simpa [validatedJobs, WorkerState.pending] using h1
      · intro _; simp only [hr]; exact hopen
      · rw [hres] at hr
        rw [acceptedEvents_append]
        simp only [storedJobs, hres, hr]
        simp only [storedJobs] at h3
        rw [h3]
        simp [acceptedEvents]
  | sleeping d pe start k e =>
    simp only [workerStep] at h
    have hopen := h2 rfl
    have hv : ∀ x, validatedJobs (p.calls ++ [Call.sleep x]) = validatedJobs p.calls := by
      intro x; rw [validatedJobs_append]; simp [validatedJobs]
    have ha : ∀ x, acceptedEvents (p.calls ++ [Call.sleep x]) = acceptedEvents p.calls := by
      intro x; rw [acceptedEvents_append]; simp [acceptedEvents]
    have hr : ∀ x, reading (p.calls ++ [Call.sleep x]) = reading p.calls := by
      intro x; rw [reading_concat, readCall_sleep]
    split at h
    · cases h
      refine ⟨?_, ?_, ?_⟩
      · simp only [hv]; simpa [WorkerState.pending] using h1
      · intro _; simp only [hr]; exact hopen
      · simp only [ha, storedJobs, hr]; exact h3
    · cases h
      refine ⟨?_, by simp [WorkerState.beforeStore], ?_⟩
      · simp only [hv]; simpa [WorkerState.pending] using h1
      · simp only [ha, storedJobs, hr]; exact h3
  | failing d =>
    simp only [workerStep] at h
    cases h
    refine ⟨?_, ?_, h3⟩
    · cases d <;> simpa [WorkerState.pending, WorkerState.loopHead] using h1
    · cases d <;> simp [WorkerState.beforeStore, WorkerState.loopHead]
  | succeeding d start =>
    simp only [workerStep] at h
    cases h
    exact ⟨by simpa [WorkerState.pending] using h1, by simp [WorkerState.beforeStore], h3⟩
  | counting d =>
    simp only [workerStep] at h
    cases h
    refine ⟨?_, ?_, h3⟩
    · cases d <;> simpa [WorkerState.pending, WorkerState.loopHead] using h1
    · cases d <;> simp [WorkerState.beforeStore, WorkerState.loopHead]
  | exited => simp [workerStep] at h

/-- A fresh pipeline with one worker satisfies the ordering invariant. -/
theorem newEventPipeline_ordered {σ : Type} (env : Env σ) (cfg : Config) (m : Metrics) (w : σ)
    (hone : cfg.WorkerCount = 1) (hq : 0 ≤ cfg.QueueSize) :
    (NewEventPipeline env cfg m w).Ordered [] := by
  refine ⟨.selecting, ?_, ?_, ?_, ?_⟩
  · have : ¬ cfg.QueueSize < 0 := by omega
    simp [NewEventPipeline, hone, this]
  · simp [NewEventPipeline, validatedJobs, WorkerState.pending]
  · simp [WorkerState.beforeStore]
  · simp [NewEventPipeline, acceptedEvents, storedJobs, reading]

/-- Every transition keeps the ordering invariant, with the events sent
extended by what the transition sends. -/
theorem step_ordered {σ : Type} (env : Env σ) (a : Action) (p p1 : Pipeline σ)
    (sent : List Event) (hstep : p.step env a = some p1) (ho : p.Ordered sent) :
    p1.Ordered (sent ++ sentBy env a p) := by
  obtain ⟨ws, hws, h1, h2, h3⟩ := ho
  unfold Pipeline.step at hstep
  split at hstep
  · cases hstep
  · cases a with
    | ingest ev =>
      simp only [Pipeline.Ingest] at hstep
      split at hstep
      · rename_i hcl
        cases hstep
        refine ⟨ws, hws, ?_, h2, h3⟩
        simp [sentBy, hcl, h1]
      · rename_i hcl
        split at hstep
        · cases hstep
          refine ⟨ws, hws, ?_, h2, h3⟩
          simp [sentBy, hcl, h1]
        · cases hstep
    | closeQueue =>
      simp only at hstep
      split at hstep <;>
        (cases hstep
         exact ⟨ws, hws, by simpa [sentBy] using h1, h2, h3⟩)
    | cancel =>
      simp only at hstep
      cases hstep
      exact ⟨ws, hws, by simpa [sentBy] using h1, h2, h3⟩
    | work i c =>
      simp only at hstep
      cases hi : p.workers[i]? with
      | none => simp [hi] at hstep
      | some ws0 =>
        simp only [hi] at hstep
        cases hw : workerStep env c ws0 p with
        | none => simp [hw] at hstep
        | some res =>
          obtain ⟨ws1, p2⟩ := res
          simp only [hw, Option.some.injEq] at hstep
          subst hstep
          obtain ⟨hwk, _⟩ := workerStep_effect env c ws0 ws1 p p2 hw
          have hi0 : i = 0 ∧ ws0 = ws := by
            rw [hws] at hi
            cases i with
            | zero => simpa using hi.symm
            | succ i => simp at hi
          obtain ⟨rfl, rfl⟩ := hi0
          obtain ⟨g1, g2, g3⟩ := workerStep_ordered env c ws0 ws1 p p2 sent hw h1 h2 h3
          refine ⟨ws1, ?_, ?_, g2, g3⟩
          · simp [hwk, hws]
          · simpa [sentBy] using g1

/-- Every schedule keeps the ordering invariant, with the events sent extended
by what the schedule sends. -/
theorem run_ordered {σ : Type} (env : Env σ) (sched : List Action) :
    ∀ (p p1 : Pipeline σ) (sent : List Event), Pipeline.run env sched p = some p1 →
      p.Ordered sent → p1.Ordered (sent ++ Pipeline.sent env sched p) := by
  induction sched with
  | nil =>
    intro p p1 sent h ho
    simp only [Pipeline.run, Option.some.injEq] at h
    subst h
    simpa [Pipeline.sent] using ho
  | cons a rest ih =>
    intro p p1 sent h ho
    simp only [Pipeline.run] at h
    cases hs : p.step env a with
    | none => simp [hs] at h
    | some p2 =>
      simp only [hs] at h
      have := ih p2 p1 _ h (step_ordered env a p p2 sent hs ho)
      simpa [Pipeline.sent, hs, List.append_assoc] using this

/-- Claim C16.  In a pipeline with a single worker, after any schedule: every
processed event the sink accepted is recorded with the job it came from, in
the order of the successful `Store` calls, and those jobs form a subsequence
of the events sent by `Ingest`, in ingest order.  So the sink's accepted events
follow the order in which their events were ingested. -/
theorem single_worker_stores_in_ingest_order {σ : Type} (env : Env σ) (cfg : Config)
    (m : Metrics) (w : σ) (sched : List Action) (p : Pipeline σ)
    (hone : cfg.WorkerCount = 1) (hq : 0 ≤ cfg.QueueSize)
    (hrun : Pipeline.run env sched (NewEventPipeline env cfg m w) = some p) :
    acceptedEvents p.calls = (storedJobs p.calls).map Prod.snd ∧
    ((storedJobs p.calls).map Prod.fst).Sublist
      (Pipeline.sent env sched (NewEventPipeline env cfg m w)) := by
  have ho := run_ordered env sched _ p [] hrun (newEventPipeline_ordered env cfg m w hone hq)
  obtain ⟨ws, _, h1, _, h3⟩ := ho
  refine ⟨h3, ?_⟩
  simp only [List.nil_append] at h1
  rw [h1, List.append_assoc]
  exact (storedJobs_sublist_validatedJobs p.calls).trans (List.sublist_append_left _ _)

/-- Witness for C16: two events ingested from `"web"` and then `"app"`; the
single worker stores both, in that order. -/
theorem single_worker_stores_in_ingest_order_witness :
    ∃ p, Pipeline.run (sampleEnv 2) orderSchedule samplePipeline = some p ∧
      (((storedJobs p.calls).map fun jp => jp.1.Source) = ["web", "app"] ∧
        ((Pipeline.sent (sampleEnv 2) orderSchedule samplePipeline).map fun e => e.Source)
          = ["web", "app"]) ∧
      (acceptedEvents p.calls = (storedJobs p.calls).map Prod.snd ∧
        ((storedJobs p.calls).map Prod.fst).Sublist
          (Pipeline.sent (sampleEnv 2) orderSchedule samplePipeline)) := by
  have hsome : ((Pipeline.run (sampleEnv 2) orderSchedule samplePipeline).map
      fun p => (storedJobs p.calls).map fun jp => jp.1.Source) = some ["web", "app"] := by
    decide
  cases hrun : Pipeline.run (sampleEnv 2) orderSchedule samplePipeline with
  | none => simp [hrun] at hsome
  | some p =>
    have hsrc : ((storedJobs p.calls).map fun jp => jp.1.Source) = ["web", "app"] := by
      simpa [hrun] using hsome
    exact ⟨p, rfl, ⟨hsrc, by decide⟩,
      single_worker_stores_in_ingest_order (sampleEnv 2) { sampleConfig with WorkerCount := 1 }
        (NewMetrics 0) sampleWorld orderSchedule p rfl (by decide) hrun⟩

/-! ## Generated ids and the validator -/

/-- The UTF-8 encoding of a hexadecimal digit is its one ASCII byte. -/
theorem utf8_hexDigit : ∀ n < 16,
    (String.utf8EncodeChar (hexDigit n)).map UInt8.toNat = [hexCode n] := by
  decide

/-- A hexadecimal digit byte decodes to its value. -/
theorem xvalue_hexCode : ∀ n < 16, xvalue (hexCode n) = some n := by
  decide

/-- Two hexadecimal digits of a byte decode to that byte. -/
theorem xtob_hexCode (b : Nat) (hb : b < 256) :
    xtob (hexCode (b / 16)) (hexCode (b % 16)) = some b := by
  have h1 := xvalue_hexCode (b / 16) (by omega)
  have h2 := xvalue_hexCode (b % 16) (by omega)
  simp only [xtob, h1, h2]
  congr 1
  omega

/-- The bytes of a string given by its characters. -/
theorem goBytes_mk (cs : List Char) :
    goBytes (String.mk cs) = cs.flatMap fun c => (String.utf8EncodeChar c).map UInt8.toNat := by
  simp [goBytes, String.toUTF8, List.map_flatMap]

/-- A list of sixteen bytes, spelled out. -/
theorem uuid_sixteen (u : UUID) (hlen : u.length = 16) :
    ∃ b0 b1 b2 b3 b4 b5 b6 b7 b8 b9 b10 b11 b12 b13 b14 b15,
      u = [b0, b1, b2, b3, b4, b5, b6, b7, b8, b9, b10, b11, b12, b13, b14, b15] := by
  match u, hlen with
  | [b0, b1, b2, b3, b4, b5, b6, b7, b8, b9, b10, b11, b12, b13, b14, b15], _ =>
    exact ⟨b0, b1, b2, b3, b4, b5, b6, b7, b8, b9, b10, b11, b12, b13, b14, b15, rfl⟩

/-- The bytes of the canonical text of a UUID. -/
theorem goBytes_uuidString (b0 b1 b2 b3 b4 b5 b6 b7 b8 b9 b10 b11 b12 b13 b14 b15 : Nat)
    (hb : ∀ b ∈ [b0, b1, b2, b3, b4, b5, b6, b7, b8, b9, b10, b11, b12, b13, b14, b15],
      b < 256) :
    goBytes (uuidString [b0, b1, b2, b3, b4, b5, b6, b7, b8, b9, b10, b11, b12, b13, b14, b15])
      = [hexCode (b0 / 16), hexCode (b0 % 16), hexCode (b1 / 16), hexCode (b1 % 16),
          hexCode (b2 / 16), hexCode (b2 % 16), hexCode (b3 / 16), hexCode (b3 % 16), 45,
          hexCode (b4 / 16), hexCode (b4 % 16), hexCode (b5 / 16), hexCode (b5 % 16), 45,
          hexCode (b6 / 16), hexCode (b6 % 16), hexCode (b7 / 16), hexCode (b7 % 16), 45,
          hexCode (b8 / 16), hexCode (b8 % 16), hexCode (b9 / 16), hexCode (b9 % 16), 45,
          hexCode (b10 / 16), hexCode (b10 % 16), hexCode (b11 / 16), hexCode (b11 % 16),
          hexCode (b12 / 16), hexCode (b12 % 16), hexCode (b13 / 16), hexCode (b13 % 16),
          hexCode (b14 / 16), hexCode (b14 % 16), hexCode (b15 / 16), hexCode (b15 % 16)] := by
  have hd : ∀ b, b < 256 →
      (String.utf8EncodeChar (hexDigit (b / 16))).map UInt8.toNat = [hexCode (b / 16)] ∧
      (String.utf8EncodeChar (hexDigit (b % 16))).map UInt8.toNat = [hexCode (b % 16)] :=
    fun b h => ⟨utf8_hexDigit _ (by omega), utf8_hexDigit _ (by omega)⟩
  have hdash : (String.utf8EncodeChar '-').map UInt8.toNat = [45] := by decide
  simp only [List.mem_cons, List.mem_singleton, forall_eq_or_imp, forall_eq, List.not_mem_nil,
    false_implies, implies_true, and_true] at hb
  obtain ⟨h0, h1, h2, h3, h4, h5, h6, h7, h8, h9, h10, h11, h12, h13, h14, h15⟩ := hb
  rw [goBytes_mk]
  simp only [uuidString, List.take, List.drop, List.flatMap_cons, List.flatMap_nil, hexByte,
    List.cons_append, List.nil_append, List.append_nil, List.flatMap_append,
    (hd b0 h0).1, (hd b0 h0).2, (hd b1 h1).1, (hd b1 h1).2, (hd b2 h2).1, (hd b2 h2).2,
    (hd b3 h3).1, (hd b3 h3).2, (hd b4 h4).1, (hd b4 h4).2, (hd b5 h5).1, (hd b5 h5).2,
    (hd b6 h6).1, (hd b6 h6).2, (hd b7 h7).1, (hd b7 h7).2, (hd b8 h8).1, (hd b8 h8).2,
    (hd b9 h9).1, (hd b9 h9).2, (hd b10 h10).1, (hd b10 h10).2, (hd b11 h11).1, (hd b11 h11).2,
    (hd b12 h12).1, (hd b12 h12).2, (hd b13 h13).1, (hd b13 h13).2, (hd b14 h14).1,
    (hd b14 h14).2, (hd b15 h15).1, (hd b15 h15).2, hdash]

/-- The parser reads back every UUID from its canonical text. -/
theorem uuidParse_uuidString (u : UUID) (hlen : u.length = 16) (hb : ∀ b ∈ u, b < 256) :
    uuidParse (uuidString u) = some u := by
  obtain ⟨b0, b1, b2, b3, b4, b5, b6, b7, b8, b9, b10, b11, b12, b13, b14, b15, rfl⟩ :=
    uuid_sixteen u hlen
  have hbytes := goBytes_uuidString b0 b1 b2 b3 b4 b5 b6 b7 b8 b9 b10 b11 b12 b13 b14 b15 hb
  simp only [List.mem_cons, List.mem_singleton, forall_eq_or_imp, forall_eq, List.not_mem_nil,
    false_implies, implies_true, and_true] at hb
  obtain ⟨h0, h1, h2, h3, h4, h5, h6, h7, h8, h9, h10, h11, h12, h13, h14, h15⟩ := hb
  simp only [uuidParse, hbytes]
  split
  · simp only [parseCanonical]
    split
    · simp only [hexPairsAt, List.mapM_cons, List.mapM_nil]
      simp only [List.getElem?_cons_succ, List.getElem?_cons_zero, Nat.reduceAdd,
        xtob_hexCode _ h0, xtob_hexCode _ h1, xtob_hexCode _ h2, xtob_hexCode _ h3,
        xtob_hexCode _ h4, xtob_hexCode _ h5, xtob_hexCode _ h6, xtob_hexCode _ h7,
        xtob_hexCode _ h8, xtob_hexCode _ h9, xtob_hexCode _ h10, xtob_hexCode _ h11,
        xtob_hexCode _ h12, xtob_hexCode _ h13, xtob_hexCode _ h14, xtob_hexCode _ h15]
      rfl
    · rename_i h
      exact absurd ⟨rfl, rfl, rfl, rfl⟩ h
  · rename_i h
    exact absurd rfl h

/-- `NewEvent` returns the type and the source it was given. -/
theorem newEvent_type_source (fresh : String) (now : Time) (e : Event) :
    (NewEvent fresh now e).Typ = e.Typ ∧ (NewEvent fresh now e).Source = e.Source := by
  unfold NewEvent Time.IsZero
  by_cases hi : e.ID = "" <;> by_cases ht : e.Timestamp = 0 <;> simp [hi, ht]

/-- For any parser: an event with type and source set and no id passes the
validator after `NewEvent`, provided the parser accepts the generated id. -/
theorem validate_newEvent_of_accepted (parse : String → Option UUID) (fresh : String)
    (now : Time) (e : Event) (ht : e.Typ ≠ "") (hs : e.Source ≠ "") (hid : e.ID = "")
    (hacc : (parse fresh).isSome = true) :
    BasicValidator.Validate parse (NewEvent fresh now e) = none := by
  have hf := newEvent_id_timestamp fresh now e
  have hts := newEvent_type_source fresh now e
  rw [if_pos hid] at hf
  obtain ⟨v, hv⟩ := Option.isSome_iff_exists.1 hacc
  unfold BasicValidator.Validate
  simp only [hts.1, hts.2, hf.1, beq_iff_eq, ht, hs, if_false, hv]
  split <;> rfl

/-- Claim C11.  For every event with non-empty type, non-empty source and empty
id, and every sixteen-byte value the UUID source may produce,
`BasicValidator.Validate` accepts `NewEvent(e)`: the canonical text of the
generated UUID, which `NewEvent` stores as the id, parses as a UUID. -/
theorem validate_accepts_generated_id (u : UUID) (now : Time) (e : Event)
    (hlen : u.length = 16) (hbytes : ∀ b ∈ u, b < 256)
    (ht : e.Typ ≠ "") (hs : e.Source ≠ "") (hid : e.ID = "") :
    (NewEvent (uuidString u) now e).ID = uuidString u ∧
    BasicValidator.Validate uuidParse (NewEvent (uuidString u) now e) = none := by
  refine ⟨?_, ?_⟩
  · rw [(newEvent_id_timestamp (uuidString u) now e).1, if_pos hid]
  · apply validate_newEvent_of_accepted uuidParse (uuidString u) now e ht hs hid
    rw [uuidParse_uuidString u hlen hbytes]
    rfl

/-- Witness for C11: the sample event, given the sample UUID as its id. -/
theorem validate_accepts_generated_id_witness :
    (sampleUUID.length = 16 ∧ (∀ b ∈ sampleUUID, b < 256) ∧
      sampleEvent.Typ ≠ "" ∧ sampleEvent.Source ≠ "" ∧ sampleEvent.ID = "") ∧
    ((NewEvent (uuidString sampleUUID) 1000000000 sampleEvent).ID = uuidString sampleUUID ∧
      BasicValidator.Validate uuidParse (NewEvent (uuidString sampleUUID) 1000000000 sampleEvent)
        = none) :=
  ⟨⟨by decide, by decide, by decide, by decide, rfl⟩,
    validate_accepts_generated_id sampleUUID 1000000000 sampleEvent (by decide) (by decide)
      (by decide) (by decide) rfl⟩

/-- The sample UUID, written out: its canonical text is the id the sample
collaborators generate. -/
theorem uuidString_sample :
    uuidString sampleUUID = "123e4567-e89b-42d3-a456-426614174000" := by
  decide

/-! ## `float64` rounding -/

/-- Halving finds the highest set bit when the fuel covers the number. -/
theorem log2Fuel_spec : ∀ (fuel n : Nat), 1 ≤ n → n < 2 ^ fuel →
    2 ^ log2Fuel fuel n ≤ n ∧ n < 2 ^ (log2Fuel fuel n + 1) := by
  intro fuel
  induction fuel with
  | zero => intro n h1 h2; simp at h2; omega
  | succ fuel ih =>
    intro n h1 h2
    unfold log2Fuel
    by_cases hn : n < 2
    · simp only [hn, if_true]
      omega
    · simp only [hn, if_false]
      have hhalf : n / 2 < 2 ^ fuel := by
        rw [Nat.div_lt_iff_lt_mul (by norm_num)]
        rw [pow_succ] at h2
        exact h2
      obtain ⟨ih1, ih2⟩ := ih (n / 2) (by omega) hhalf
      rw [pow_succ, pow_succ]
      constructor <;> omega

/-- The exponent brackets the number between two powers of two. -/
theorem floorLog2_spec (n : Nat) (h : 1 ≤ n) :
    2 ^ floorLog2 n ≤ n ∧ n < 2 ^ (floorLog2 n + 1) :=
  log2Fuel_spec n n h (Nat.lt_two_pow n)

/-- Rounding does not go below an integer that is at most the quotient. -/
theorem roundHalfEven_ge (n d j : Nat) (hd : 0 < d) (h : j * d ≤ n) :
    j ≤ roundHalfEven n d := by
  have hj : j ≤ n / d := (Nat.le_div_iff_mul_le hd).2 h
  unfold roundHalfEven
  split
  · exact hj
  · split
    · omega
    · split <;> omega

/-- Rounding does not go above an integer that is at least the quotient. -/
theorem roundHalfEven_le (n d j : Nat) (hd : 0 < d) (h : n ≤ j * d) :
    roundHalfEven n d ≤ j := by
  have hq : n / d ≤ j := by
    calc n / d ≤ j * d / d := Nat.div_le_div_right h
      _ = j := Nat.mul_div_cancel j hd
  have hmod := Nat.div_add_mod n d
  have hlt := Nat.mod_lt n hd
  by_cases hr : n % d = 0
  · unfold roundHalfEven
    simp only [hr, Nat.mul_zero, hd, if_true]
    exact hq
  · have hlt2 : n / d < j := by
      by_contra hcon
      have hge : j ≤ n / d := by omega
      have h1 : j * d ≤ n / d * d := Nat.mul_le_mul_right d hge
      have h2 : d * (n / d) = n / d * d := Nat.mul_comm _ _
      omega
    unfold roundHalfEven
    split
    · exact hq
    · split
      · omega
      · split <;> omega

/-- Below `2^53` the conversion to `float64` is exact. -/
theorem float64OfUint64_small (x : Nat) (h : x < 2 ^ 53) : float64OfUint64 x = x := by
  unfold float64OfUint64
  rw [if_pos h]

/-- From `2^53` on the conversion to `float64` gives at least `2^53`. -/
theorem float64OfUint64_large (x : Nat) (h : 2 ^ 53 ≤ x) : 2 ^ 53 ≤ float64OfUint64 x := by
  have hx : ¬ x < 2 ^ 53 := by omega
  obtain ⟨hlo, hhi⟩ := floorLog2_spec x (by omega)
  have he : 53 ≤ floorLog2 x := by
    by_contra hcon
    have : floorLog2 x + 1 ≤ 53 := by omega
    have := Nat.pow_le_pow_right (by norm_num : 0 < 2) this
    omega
  simp only [float64OfUint64, hx, if_false]
  have hsplit : 2 ^ floorLog2 x = 2 ^ 52 * 2 ^ (floorLog2 x - 52) := by
    rw [← pow_add]
    congr 1
    omega
  have hm : 2 ^ 52 ≤ roundHalfEven x (2 ^ (floorLog2 x - 52)) :=
    roundHalfEven_ge _ _ _ (by positivity) (by rw [← hsplit]; exact hlo)
  have hone : 2 ≤ 2 ^ (floorLog2 x - 52) := by
    calc 2 = 2 ^ 1 := by norm_num
      _ ≤ 2 ^ (floorLog2 x - 52) := Nat.pow_le_pow_right (by norm_num) (by omega)
  calc 2 ^ 53 = 2 ^ 52 * 2 := by norm_num
    _ ≤ roundHalfEven x (2 ^ (floorLog2 x - 52)) * 2 ^ (floorLog2 x - 52) :=
      Nat.mul_le_mul hm hone

/-- A quotient with a non-negative exponent `e` is at least `2^e`. -/
theorem quotExponent_nonneg (a b : Nat) (ha : 1 ≤ a) (hb : 1 ≤ b)
    (he : 0 ≤ quotExponent a b) : b * 2 ^ (quotExponent a b).toNat ≤ a := by
  obtain ⟨hal, _⟩ := floorLog2_spec a ha
  obtain ⟨_, hbh⟩ := floorLog2_spec b hb
  unfold quotExponent at he ⊢
  split at he
  · rename_i hc
    rw [if_pos hc]
    have hle : floorLog2 b ≤ floorLog2 a := by omega
    have hexp : ((floorLog2 a : Int) - floorLog2 b).toNat = floorLog2 a - floorLog2 b := by omega
    rw [hexp]
    have hsplit : 2 ^ floorLog2 a = 2 ^ (floorLog2 a - floorLog2 b) * 2 ^ floorLog2 b := by
      rw [← pow_add]
      congr 1
      omega
    rw [hsplit, ← Nat.mul_assoc] at hc
    exact Nat.le_of_mul_le_mul_right hc (by positivity)
  · rename_i hc
    rw [if_neg hc]
    have hle : floorLog2 b + 1 ≤ floorLog2 a := by omega
    have hexp : ((floorLog2 a : Int) - floorLog2 b - 1).toNat
        = floorLog2 a - (floorLog2 b + 1) := by omega
    rw [hexp]
    have hsplit : 2 ^ floorLog2 a
        = 2 ^ (floorLog2 b + 1) * 2 ^ (floorLog2 a - (floorLog2 b + 1)) := by
      rw [← pow_add]
      congr 1
      omega
    calc b * 2 ^ (floorLog2 a - (floorLog2 b + 1))
        ≤ 2 ^ (floorLog2 b + 1) * 2 ^ (floorLog2 a - (floorLog2 b + 1)) :=
          Nat.mul_le_mul_right _ (by omega)
      _ = 2 ^ floorLog2 a := hsplit.symm
      _ ≤ a := hal

/-- A `float64` quotient is never negative. -/
theorem float64Div_nonneg (a b : Nat) : 0 ≤ float64Div a b := by
  unfold float64Div
  split
  · exact le_refl 0
  · split
    · positivity
    · positivity

/-- The `float64` quotient does not go below an integer below `2^53` that is at
most the exact quotient. -/
theorem float64Div_ge (a b k : Nat) (hb : 1 ≤ b) (hk : k < 2 ^ 53) (h : k * b ≤ a) :
    (k : ℚ) ≤ float64Div a b := by
  by_cases ha : a = 0
  · have hk0 : k = 0 := by
      subst ha
      rcases Nat.eq_zero_or_pos k with h0 | h0
      · exact h0
      · have := Nat.mul_pos h0 hb
        omega
    subst hk0
    simpa using float64Div_nonneg a b
  · have hb0 : b ≠ 0 := by omega
    simp only [float64Div, ha, hb0, or_self, if_false, float64DivParts]
    by_cases hs : 0 ≤ quotExponent a b - 52
    · simp only [hs, if_true]
      have hspec := quotExponent_nonneg a b (by omega) hb (by omega)
      have hexp : (quotExponent a b).toNat = 52 + (quotExponent a b - 52).toNat := by omega
      rw [hexp, pow_add] at hspec
      have hm : 2 ^ 52 ≤ roundHalfEven a (b * 2 ^ (quotExponent a b - 52).toNat) :=
        roundHalfEven_ge _ _ _ (by positivity) (by
          calc 2 ^ 52 * (b * 2 ^ (quotExponent a b - 52).toNat)
              = b * (2 ^ 52 * 2 ^ (quotExponent a b - 52).toNat) := by ring
            _ ≤ a := hspec)
      rcases Nat.eq_zero_or_pos (quotExponent a b - 52).toNat with h0 | h0
      · rw [h0] at hm ⊢
        have hk' : k ≤ roundHalfEven a (b * 2 ^ 0) :=
          roundHalfEven_ge _ _ _ (by positivity) (by simpa using h)
        have : (k : ℚ) ≤ (roundHalfEven a (b * 2 ^ 0) : ℚ) := by exact_mod_cast hk'
        simpa using this
      · have hpow : 2 ≤ 2 ^ (quotExponent a b - 52).toNat := by
          calc 2 = 2 ^ 1 := by norm_num
            _ ≤ 2 ^ (quotExponent a b - 52).toNat := Nat.pow_le_pow_right (by norm_num) h0
        have hnat : k ≤ roundHalfEven a (b * 2 ^ (quotExponent a b - 52).toNat)
            * 2 ^ (quotExponent a b - 52).toNat := by
          calc k ≤ 2 ^ 52 * 2 := by omega
            _ ≤ _ := Nat.mul_le_mul hm hpow
        exact_mod_cast hnat
    · simp only [hs, if_false]
      have hpos : (0 : ℚ) < ((2 ^ (-(quotExponent a b - 52)).toNat : Nat) : ℚ) := by positivity
      rw [le_div_iff₀ hpos]
      have hm : k * 2 ^ (-(quotExponent a b - 52)).toNat
          ≤ roundHalfEven (a * 2 ^ (-(quotExponent a b - 52)).toNat) b :=
        roundHalfEven_ge _ _ _ (by omega) (by
          calc k * 2 ^ (-(quotExponent a b - 52)).toNat * b
              = k * b * 2 ^ (-(quotExponent a b - 52)).toNat := by ring
            _ ≤ a * 2 ^ (-(quotExponent a b - 52)).toNat := Nat.mul_le_mul_right _ h)
      exact_mod_cast hm

/-- The `float64` quotient does not go above an integer below `2^53` that is at
least the exact quotient. -/
theorem float64Div_le (a b k : Nat) (hb : 1 ≤ b) (hk : k < 2 ^ 53) (h : a ≤ k * b) :
    float64Div a b ≤ (k : ℚ) := by
  by_cases ha : a = 0
  · simp [float64Div, ha]
  · have hb0 : b ≠ 0 := by omega
    simp only [float64Div, ha, hb0, or_self, if_false, float64DivParts]
    by_cases hs : 0 ≤ quotExponent a b - 52
    · simp only [hs, if_true]
      have hspec := quotExponent_nonneg a b (by omega) hb (by omega)
      have hexp : (quotExponent a b).toNat = 52 + (quotExponent a b - 52).toNat := by omega
      have hzero : (quotExponent a b - 52).toNat = 0 := by
        by_contra hcon
        have h53 : 53 ≤ (quotExponent a b).toNat := by omega
        have hp : 2 ^ 53 ≤ 2 ^ (quotExponent a b).toNat :=
          Nat.pow_le_pow_right (by norm_num) h53
        have h1 : b * 2 ^ (quotExponent a b).toNat ≤ k * b := le_trans hspec h
        have h2 : 2 ^ (quotExponent a b).toNat * b ≤ k * b := by
          rw [Nat.mul_comm]; exact h1
        have h3 := Nat.le_of_mul_le_mul_right h2 (by omega : 0 < b)
        omega
      rw [hzero]
      have hm : roundHalfEven a (b * 2 ^ 0) ≤ k :=
        roundHalfEven_le _ _ _ (by positivity) (by simpa using h)
      have : (roundHalfEven a (b * 2 ^ 0) : ℚ) ≤ (k : ℚ) := by exact_mod_cast hm
      simpa using this
    · simp only [hs, if_false]
      have hpos : (0 : ℚ) < ((2 ^ (-(quotExponent a b - 52)).toNat : Nat) : ℚ) := by positivity
      rw [div_le_iff₀ hpos]
      have hm : roundHalfEven (a * 2 ^ (-(quotExponent a b - 52)).toNat) b
          ≤ k * 2 ^ (-(quotExponent a b - 52)).toNat :=
        roundHalfEven_le _ _ _ (by omega) (by
          calc a * 2 ^ (-(quotExponent a b - 52)).toNat
              ≤ k * b * 2 ^ (-(quotExponent a b - 52)).toNat := Nat.mul_le_mul_right _ h
            _ = k * 2 ^ (-(quotExponent a b - 52)).toNat * b := by ring)
      exact_mod_cast hm

/-- Rounding moves a quotient by at most one half. -/
theorem roundHalfEven_error (n d : Nat) (hd : 0 < d) :
    2 * (roundHalfEven n d * d) ≤ 2 * n + d ∧ 2 * n ≤ 2 * (roundHalfEven n d * d) + d := by
  have hmod := Nat.div_add_mod n d
  have hlt := Nat.mod_lt n hd
  have hcomm : d * (n / d) = n / d * d := Nat.mul_comm _ _
  have hsucc : (n / d + 1) * d = n / d * d + d := by ring
  unfold roundHalfEven
  split
  · omega
  · split
    · rw [hsucc]; omega
    · split
      · omega
      · rw [hsucc]; omega

/-- A quotient with a negative exponent `e` is at least `2^e`. -/
theorem quotExponent_neg (a b : Nat) (ha : 1 ≤ a) (hb : 1 ≤ b)
    (he : quotExponent a b < 0) : b ≤ a * 2 ^ (-quotExponent a b).toNat := by
  obtain ⟨hal, _⟩ := floorLog2_spec a ha
  obtain ⟨_, hbh⟩ := floorLog2_spec b hb
  unfold quotExponent at he ⊢
  split at he
  · rename_i hc
    rw [if_pos hc]
    have hexp : (-((floorLog2 a : Int) - floorLog2 b)).toNat = floorLog2 b - floorLog2 a := by
      omega
    rw [hexp]
    have hsplit : 2 ^ floorLog2 b = 2 ^ (floorLog2 b - floorLog2 a) * 2 ^ floorLog2 a := by
      rw [← pow_add]
      congr 1
      omega
    rw [hsplit, ← Nat.mul_assoc] at hc
    exact Nat.le_of_mul_le_mul_right hc (by positivity)
  · rename_i hc
    rw [if_neg hc]
    have hexp : (-((floorLog2 a : Int) - floorLog2 b - 1)).toNat
        = floorLog2 b + 1 - floorLog2 a := by omega
    rw [hexp]
    have hsplit : 2 ^ (floorLog2 b + 1)
        = 2 ^ floorLog2 a * 2 ^ (floorLog2 b + 1 - floorLog2 a) := by
      rw [← pow_add]
      congr 1
      omega
    calc b ≤ 2 ^ (floorLog2 b + 1) := by omega
      _ = 2 ^ floorLog2 a * 2 ^ (floorLog2 b + 1 - floorLog2 a) := hsplit
      _ ≤ a * 2 ^ (floorLog2 b + 1 - floorLog2 a) := Nat.mul_le_mul_right _ hal

/-- A value within half of `w` of the quotient `a / b`, scaled by `b`, is within
a relative `2^-53` of it when `w * 2^52 <= a`. -/
theorem relative_error_of_half_unit (v a b w : ℚ) (hb : 0 < b)
    (h1 : 2 * (v * b) ≤ 2 * a + w) (h2 : 2 * a ≤ 2 * (v * b) + w) (hw : w * 2 ^ 52 ≤ a) :
    |v - a / b| ≤ a / b / 2 ^ 53 := by
  have hb0 : b ≠ 0 := ne_of_gt hb
  have e1 : v - a / b = (v * b - a) / b := by field_simp
  have e2 : a / b / 2 ^ 53 = a / 2 ^ 53 / b := by ring
  have hx : w ≤ 2 * (a / 2 ^ 53) := by
    have e3 : (2 : ℚ) * (a / 2 ^ 53) = a / 2 ^ 52 := by ring
    rw [e3, le_div_iff₀ (by positivity)]
    exact hw
  rw [e1, e2, abs_div, abs_of_pos hb, div_le_div_iff_of_pos_right hb, abs_le]
  constructor <;> linarith

/-- The `float64` quotient is the exact quotient up to a relative error of
`2^-53`, half a unit in the last place. -/
theorem float64Div_error (a b : Nat) (ha : 1 ≤ a) (hb : 1 ≤ b) :
    |float64Div a b - (a : ℚ) / b| ≤ ((a : ℚ) / b) / 2 ^ 53 := by
  have ha0 : a ≠ 0 := by omega
  have hb0 : b ≠ 0 := by omega
  have hbq : (0 : ℚ) < b := by exact_mod_cast hb
  simp only [float64Div, ha0, hb0, or_self, if_false, float64DivParts]
  by_cases hs : 0 ≤ quotExponent a b - 52
  · simp only [hs, if_true]
    have hspec := quotExponent_nonneg a b ha hb (by omega)
    have hexp : (quotExponent a b).toNat = 52 + (quotExponent a b - 52).toNat := by omega
    rw [hexp, pow_add] at hspec
    generalize (quotExponent a b - 52).toNat = s at *
    obtain ⟨h1, h2⟩ := roundHalfEven_error a (b * 2 ^ s) (by positivity)
    generalize roundHalfEven a (b * 2 ^ s) = m at *
    have h1q : (2 : ℚ) * (m * (b * 2 ^ s)) ≤ 2 * a + b * 2 ^ s := by exact_mod_cast h1
    have h2q : (2 : ℚ) * a ≤ 2 * (m * (b * 2 ^ s)) + b * 2 ^ s := by exact_mod_cast h2
    have hsq : (b : ℚ) * (2 ^ 52 * 2 ^ s) ≤ a := by exact_mod_cast hspec
    push_cast
    apply relative_error_of_half_unit _ _ _ ((b : ℚ) * 2 ^ s) hbq
    · linarith
    · linarith
    · linarith
  · simp only [hs, if_false]
    have hspec : 2 ^ 52 * b ≤ a * 2 ^ (-(quotExponent a b - 52)).toNat := by
      by_cases he : 0 ≤ quotExponent a b
      · have h := quotExponent_nonneg a b ha hb he
        have hexp : 52 = (quotExponent a b).toNat + (-(quotExponent a b - 52)).toNat := by omega
        calc 2 ^ 52 * b = b * 2 ^ 52 := Nat.mul_comm _ _
          _ = b * (2 ^ (quotExponent a b).toNat * 2 ^ (-(quotExponent a b - 52)).toNat) := by
            rw [← pow_add, ← hexp]
          _ = b * 2 ^ (quotExponent a b).toNat * 2 ^ (-(quotExponent a b - 52)).toNat := by ring
          _ ≤ a * 2 ^ (-(quotExponent a b - 52)).toNat := Nat.mul_le_mul_right _ h
      · have h := quotExponent_neg a b ha hb (by omega)
        have hexp : (-(quotExponent a b - 52)).toNat = (-quotExponent a b).toNat + 52 := by omega
        calc 2 ^ 52 * b ≤ 2 ^ 52 * (a * 2 ^ (-quotExponent a b).toNat) :=
            Nat.mul_le_mul_left _ h
          _ = a * (2 ^ (-quotExponent a b).toNat * 2 ^ 52) := by ring
          _ = a * 2 ^ (-(quotExponent a b - 52)).toNat := by rw [hexp, pow_add]
    generalize (-(quotExponent a b - 52)).toNat = t at *
    obtain ⟨h1, h2⟩ := roundHalfEven_error (a * 2 ^ t) b (by omega)
    generalize roundHalfEven (a * 2 ^ t) b = m at *
    have hT : (0 : ℚ) < 2 ^ t := by positivity
    have h1q : (2 : ℚ) * (m * b) ≤ 2 * (a * 2 ^ t) + b := by exact_mod_cast h1
    have h2q : (2 : ℚ) * (a * 2 ^ t) ≤ 2 * (m * b) + b := by exact_mod_cast h2
    have hsq : (2 : ℚ) ^ 52 * b ≤ a * 2 ^ t := by exact_mod_cast hspec
    push_cast
    apply relative_error_of_half_unit _ _ _ ((b : ℚ) / 2 ^ t) hbq
    · rw [show (2 : ℚ) * ((m : ℚ) / 2 ^ t * b) = 2 * (m * b) / 2 ^ t by ring,
        show (2 : ℚ) * a + b / 2 ^ t = (2 * (a * 2 ^ t) + b) / 2 ^ t by field_simp; ring,
        div_le_div_iff_of_pos_right hT]
      exact h1q
    · rw [show (2 : ℚ) * ((m : ℚ) / 2 ^ t * b) + b / 2 ^ t = (2 * (m * b) + b) / 2 ^ t by ring,
        show (2 : ℚ) * a = 2 * (a * 2 ^ t) / 2 ^ t by field_simp; ring,
        div_le_div_iff_of_pos_right hT]
      exact h2q
    · rw [div_mul_eq_mul_div, div_le_iff₀ hT]
      linarith

/-! ## `AvgLatencyMS` -/

/-- With both operands below `2^53`, the `float64` quotient lies between any two
integers that enclose the exact quotient. -/
theorem float64Div_between (a b : Nat) (hb : 1 ≤ b) (ha : a < 2 ^ 53) :
    (∀ k : Nat, k * b ≤ a → (k : ℚ) ≤ float64Div a b) ∧
    (∀ k : Nat, a ≤ k * b → float64Div a b ≤ (k : ℚ)) := by
  constructor
  · intro k hk
    have hkb : k ≤ k * b := Nat.le_mul_of_pos_right k hb
    exact float64Div_ge a b k hb (by omega) hk
  · intro k hk
    by_cases hsmall : k < 2 ^ 53
    · exact float64Div_le a b k hb hsmall hk
    · have h1 : float64Div a b ≤ (a : ℚ) :=
        float64Div_le a b a hb ha (Nat.le_mul_of_pos_right a hb)
      have h2 : (a : ℚ) ≤ (k : ℚ) := by exact_mod_cast (by omega : a ≤ k)
      exact le_trans h1 h2

/-- Claim C18.  `AvgLatencyMS` returns 0 when `processed == 0` and otherwise the
`float64` quotient of the total latency by `processed`.  When both are below
`2^53` that quotient is within a relative `2^-53` of the exact one, is the
exact one whenever it is an integer, and lies between the integers that
enclose the exact quotient. -/
theorem avgLatencyMS_spec (m : Metrics) :
    (m.processed = 0 → m.AvgLatencyMS = 0) ∧
    (m.processed ≠ 0 → m.AvgLatencyMS
      = float64Div (float64OfUint64 m.totalLatencyMS) (float64OfUint64 m.processed)) ∧
    (m.processed ≠ 0 → m.totalLatencyMS < 2 ^ 53 → m.processed < 2 ^ 53 →
      |m.AvgLatencyMS - (m.totalLatencyMS : ℚ) / m.processed|
        ≤ (m.totalLatencyMS : ℚ) / m.processed / 2 ^ 53 ∧
      (∀ k : Nat, m.totalLatencyMS = k * m.processed → m.AvgLatencyMS = (k : ℚ)) ∧
      (∀ k : Nat, k * m.processed ≤ m.totalLatencyMS → (k : ℚ) ≤ m.AvgLatencyMS) ∧
      (∀ k : Nat, m.totalLatencyMS ≤ k * m.processed → m.AvgLatencyMS ≤ (k : ℚ))) := by
  refine ⟨fun h => by simp [Metrics.AvgLatencyMS, h],
    fun h => by simp [Metrics.AvgLatencyMS, h], fun h ht hp => ?_⟩
  have hval : m.AvgLatencyMS = float64Div m.totalLatencyMS m.processed := by
    simp only [Metrics.AvgLatencyMS, h, if_false, float64OfUint64_small _ ht,
      float64OfUint64_small _ hp]
  obtain ⟨hge, hle⟩ := float64Div_between m.totalLatencyMS m.processed (by omega) ht
  rw [hval]
  refine ⟨?_, fun k hk => ?_, hge, hle⟩
  · by_cases hz : m.totalLatencyMS = 0
    · simp [float64Div, hz]
    · exact float64Div_error m.totalLatencyMS m.processed (by omega) (by omega)
  · exact le_antisymm (hle k (by omega)) (hge k (by omega))

/-- Witness for C18: the state of the metrics unit test, a total of 30 ms over
2 processed events, averages 15 ms; fresh metrics average 0. -/
theorem avgLatencyMS_spec_witness :
    ((NewMetrics 0).applyAll sampleMetricsCalls).processed ≠ 0 ∧
    ((NewMetrics 0).applyAll sampleMetricsCalls).totalLatencyMS = 15 * 2 ∧
    ((NewMetrics 0).applyAll sampleMetricsCalls).AvgLatencyMS = ((15 : Nat) : ℚ) ∧
    (NewMetrics 0).AvgLatencyMS = 0 :=
  ⟨by decide, by decide,
    ((avgLatencyMS_spec ((NewMetrics 0).applyAll sampleMetricsCalls)).2.2 (by decide)
      (by decide) (by decide)).2.1 15 (by decide),
    (avgLatencyMS_spec (NewMetrics 0)).1 rfl⟩

/-! ## Averages over recorded latencies -/

/-- The sum of a list of integers between `lo` and `hi` lies between `n * lo`
and `n * hi`, where `n` is its length. -/
theorem sum_bounds (ls : List Int) (lo hi : Int) (hlo : ∀ l ∈ ls, lo ≤ l)
    (hhi : ∀ l ∈ ls, l ≤ hi) :
    (ls.length : Int) * lo ≤ ls.sum ∧ ls.sum ≤ (ls.length : Int) * hi := by
  induction ls with
  | nil => simp
  | cons l ls ih =>
    have h1 := hlo l (List.mem_cons_self _ _)
    have h2 := hhi l (List.mem_cons_self _ _)
    obtain ⟨ih1, ih2⟩ := ih (fun x hx => hlo x (List.mem_cons_of_mem _ hx))
      (fun x hx => hhi x (List.mem_cons_of_mem _ hx))
    simp only [List.length_cons, List.sum_cons, Nat.cast_add, Nat.cast_one]
    constructor <;> nlinarith

/-- After a sequence of calls with non-negative latencies, `processed` has gone
up by the number of `IncProcessed` calls and the total latency by the sum of
the latencies, both modulo `2^64`. -/
theorem applyAll_processed_total (cs : List MetricsCall) :
    ∀ (m : Metrics), m.processed < u64 → m.totalLatencyMS < u64 →
      (∀ l ∈ latencies cs, 0 ≤ l) →
      (m.applyAll cs).processed = (m.processed + processedCalls cs) % u64 ∧
      ((m.applyAll cs).totalLatencyMS : Int)
        = ((m.totalLatencyMS : Int) + (latencies cs).sum) % 2 ^ 64 := by
  induction cs with
  | nil =>
    intro m hp ht _
    simp only [Metrics.applyAll, List.foldl_nil, processedCalls, latencies, List.sum_nil, u64] at *
    omega
  | cons c cs ih =>
    intro m hp ht hl
    have hfold : m.applyAll (c :: cs) = (m.apply c).applyAll cs := rfl
    rw [hfold]
    cases c with
    | IncReceived =>
      have := ih m.IncReceived hp ht hl
      simpa [Metrics.apply, Metrics.IncReceived, processedCalls, latencies] using this
    | IncFailed =>
      have := ih m.IncFailed hp ht hl
      simpa [Metrics.apply, Metrics.IncFailed, processedCalls, latencies] using this
    | IncProcessed =>
      have hp' : m.IncProcessed.processed < u64 := by
        simp only [Metrics.IncProcessed, u64]; omega
      obtain ⟨h1, h2⟩ := ih m.IncProcessed hp' ht hl
      refine ⟨?_, by simpa [Metrics.apply, Metrics.IncProcessed, latencies] using h2⟩
      simp only [Metrics.apply, processedCalls]
      rw [h1]
      simp only [Metrics.IncProcessed, u64]
      omega
    | AddLatency ms =>
      have hms : 0 ≤ ms := hl ms (by simp [latencies])
      have ht' : (m.AddLatency ms).totalLatencyMS < u64 := by
        simp only [Metrics.AddLatency, u64]; omega
      obtain ⟨h1, h2⟩ := ih (m.AddLatency ms) hp ht'
        (fun l hlm => hl l (by simp [latencies, hlm]))
      refine ⟨by simpa [Metrics.apply, Metrics.AddLatency, processedCalls] using h1, ?_⟩
      simp only [Metrics.apply, latencies, List.sum_cons]
      rw [h2]
      simp only [Metrics.AddLatency, toUint64, u64]
      omega

/-- Claim C19, as the code has it.  Record non-negative latencies on fresh
metrics by as many `IncProcessed` as `AddLatency` calls, with any number of
`IncReceived` and `IncFailed` calls in between; let the latencies sum to less
than `2^53` and be fewer than `2^64`.  Then `AvgLatencyMS` lies between any
lower bound and any upper bound of the latencies, so between their minimum and
their maximum. -/
theorem avgLatencyMS_between (t : Time) (cs : List MetricsCall) (lo hi : Int)
    (hne : latencies cs ≠ [])
    (hcount : processedCalls cs = (latencies cs).length)
    (hnonneg : ∀ l ∈ latencies cs, 0 ≤ l)
    (hsum : (latencies cs).sum < 2 ^ 53)
    (hlen : (latencies cs).length < 2 ^ 64)
    (hlo : ∀ l ∈ latencies cs, lo ≤ l) (hhi : ∀ l ∈ latencies cs, l ≤ hi) :
    (lo : ℚ) ≤ ((NewMetrics t).applyAll cs).AvgLatencyMS ∧
    ((NewMetrics t).applyAll cs).AvgLatencyMS ≤ (hi : ℚ) := by
  obtain ⟨hproc, htot⟩ := applyAll_processed_total cs (NewMetrics t)
    (by simp [NewMetrics, u64]) (by simp [NewMetrics, u64]) hnonneg
  obtain ⟨hsum0, _⟩ := sum_bounds (latencies cs) 0 hi hnonneg hhi
  obtain ⟨hslo, hshi⟩ := sum_bounds (latencies cs) lo hi hlo hhi
  have hnpos : 1 ≤ (latencies cs).length := by
    cases hl : latencies cs with
    | nil => exact absurd hl hne
    | cons _ _ => simp
  generalize hS : (latencies cs).sum = S at *
  generalize hn : (latencies cs).length = n at *
  generalize hm : (NewMetrics t).applyAll cs = m at *
  simp only [NewMetrics, hcount, Nat.zero_add, Nat.cast_zero, Int.zero_add, u64] at hproc htot
  have hS0 : 0 ≤ S := by simpa using hsum0
  have hp : m.processed = n := by omega
  have ht : (m.totalLatencyMS : Int) = S := by omega
  have htn : m.totalLatencyMS = S.toNat := by omega
  have hval : m.AvgLatencyMS = float64Div S.toNat (float64OfUint64 n) := by
    have hpn : m.processed ≠ 0 := by omega
    unfold Metrics.AvgLatencyMS
    rw [if_neg hpn, hp, htn, float64OfUint64_small S.toNat (by omega)]
  rw [hval]
  have hSsmall : S.toNat < 2 ^ 53 := by omega
  constructor
  · -- lower bound
    by_cases hlo0 : lo ≤ 0
    · have h0 := float64Div_nonneg S.toNat (float64OfUint64 n)
      have : (lo : ℚ) ≤ 0 := by exact_mod_cast hlo0
      exact le_trans this h0
    · have hlo1 : 1 ≤ lo := by omega
      have hnS : (n : Int) ≤ S := by nlinarith
      have hnsmall : n < 2 ^ 53 := by omega
      rw [float64OfUint64_small n hnsmall]
      have hloS : lo ≤ S := by nlinarith
      have hk : lo.toNat * n ≤ S.toNat := by
        have h1 : ((lo.toNat * n : Nat) : Int) = (n : Int) * lo := by
          push_cast
          rw [Int.toNat_of_nonneg (by omega)]
          ring
        omega
      have := float64Div_ge S.toNat n lo.toNat hnpos (by omega) hk
      have hcast : ((lo.toNat : Nat) : ℚ) = (lo : ℚ) := by
        have : ((lo.toNat : Nat) : Int) = lo := Int.toNat_of_nonneg (by omega)
        exact_mod_cast this
      rw [hcast] at this
      exact this
  · -- upper bound
    by_cases hSz : S = 0
    · have h0 : float64Div S.toNat (float64OfUint64 n) = 0 := by
        simp [float64Div, hSz]
      rw [h0]
      have hhi0 : 0 ≤ hi := by
        by_contra hcon
        have : (n : Int) * hi < 0 := by nlinarith
        omega
      exact_mod_cast hhi0
    · have hS1 : 1 ≤ S := by omega
      have hhi1 : 1 ≤ hi := by
        by_contra hcon
        have : (n : Int) * hi ≤ 0 := by nlinarith
        omega
      by_cases hnsmall : n < 2 ^ 53
      · rw [float64OfUint64_small n hnsmall]
        by_cases hhis : hi < 2 ^ 53
        · have hk : S.toNat ≤ hi.toNat * n := by
            have h1 : ((hi.toNat * n : Nat) : Int) = (n : Int) * hi := by
              push_cast
              rw [Int.toNat_of_nonneg (by omega)]
              ring
            omega
          have := float64Div_le S.toNat n hi.toNat hnpos (by omega) hk
          have hcast : ((hi.toNat : Nat) : ℚ) = (hi : ℚ) := by
            have : ((hi.toNat : Nat) : Int) = hi := Int.toNat_of_nonneg (by omega)
            exact_mod_cast this
          rw [hcast] at this
          exact this
        · have h1 := float64Div_le S.toNat n S.toNat hnpos hSsmall
            (Nat.le_mul_of_pos_right _ hnpos)
          have h2 : ((S.toNat : Nat) : ℚ) ≤ (hi : ℚ) := by
            have : ((S.toNat : Nat) : Int) ≤ hi := by omega
            exact_mod_cast this
          exact le_trans h1 h2
      · have hbig := float64OfUint64_large n (by omega)
        have h1 := float64Div_le S.toNat (float64OfUint64 n) 1 (by omega) (by norm_num)
          (by omega)
        have h2 : ((1 : Nat) : ℚ) ≤ (hi : ℚ) := by exact_mod_cast hhi1
        exact le_trans h1 h2

/-- Witness for C19: the metrics unit test, latencies 10 and 20 with a failed
event in between; the average lies between 10 and 20. -/
theorem avgLatencyMS_between_witness :
    (latencies sampleMetricsCalls = [10, 20] ∧
      processedCalls sampleMetricsCalls = (latencies sampleMetricsCalls).length) ∧
    (((10 : Int) : ℚ) ≤ ((NewMetrics 0).applyAll sampleMetricsCalls).AvgLatencyMS ∧
      ((NewMetrics 0).applyAll sampleMetricsCalls).AvgLatencyMS ≤ ((20 : Int) : ℚ)) :=
  ⟨⟨by decide, by decide⟩,
    avgLatencyMS_between 0 sampleMetricsCalls 10 20 (by decide) (by decide) (by decide)
      (by decide) (by decide) (by decide) (by decide)⟩

/-- Counterexample to C19 as stated: three latencies of `2^53 + 1` ms sum to
less than `2^64`, yet `float64` holds the total as `3 * 2^53 + 4` and the
average as `2^53 + 2`, above the maximum `2^53 + 1` of the latencies. -/
theorem avgLatencyMS_above_max :
    latencies hugeLatencyCalls = [9007199254740993, 9007199254740993, 9007199254740993] ∧
    processedCalls hugeLatencyCalls = 3 ∧
    (latencies hugeLatencyCalls).sum < 2 ^ 64 ∧
    ((NewMetrics 0).applyAll hugeLatencyCalls).AvgLatencyMS = 9007199254740994 ∧
    ((9007199254740993 : Int) : ℚ) < ((NewMetrics 0).applyAll hugeLatencyCalls).AvgLatencyMS := by
  have hparts : float64DivParts
      (float64OfUint64 ((NewMetrics 0).applyAll hugeLatencyCalls).totalLatencyMS)
      (float64OfUint64 ((NewMetrics 0).applyAll hugeLatencyCalls).processed)
      = (4503599627370497, 1) := by decide
  have h1 : float64OfUint64 ((NewMetrics 0).applyAll hugeLatencyCalls).totalLatencyMS ≠ 0 := by
    decide
  have h2 : float64OfUint64 ((NewMetrics 0).applyAll hugeLatencyCalls).processed ≠ 0 := by
    decide
  have h3 : ((NewMetrics 0).applyAll hugeLatencyCalls).processed ≠ 0 := by decide
  have hval : ((NewMetrics 0).applyAll hugeLatencyCalls).AvgLatencyMS = 9007199254740994 := by
    simp only [Metrics.AvgLatencyMS, h3, if_false, float64Div, h1, h2, or_self, hparts]
    norm_num
  refine ⟨by decide, by decide, by decide, hval, ?_⟩
  rw [hval]
  norm_num

/-! ## Counters -/

/-- After a sequence of calls each counter has gone up by the number of its own
calls, modulo `2^64`, and the start time is what it was. -/
theorem applyAll_counters (cs : List MetricsCall) :
    ∀ (m : Metrics), m.received < u64 → m.processed < u64 → m.failed < u64 →
      (m.applyAll cs).received = (m.received + receivedCalls cs) % u64 ∧
      (m.applyAll cs).processed = (m.processed + processedCalls cs) % u64 ∧
      (m.applyAll cs).failed = (m.failed + failedCalls cs) % u64 ∧
      (m.applyAll cs).startTime = m.startTime := by
  induction cs with
  | nil =>
    intro m h1 h2 h3
    simp only [Metrics.applyAll, List.foldl_nil, receivedCalls, processedCalls, failedCalls,
      u64] at *
    exact ⟨by omega, by omega, by omega, trivial⟩
  | cons c cs ih =>
    intro m h1 h2 h3
    have hfold : m.applyAll (c :: cs) = (m.apply c).applyAll cs := rfl
    rw [hfold]
    cases c with
    | IncReceived =>
      have h1' : m.IncReceived.received < u64 := by
        simp only [Metrics.IncReceived, u64]; omega
      obtain ⟨g1, g2, g3, g4⟩ := ih m.IncReceived h1' h2 h3
      refine ⟨?_, by simpa [Metrics.apply, Metrics.IncReceived, processedCalls] using g2,
        by simpa [Metrics.apply, Metrics.IncReceived, failedCalls] using g3,
        by simpa [Metrics.apply, Metrics.IncReceived] using g4⟩
      simp only [Metrics.apply, receivedCalls]
      rw [g1]
      simp only [Metrics.IncReceived, u64]
      omega
    | IncProcessed =>
      have h2' : m.IncProcessed.processed < u64 := by
        simp only [Metrics.IncProcessed, u64]; omega
      obtain ⟨g1, g2, g3, g4⟩ := ih m.IncProcessed h1 h2' h3
      refine ⟨by simpa [Metrics.apply, Metrics.IncProcessed, receivedCalls] using g1, ?_,
        by simpa [Metrics.apply, Metrics.IncProcessed, failedCalls] using g3,
        by simpa [Metrics.apply, Metrics.IncProcessed] using g4⟩
      simp only [Metrics.apply, processedCalls]
      rw [g2]
      simp only [Metrics.IncProcessed, u64]
      omega
    | IncFailed =>
      have h3' : m.IncFailed.failed < u64 := by
        simp only [Metrics.IncFailed, u64]; omega
      obtain ⟨g1, g2, g3, g4⟩ := ih m.IncFailed h1 h2 h3'
      refine ⟨by simpa [Metrics.apply, Metrics.IncFailed, receivedCalls] using g1,
        by simpa [Metrics.apply, Metrics.IncFailed, processedCalls] using g2, ?_,
        by simpa [Metrics.apply, Metrics.IncFailed] using g4⟩
      simp only [Metrics.apply, failedCalls]
      rw [g3]
      simp only [Metrics.IncFailed, u64]
      omega
    | AddLatency ms =>
      obtain ⟨g1, g2, g3, g4⟩ := ih (m.AddLatency ms) h1 h2 h3
      exact ⟨by simpa [Metrics.apply, Metrics.AddLatency, receivedCalls] using g1,
        by simpa [Metrics.apply, Metrics.AddLatency, processedCalls] using g2,
        by simpa [Metrics.apply, Metrics.AddLatency, failedCalls] using g3,
        by simpa [Metrics.apply, Metrics.AddLatency] using g4⟩

/-- Claim C21.  Fresh metrics read `received = processed = failed = 0`.  After
any sequence of `IncReceived`, `IncProcessed`, `IncFailed` and `AddLatency`
calls, `GetReceived`, `GetProcessed` and `GetFailed` return the number of
`IncReceived`, `IncProcessed` and `IncFailed` calls, modulo `2^64`, and the
start time is the one set at construction.  Each call changes its own field and
no other. -/
theorem metrics_counters (t : Time) (cs : List MetricsCall) :
    ((NewMetrics t).GetReceived = 0 ∧ (NewMetrics t).GetProcessed = 0 ∧
      (NewMetrics t).GetFailed = 0) ∧
    (((NewMetrics t).applyAll cs).GetReceived = receivedCalls cs % u64 ∧
      ((NewMetrics t).applyAll cs).GetProcessed = processedCalls cs % u64 ∧
      ((NewMetrics t).applyAll cs).GetFailed = failedCalls cs % u64 ∧
      ((NewMetrics t).applyAll cs).StartTime = t) ∧
    (∀ m : Metrics,
      (m.IncReceived.processed = m.processed ∧ m.IncReceived.failed = m.failed ∧
        m.IncReceived.totalLatencyMS = m.totalLatencyMS ∧
        m.IncReceived.startTime = m.startTime) ∧
      (m.IncProcessed.received = m.received ∧ m.IncProcessed.failed = m.failed ∧
        m.IncProcessed.totalLatencyMS = m.totalLatencyMS ∧
        m.IncProcessed.startTime = m.startTime) ∧
      (m.IncFailed.received = m.received ∧ m.IncFailed.processed = m.processed ∧
        m.IncFailed.totalLatencyMS = m.totalLatencyMS ∧
        m.IncFailed.startTime = m.startTime) ∧
      (∀ ms, (m.AddLatency ms).received = m.received ∧
        (m.AddLatency ms).processed = m.processed ∧ (m.AddLatency ms).failed = m.failed ∧
        (m.AddLatency ms).startTime = m.startTime)) := by
  obtain ⟨g1, g2, g3, g4⟩ := applyAll_counters cs (NewMetrics t)
    (by simp [NewMetrics, u64]) (by simp [NewMetrics, u64]) (by simp [NewMetrics, u64])
  refine ⟨⟨rfl, rfl, rfl⟩, ⟨?_, ?_, ?_, ?_⟩, fun m => ⟨⟨rfl, rfl, rfl, rfl⟩, ⟨rfl, rfl, rfl, rfl⟩,
    ⟨rfl, rfl, rfl, rfl⟩, fun ms => ⟨rfl, rfl, rfl, rfl⟩⟩⟩
  · simpa [Metrics.GetReceived, NewMetrics] using g1
  · simpa [Metrics.GetProcessed, NewMetrics] using g2
  · simpa [Metrics.GetFailed, NewMetrics] using g3
  · simpa [Metrics.StartTime, NewMetrics] using g4

/-- The metrics unit test, run on the model: three received, two processed, one
failed. -/
theorem counters_sample :
    ((NewMetrics 0).applyAll sampleMetricsCalls).GetReceived = 3 ∧
    ((NewMetrics 0).applyAll sampleMetricsCalls).GetProcessed = 2 ∧
    ((NewMetrics 0).applyAll sampleMetricsCalls).GetFailed = 1 ∧
    receivedCalls sampleMetricsCalls = 3 ∧ processedCalls sampleMetricsCalls = 2 ∧
    failedCalls sampleMetricsCalls = 1 := by
  decide

/-! ## `max_retries <= 0` -/

/-- Claim C26.  For `max_retries <= 0` and an event that passes validation and
processing, `processJob` makes no `Store` call and no sleep, and still adds the
latency to the total and one to `processed`, leaving `failed` as it was: the
event counts as processed although it was never given to the sink. -/
theorem processJob_no_attempts {σ : Type} (env : Env σ) (cfg : Config) (job : Event)
    (m : Metrics) (w : σ) (pe : ProcessedEvent)
    (hN : cfg.MaxRetries ≤ 0)
    (hv : (env.validate job w).1 = none)
    (hp : (env.process job (env.validate job w).2).1 = .ok pe) :
    (processJob env cfg job m w).calls
      = [Call.validate job none, Call.process job (.ok pe)] ∧
    storeCount (processJob env cfg job m w).calls = 0 ∧
    (processJob env cfg job m w).metrics.processed = (m.processed + 1) % u64 ∧
    (processJob env cfg job m w).metrics.failed = m.failed ∧
    (processJob env cfg job m w).metrics.totalLatencyMS
      = (m.totalLatencyMS + toUint64 (Since (env.now (env.process job (env.validate job w).2).2)
          (env.now w)).Milliseconds) % u64 := by
  have h0 : cfg.MaxRetries.toNat = 0 := by omega
  simp [processJob, hv, hp, h0, storeLoop, storeCount, Call.isStore, Metrics.IncProcessed,
    Metrics.AddLatency]

/-- Witness for C26: the sample event with `max_retries = -1`. -/
theorem processJob_no_attempts_witness :
    ({ sampleConfig with MaxRetries := -1 } : Config).MaxRetries ≤ 0 ∧
    ((processJob (sampleEnv 0) { sampleConfig with MaxRetries := -1 } sampleEvent (NewMetrics 0)
        sampleWorld).calls
      = [Call.validate sampleEvent none,
          Call.process sampleEvent (.ok (sampleProcessed sampleEvent sampleWorld))] ∧
    storeCount (processJob (sampleEnv 0) { sampleConfig with MaxRetries := -1 } sampleEvent
        (NewMetrics 0) sampleWorld).calls = 0 ∧
    (processJob (sampleEnv 0) { sampleConfig with MaxRetries := -1 } sampleEvent (NewMetrics 0)
        sampleWorld).metrics.processed = ((NewMetrics 0).processed + 1) % u64 ∧
    (processJob (sampleEnv 0) { sampleConfig with MaxRetries := -1 } sampleEvent (NewMetrics 0)
        sampleWorld).metrics.failed = (NewMetrics 0).failed ∧
    (processJob (sampleEnv 0) { sampleConfig with MaxRetries := -1 } sampleEvent (NewMetrics 0)
        sampleWorld).metrics.totalLatencyMS
      = ((NewMetrics 0).totalLatencyMS
          + toUint64 (Since ((sampleEnv 0).now ((sampleEnv 0).process sampleEvent
              ((sampleEnv 0).validate sampleEvent sampleWorld).2).2)
            ((sampleEnv 0).now sampleWorld)).Milliseconds) % u64) :=
  ⟨by decide,
    processJob_no_attempts (sampleEnv 0) { sampleConfig with MaxRetries := -1 } sampleEvent
      (NewMetrics 0) sampleWorld (sampleProcessed sampleEvent sampleWorld) (by decide) rfl rfl⟩

/-! ## The health endpoint -/

/-- A worker step leaves the configuration, the state of the channel's close
flag, the cancellation signal and the panic flag as they were. -/
theorem workerStep_frame {σ : Type} (env : Env σ) (c : Bool) (ws ws1 : WorkerState)
    (p p1 : Pipeline σ) (h : workerStep env c ws p = some (ws1, p1)) :
    p1.cfg = p.cfg ∧ p1.closed = p.closed ∧ p1.cancelled = p.cancelled ∧
      p1.panicked = p.panicked := by
  cases ws with
  | selecting =>
    simp only [workerStep] at h
    split at h
    · cases h; simp
    · split at h
      · cases h; simp
      · split at h
        · cases h; simp
        · cases h
  | draining =>
    simp only [workerStep] at h
    split at h
    · cases h; simp
    · split at h
      · cases h; simp
      · cases h
  | dequeued d job =>
    simp only [workerStep] at h
    cases h; simp
  | validating d job =>
    simp only [workerStep] at h
    split at h <;> (cases h; simp)
  | processing d job start =>
    simp only [workerStep] at h
    split at h
    · cases h; simp
    · split at h <;> (cases h; simp)
  | storing d pe start k =>
    simp only [workerStep] at h
    split at h <;> (cases h; simp)
  | sleeping d pe start k e =>
    simp only [workerStep] at h
    split at h <;> (cases h; simp)
  | failing d =>
    simp only [workerStep] at h
    cases h; simp
  | succeeding d start =>
    simp only [workerStep] at h
    cases h; simp
  | counting d =>
    simp only [workerStep] at h
    cases h; simp
  | exited => simp [workerStep] at h

/-- The cancellation signal is fired by the `cancel` step and by no other. -/
theorem step_cancelled {σ : Type} (env : Env σ) (a : Action) (p p1 : Pipeline σ)
    (hstep : p.step env a = some p1) :
    p1.cancelled = true ↔ p.cancelled = true ∨ a = Action.cancel := by
  unfold Pipeline.step at hstep
  split at hstep
  · cases hstep
  · cases a with
    | ingest ev =>
      simp only [Pipeline.Ingest] at hstep
      split at hstep
      · cases hstep; simp
      · split at hstep
        · cases hstep; simp
        · cases hstep
    | closeQueue =>
      simp only at hstep
      split at hstep <;> (cases hstep; simp)
    | cancel =>
      simp only at hstep
      cases hstep; simp
    | work i c =>
      simp only at hstep
      split at hstep
      · cases hstep
      · rename_i ws hws
        split at hstep
        · cases hstep
        · rename_i ws1 p2 hw
          cases hstep
          have hf := workerStep_frame env c ws ws1 p p2 hw
          simp [hf.2.2.1]

/-- Along a run the cancellation signal is fired exactly when the schedule
holds a `cancel` step. -/
theorem run_cancelled {σ : Type} (env : Env σ) (sched : List Action) :
    ∀ (p q : Pipeline σ), Pipeline.run env sched p = some q →
      (q.cancelled = true ↔ p.cancelled = true ∨ Action.cancel ∈ sched) := by
  induction sched with
  | nil =>
    intro p q h
    simp only [Pipeline.run, Option.some.injEq] at h
    subst h
    simp
  | cons a rest ih =>
    intro p q h
    simp only [Pipeline.run] at h
    split at h
    · cases h
    · rename_i p1 hstep
      rw [ih p1 q h, step_cancelled env a p p1 hstep, List.mem_cons]
      constructor
      · rintro ((h1 | h1) | h1)
        · exact Or.inl h1
        · exact Or.inr (Or.inl h1.symm)
        · exact Or.inr (Or.inr h1)
      · rintro (h1 | h1 | h1)
        · exact Or.inl (Or.inl h1)
        · exact Or.inl (Or.inr h1.symm)
        · exact Or.inr h1

/-- Claim C23.  The health endpoint reports `healthy = true` if and only if the
cancellation signal has not been fired.  For a pipeline reached from a fresh one
by any schedule, that is the case exactly when `Shutdown` has not run its
`p.cancel()`: the report is true while no step of `Shutdown` has run, a fresh
pipeline included, and false once `Shutdown` has cancelled the context, and so
whenever `Shutdown` has returned.  (Between the two steps of `Shutdown`, after
`close` and before `cancel`, the report is still true.) -/
theorem health_iff_not_cancelled {σ : Type} (env : Env σ) (cfg : Config) (metrics : Metrics)
    (w : σ) (sched : List Action) (p : Pipeline σ)
    (hrun : Pipeline.run env sched (NewEventPipeline env cfg metrics w) = some p) :
    (∀ q : Pipeline σ, handleHealth q = true ↔ q.cancelled = false) ∧
    handleHealth (NewEventPipeline env cfg metrics w) = true ∧
    (handleHealth p = true ↔ Action.cancel ∉ sched) ∧
    ((∀ a ∈ sched, a ≠ Action.closeQueue ∧ a ≠ Action.cancel) → handleHealth p = true) ∧
    (Action.cancel ∈ sched → handleHealth p = false) ∧
    (p.shutDown = true → handleHealth p = false) := by
  have hall : ∀ q : Pipeline σ, handleHealth q = true ↔ q.cancelled = false := by
    intro q
    cases hq : q.cancelled <;> simp [handleHealth, Pipeline.ContextErr, hq]
  have hc := run_cancelled env sched _ p hrun
  have h0 : (NewEventPipeline env cfg metrics w).cancelled = false := rfl
  have hmem : handleHealth p = true ↔ Action.cancel ∉ sched := by
    rw [hall p]
    constructor
    · intro hp hin
      have := hc.2 (Or.inr hin)
      rw [hp] at this
      cases this
    · intro hnot
      cases hp : p.cancelled with
      | false => rfl
      | true =>
        rcases hc.1 hp with h1 | h1
        · rw [h0] at h1; cases h1
        · exact absurd h1 hnot
  refine ⟨hall, (hall _).2 h0, hmem, ?_, ?_, ?_⟩
  · intro hno
    exact hmem.2 fun hin => (hno _ hin).2 rfl
  · intro hin
    cases hh : handleHealth p with
    | false => rfl
    | true => exact absurd hin (hmem.1 hh)
  · intro hsd
    have hcan : p.cancelled = true := by
      simp only [Pipeline.shutDown, Bool.and_eq_true] at hsd
      exact hsd.1.1.2
    cases hh : handleHealth p with
    | false => rfl
    | true =>
      rw [(hall p).1 hh] at hcan
      cases hcan

/-- Witness for C23: the sample run, which ends with `Shutdown` returned, reports
unhealthy; stopped before `Shutdown` it reports healthy. -/
theorem health_iff_not_cancelled_witness :
    ∃ p, Pipeline.run (sampleEnv 2) sampleSchedule samplePipeline = some p ∧
      Action.cancel ∈ sampleSchedule ∧ p.shutDown = true ∧ handleHealth p = false ∧
      (Pipeline.run (sampleEnv 2) (sampleSchedule.take 5) samplePipeline).map handleHealth
        = some true := by
  have hsome : ((Pipeline.run (sampleEnv 2) sampleSchedule samplePipeline).map
      Pipeline.shutDown) = some true := by decide
  cases hrun : Pipeline.run (sampleEnv 2) sampleSchedule samplePipeline with
  | none => simp [hrun] at hsome
  | some p =>
    have hsd : p.shutDown = true := by simpa [hrun] using hsome
    have hin : Action.cancel ∈ sampleSchedule := by
      simp [sampleSchedule, workSteps]
    exact ⟨p, rfl, hin, hsd,
      (health_iff_not_cancelled (sampleEnv 2) { sampleConfig with WorkerCount := 1 }
        (NewMetrics 0) sampleWorld sampleSchedule p hrun).2.2.2.2.1 hin, by decide⟩

/-! ## The worker pool and the batch endpoint -/

/-- What `NewEvent` keeps of the event it is given. -/
theorem newEvent_keeps (fresh : String) (now : Time) (e : Event) :
    (NewEvent fresh now e).Typ = e.Typ ∧ (NewEvent fresh now e).Source = e.Source ∧
    (NewEvent fresh now e).UserID = e.UserID ∧ (NewEvent fresh now e).Data = e.Data ∧
    (e.ID ≠ "" → (NewEvent fresh now e).ID = e.ID) ∧
    (e.Timestamp ≠ 0 → (NewEvent fresh now e).Timestamp = e.Timestamp) := by
  unfold NewEvent Time.IsZero
  by_cases hi : e.ID = "" <;> by_cases ht : e.Timestamp = 0 <;> simp [hi, ht]

/-- `Ingest` on an open channel with room appends the normalised event. -/
theorem ingest_open_room {σ : Type} (env : Env σ) (ev : Event) (p : Pipeline σ)
    (hopen : p.closed = false) (hroom : (p.queue.length : Int) < p.cfg.QueueSize) :
    p.Ingest env ev = some { p with world := (normalize env ev p.world).2,
                                    queue := p.queue ++ [(normalize env ev p.world).1] } := by
  simp [Pipeline.Ingest, hopen, hroom]

/-- `Ingest` on an open channel that is full blocks. -/
theorem ingest_open_full {σ : Type} (env : Env σ) (ev : Event) (p : Pipeline σ)
    (hopen : p.closed = false) (hfull : p.cfg.QueueSize ≤ (p.queue.length : Int)) :
    p.Ingest env ev = none := by
  have hnot : ¬ (p.queue.length : Int) < p.cfg.QueueSize := by omega
  simp [Pipeline.Ingest, hopen, hnot]

/-- One event is sent for each event ingested. -/
theorem normalizeAll_length {σ : Type} (env : Env σ) (evs : List Event) :
    ∀ w : σ, (normalizeAll env evs w).1.length = evs.length := by
  induction evs with
  | nil => intro w; rfl
  | cons ev rest ih =>
    intro w
    simp only [normalizeAll, List.length_cons, ih]

/-- The events sent are the events ingested, in order, each with type, source,
user id and data as given, and with the id and timestamp it had if it had one. -/
theorem normalizeAll_keeps {σ : Type} (env : Env σ) (evs : List Event) :
    ∀ w : σ, List.Forall₂
      (fun ev e => e.Typ = ev.Typ ∧ e.Source = ev.Source ∧ e.UserID = ev.UserID ∧
        e.Data = ev.Data ∧ (ev.ID ≠ "" → e.ID = ev.ID) ∧
        (ev.Timestamp ≠ 0 → e.Timestamp = ev.Timestamp))
      evs (normalizeAll env evs w).1 := by
  induction evs with
  | nil => intro w; exact List.Forall₂.nil
  | cons ev rest ih =>
    intro w
    simp only [normalizeAll]
    exact List.Forall₂.cons (newEvent_keeps _ _ ev) (ih _)

/-- With room for the whole batch on an open channel, the ingest loop sends
every event, in order, and answers 202. -/
theorem ingestBatch_room {σ : Type} (env : Env σ) (evs : List Event) :
    ∀ p : Pipeline σ, p.closed = false →
      (p.queue.length : Int) + evs.length ≤ p.cfg.QueueSize →
      ingestBatch env evs p
        = .status 202 { p with world := (normalizeAll env evs p.world).2,
                               queue := p.queue ++ (normalizeAll env evs p.world).1 } := by
  induction evs with
  | nil =>
    intro p _ _
    simp [ingestBatch, normalizeAll]
  | cons ev rest ih =>
    intro p hopen hroom
    simp only [List.length_cons, Nat.cast_add, Nat.cast_one] at hroom
    have hstep := ingest_open_room env ev p hopen (by omega)
    have hlen : ((p.queue ++ [(normalize env ev p.world).1]).length : Int)
        = (p.queue.length : Int) + 1 := by
      simp only [List.length_append, List.length_singleton, Nat.cast_add, Nat.cast_one]
    have hrec := ih { p with world := (normalize env ev p.world).2,
                             queue := p.queue ++ [(normalize env ev p.world).1] } hopen
      (by dsimp only; rw [hlen]; omega)
    have hc : ¬ p.closed = true := by simp [hopen]
    rw [ingestBatch, hstep]
    simp only []
    rw [if_neg hc, hrec]
    simp [normalizeAll]

/-- Whenever the ingest loop on an open channel answers, it answers 202 and has
sent every event, in order. -/
theorem ingestBatch_status {σ : Type} (env : Env σ) (evs : List Event) :
    ∀ (p q : Pipeline σ) (code : Nat), p.closed = false →
      ingestBatch env evs p = .status code q →
      code = 202 ∧ q.queue = p.queue ++ (normalizeAll env evs p.world).1 := by
  induction evs with
  | nil =>
    intro p q code _ h
    simp only [ingestBatch, Reply.status.injEq] at h
    obtain ⟨h1, h2⟩ := h
    subst h2
    simp [normalizeAll, h1.symm]
  | cons ev rest ih =>
    intro p q code hopen h
    by_cases hroom : (p.queue.length : Int) < p.cfg.QueueSize
    · have hstep := ingest_open_room env ev p hopen hroom
      have hc : ¬ p.closed = true := by simp [hopen]
      rw [ingestBatch, hstep] at h
      simp only [] at h
      rw [if_neg hc] at h
      obtain ⟨h1, h2⟩ := ih { p with world := (normalize env ev p.world).2,
                                     queue := p.queue ++ [(normalize env ev p.world).1] }
        q code hopen h
      refine ⟨h1, ?_⟩
      rw [h2]
      simp [normalizeAll]
    · have hstep := ingest_open_full env ev p hopen (by omega)
      simp [ingestBatch, hstep] at h

/-- A schedule of `Ingest` calls alone, on an open channel that is not over its
capacity, runs to the end exactly when the queue has room for all of them. -/
theorem run_ingests {σ : Type} (env : Env σ) (evs : List Event) :
    ∀ p : Pipeline σ, p.closed = false → p.panicked = false →
      (p.queue.length : Int) ≤ p.cfg.QueueSize →
      ((Pipeline.run env (evs.map Action.ingest) p).isSome = true ↔
        (p.queue.length : Int) + evs.length ≤ p.cfg.QueueSize) := by
  induction evs with
  | nil =>
    intro p _ _ hle
    simp [Pipeline.run, hle]
  | cons ev rest ih =>
    intro p hopen hpan hle
    simp only [List.map_cons, Pipeline.run, Pipeline.step, hpan, Bool.false_eq_true, if_false,
      List.length_cons, Nat.cast_add, Nat.cast_one]
    by_cases hroom : (p.queue.length : Int) < p.cfg.QueueSize
    · have hlen : ((p.queue ++ [(normalize env ev p.world).1]).length : Int)
          = (p.queue.length : Int) + 1 := by
        simp only [List.length_append, List.length_singleton, Nat.cast_add, Nat.cast_one]
      have hrec := ih { p with world := (normalize env ev p.world).2,
                               queue := p.queue ++ [(normalize env ev p.world).1] } hopen hpan
        (by dsimp only; rw [hlen]; omega)
      dsimp only at hrec
      rw [ingest_open_room env ev p hopen hroom]
      simp only []
      rw [hrec, hlen]
      constructor <;> intro h <;> omega
    · rw [ingest_open_full env ev p hopen (by omega)]
      simp only [Option.isSome_none, Bool.false_eq_true, false_iff]
      omega

/-- Claim C24, as the code has it.  For every configuration with a positive
`worker_count` and a non-negative `queue_size`, `NewEventPipeline` does not
panic and starts exactly `worker_count` workers, each at the `select` of its
loop; `WorkerCount()` returns `worker_count`; the ids of the workers are the
numbers from 1 to `worker_count`, each once; every one of them receives from
the one queue of the pipeline; and that queue, empty and open at first, has
capacity `queue_size`: a series of `Ingest` calls with no receive in between
completes exactly when it is at most `queue_size` long. -/
theorem newEventPipeline_workers {σ : Type} (env : Env σ) (cfg : Config) (metrics : Metrics)
    (w : σ) (hw : 0 < cfg.WorkerCount) (hq : 0 ≤ cfg.QueueSize) :
    (NewEventPipeline env cfg metrics w).panicked = false ∧
    ((NewEventPipeline env cfg metrics w).WorkerCount : Int) = cfg.WorkerCount ∧
    (NewEventPipeline env cfg metrics w).workers
      = List.replicate cfg.WorkerCount.toNat WorkerState.selecting ∧
    (((NewEventPipeline env cfg metrics w).workerIds.length : Int) = cfg.WorkerCount ∧
      (NewEventPipeline env cfg metrics w).workerIds.Nodup ∧
      ∀ k : Int, k ∈ (NewEventPipeline env cfg metrics w).workerIds ↔
        1 ≤ k ∧ k ≤ cfg.WorkerCount) ∧
    (∀ (i : Nat) (c : Bool) (job : Event) (rest : List Event) (q : Pipeline σ),
      workerId i ≤ cfg.WorkerCount →
      q.workers = (NewEventPipeline env cfg metrics w).workers →
      q.queue = job :: rest → q.cancelled = false → q.panicked = false →
      q.step env (Action.work i c)
        = some { q with queue := rest,
                        workers := q.workers.set i (WorkerState.dequeued false job) }) ∧
    ((NewEventPipeline env cfg metrics w).queue = [] ∧
      (NewEventPipeline env cfg metrics w).closed = false ∧
      ∀ evs : List Event,
        (Pipeline.run env (evs.map Action.ingest) (NewEventPipeline env cfg metrics w)).isSome
            = true ↔ (evs.length : Int) ≤ cfg.QueueSize) := by
  have hnq : ¬ cfg.QueueSize < 0 := by omega
  have hworkers : (NewEventPipeline env cfg metrics w).workers
      = List.replicate cfg.WorkerCount.toNat WorkerState.selecting := by
    simp [NewEventPipeline, hnq]
  have hpan : (NewEventPipeline env cfg metrics w).panicked = false := by
    simp [NewEventPipeline, hnq]
  have hids : (NewEventPipeline env cfg metrics w).workerIds
      = (List.range cfg.WorkerCount.toNat).map workerId := by
    simp [Pipeline.workerIds, hworkers]
  refine ⟨hpan, ?_, hworkers, ⟨?_, ?_, ?_⟩, ?_, rfl, rfl, ?_⟩
  · simp only [Pipeline.WorkerCount, hworkers, List.length_replicate]
    omega
  · rw [hids]
    simp only [List.length_map, List.length_range]
    omega
  · rw [hids]
    refine List.Nodup.map ?_ (List.nodup_range _)
    intro a b hab
    simp only [workerId] at hab
    omega
  · intro k
    rw [hids]
    simp only [List.mem_map, List.mem_range, workerId]
    constructor
    · rintro ⟨i, hi, rfl⟩
      omega
    · rintro ⟨h1, h2⟩
      exact ⟨(k - 1).toNat, by omega, by omega⟩
  · intro i c job rest q hi hqw hqq hqc hqp
    simp only [workerId] at hi
    have hget : q.workers[i]? = some WorkerState.selecting := by
      rw [hqw, hworkers, List.getElem?_replicate]
      rw [if_pos (by omega)]
    simp [Pipeline.step, hqp, hget, workerStep, hqc, hqq]
  · intro evs
    have h := run_ingests env evs (NewEventPipeline env cfg metrics w) rfl hpan
      (by simp only [NewEventPipeline, List.length_nil, Nat.cast_zero]; exact hq)
    rw [h]
    simp [NewEventPipeline]

/-- Witness for C24: the default configuration, four workers and a queue of
1000. -/
theorem newEventPipeline_workers_witness :
    (0 < sampleConfig.WorkerCount ∧ 0 ≤ sampleConfig.QueueSize) ∧
    ((NewEventPipeline (sampleEnv 0) sampleConfig (NewMetrics 0) sampleWorld).WorkerCount : Int)
      = sampleConfig.WorkerCount ∧
    (NewEventPipeline (sampleEnv 0) sampleConfig (NewMetrics 0) sampleWorld).WorkerCount = 4 ∧
    (NewEventPipeline (sampleEnv 0) sampleConfig (NewMetrics 0) sampleWorld).workerIds
      = [1, 2, 3, 4] :=
  ⟨⟨by decide, by decide⟩,
    (newEventPipeline_workers (sampleEnv 0) sampleConfig (NewMetrics 0) sampleWorld (by decide)
      (by decide)).2.1, by decide, by decide⟩

/-- Counterexample to C24 as stated: with `worker_count = 4` and
`queue_size = -1`, `make(chan Event, cfg.QueueSize)` panics before any worker is
started, so no worker runs and the pool is empty. -/
theorem newEventPipeline_negative_queue :
    0 < ({ sampleConfig with QueueSize := -1 } : Config).WorkerCount ∧
    ({ sampleConfig with QueueSize := -1 } : Config).WorkerCount = 4 ∧
    (NewEventPipeline (sampleEnv 0) { sampleConfig with QueueSize := -1 } (NewMetrics 0)
      sampleWorld).panicked = true ∧
    (NewEventPipeline (sampleEnv 0) { sampleConfig with QueueSize := -1 } (NewMetrics 0)
      sampleWorld).workers = [] ∧
    (NewEventPipeline (sampleEnv 0) { sampleConfig with QueueSize := -1 } (NewMetrics 0)
      sampleWorld).WorkerCount = 0 := by
  refine ⟨by decide, by decide, by decide, ?_, by decide⟩
  simp [NewEventPipeline, sampleConfig]

/-- Claim C25.  A decoded batch request with more than 100 events is answered
400 and none of its events is ingested: the pipeline is as it was.  For a
request with at most 100 events on an open pipeline, whenever the handler
answers, it answers 202 and has sent every event of the request on the queue,
each once and in request order; and it does answer when the queue has room for
the batch.  The events sent are the request's events, each passed through
`NewEvent`. -/
theorem handleBatchEvents_cap {σ : Type} (env : Env σ) (evs : List Event) (p : Pipeline σ) :
    (100 < evs.length → handleBatchEvents env "POST" (some evs) p = .status 400 p) ∧
    (evs.length ≤ 100 → p.closed = false →
      (∀ (code : Nat) (q : Pipeline σ),
        handleBatchEvents env "POST" (some evs) p = .status code q →
        code = 202 ∧ q.queue = p.queue ++ (normalizeAll env evs p.world).1) ∧
      ((p.queue.length : Int) + evs.length ≤ p.cfg.QueueSize →
        handleBatchEvents env "POST" (some evs) p
          = .status 202 { p with world := (normalizeAll env evs p.world).2,
                                 queue := p.queue ++ (normalizeAll env evs p.world).1 })) ∧
    ((normalizeAll env evs p.world).1.length = evs.length ∧
      List.Forall₂
        (fun ev e => e.Typ = ev.Typ ∧ e.Source = ev.Source ∧ e.UserID = ev.UserID ∧
          e.Data = ev.Data ∧ (ev.ID ≠ "" → e.ID = ev.ID) ∧
          (ev.Timestamp ≠ 0 → e.Timestamp = ev.Timestamp))
        evs (normalizeAll env evs p.world).1) := by
  have hpost : (("POST" : String) != "POST") = false := by decide
  refine ⟨?_, ?_, normalizeAll_length env evs p.world, normalizeAll_keeps env evs p.world⟩
  · intro hbig
    simp [handleBatchEvents, hbig]
  · intro hsmall hopen
    have hnot : ¬ evs.length > 100 := by omega
    have hh : handleBatchEvents env "POST" (some evs) p = ingestBatch env evs p := by
      simp only [handleBatchEvents, hpost, Bool.false_eq_true, if_false, hnot]
    rw [hh]
    exact ⟨fun code q h => ingestBatch_status env evs p q code hopen h,
      fun hroom => ingestBatch_room env evs p hopen hroom⟩

/-- Witness for C25: a batch of two events on a fresh pipeline is answered 202
with both events on the queue, in request order; a batch of 101 is answered
400. -/
theorem handleBatchEvents_cap_witness :
    (sampleBatch.length ≤ 100 ∧ samplePipeline.closed = false ∧
      (samplePipeline.queue.length : Int) + sampleBatch.length
        ≤ samplePipeline.cfg.QueueSize) ∧
    handleBatchEvents (sampleEnv 2) "POST" (some sampleBatch) samplePipeline
      = .status 202
          { samplePipeline with
            world := (normalizeAll (sampleEnv 2) sampleBatch samplePipeline.world).2,
            queue := samplePipeline.queue
              ++ (normalizeAll (sampleEnv 2) sampleBatch samplePipeline.world).1 } ∧
    ((normalizeAll (sampleEnv 2) sampleBatch samplePipeline.world).1.map Event.Source
      = ["web", "app"]) ∧
    handleBatchEvents (sampleEnv 2) "POST" (some (List.replicate 101 sampleEvent))
      samplePipeline = .status 400 samplePipeline :=
  ⟨⟨by decide, by decide, by decide⟩,
    ((handleBatchEvents_cap (sampleEnv 2) sampleBatch samplePipeline).2.1 (by decide)
      (by decide)).2 (by decide),
    by decide, rfl⟩

/-! ## Events per second -/

/-- The `float64` quotient of two positive numbers is positive. -/
theorem float64Div_pos (a b : Nat) (ha : 1 ≤ a) (hb : 1 ≤ b) : 0 < float64Div a b := by
  have herr := float64Div_error a b ha hb
  have haq : (0 : ℚ) < a := by exact_mod_cast ha
  have hbq : (0 : ℚ) < b := by exact_mod_cast hb
  have hq : (0 : ℚ) < (a : ℚ) / b := div_pos haq hbq
  have h1 := (abs_le.1 herr).1
  have h2 : (a : ℚ) / b / 2 ^ 53 < (a : ℚ) / b := by
    apply div_lt_self hq
    norm_num
  linarith

/-- Numerator and denominator of a positive rational, as natural numbers. -/
theorem rat_pos_parts (q : ℚ) (hq : 0 < q) :
    1 ≤ q.num.toNat ∧ 1 ≤ q.den ∧ ((q.num.toNat : Nat) : ℚ) / (q.den : ℚ) = q := by
  have hn : 0 < q.num := Rat.num_pos.2 hq
  have hd : 0 < q.den := q.den_pos
  refine ⟨by omega, hd, ?_⟩
  have hcast : ((q.num.toNat : Nat) : ℚ) = ((q.num : Int) : ℚ) := by
    have : ((q.num.toNat : Nat) : Int) = q.num := Int.toNat_of_nonneg (le_of_lt hn)
    exact_mod_cast this
  rw [hcast]
  exact Rat.num_div_den q

/-- Rounding zero gives zero. -/
theorem float64Round_zero : float64Round 0 = 0 := by
  simp [float64Round, float64Div]

/-- Rounding a positive number moves it by at most a relative `2^-53`. -/
theorem float64Round_error (q : ℚ) (hq : 0 < q) : |float64Round q - q| ≤ q / 2 ^ 53 := by
  obtain ⟨h1, h2, h3⟩ := rat_pos_parts q hq
  have herr := float64Div_error q.num.toNat q.den h1 h2
  rw [h3] at herr
  simpa [float64Round, le_of_lt hq] using herr

/-- Rounding a positive number gives a positive number. -/
theorem float64Round_pos (q : ℚ) (hq : 0 < q) : 0 < float64Round q := by
  obtain ⟨h1, h2, _⟩ := rat_pos_parts q hq
  simpa [float64Round, le_of_lt hq] using float64Div_pos q.num.toNat q.den h1 h2

/-- Rounding a negative number gives a negative number. -/
theorem float64Round_neg (q : ℚ) (hq : q < 0) : float64Round q < 0 := by
  have hn : q.num < 0 := Rat.num_neg.2 hq
  have h1 : 1 ≤ (-q.num).toNat := by omega
  have hpos := float64Div_pos (-q.num).toNat q.den h1 q.den_pos
  have hnot : ¬ 0 ≤ q := not_le.2 hq
  simp only [float64Round, hnot, if_false]
  linarith

/-- Rounding keeps the sign: a number that is not positive stays so. -/
theorem float64Round_nonpos (q : ℚ) (hq : q ≤ 0) : float64Round q ≤ 0 := by
  rcases lt_or_eq_of_le hq with h | h
  · exact le_of_lt (float64Round_neg q h)
  · rw [h, float64Round_zero]

/-- Rounding keeps the sign: a number that is not negative stays so. -/
theorem float64Round_nonneg (q : ℚ) (hq : 0 ≤ q) : 0 ≤ float64Round q := by
  rcases lt_or_eq_of_le hq with h | h
  · exact le_of_lt (float64Round_pos q h)
  · rw [← h, float64Round_zero]

/-- Go's truncated quotient and remainder by `10^9`: they recompose the
dividend and carry its sign. -/
theorem seconds_parts (d : Int) :
    1000000000 * Int.tdiv d 1000000000 + Int.tmod d 1000000000 = d ∧
    (0 ≤ d → 0 ≤ Int.tdiv d 1000000000 ∧ 0 ≤ Int.tmod d 1000000000) ∧
    (d ≤ 0 → Int.tdiv d 1000000000 ≤ 0 ∧ Int.tmod d 1000000000 ≤ 0) := by
  have hsum := Int.tdiv_add_tmod d 1000000000
  refine ⟨hsum, ?_, ?_⟩
  · intro hd
    exact ⟨Int.tdiv_nonneg hd (by norm_num), Int.tmod_nonneg _ hd⟩
  · intro hd
    have hneg : 0 ≤ -d := by omega
    have h1 : 0 ≤ Int.tdiv (-d) 1000000000 := Int.tdiv_nonneg hneg (by norm_num)
    have h2 : 0 ≤ Int.tmod (-d) 1000000000 := Int.tmod_nonneg _ hneg
    have hsum2 := Int.tdiv_add_tmod (-d) 1000000000
    have h3 : Int.tdiv (-d) 1000000000 = -Int.tdiv d 1000000000 := Int.neg_tdiv d 1000000000
    rw [h3] at h1 hsum2
    constructor <;> omega

/-- The exact number of seconds in a duration, in terms of the two parts
`Seconds` works with. -/
theorem seconds_exact (d : Int) :
    ((Int.tdiv d 1000000000 : Int) : ℚ) + ((Int.tmod d 1000000000 : Int) : ℚ) / 1000000000
      = (d : ℚ) / 1000000000 := by
  have h := (seconds_parts d).1
  have hq : (1000000000 : ℚ) * ((Int.tdiv d 1000000000 : Int) : ℚ)
      + ((Int.tmod d 1000000000 : Int) : ℚ) = (d : ℚ) := by exact_mod_cast h
  rw [← hq]
  field_simp
  ring

/-- A positive duration has a positive number of seconds. -/
theorem seconds_pos (d : Int) (hd : 0 < d) : 0 < Duration.Seconds d := by
  obtain ⟨hsum, hpos, _⟩ := seconds_parts d
  obtain ⟨hs, hn⟩ := hpos (le_of_lt hd)
  have hsq : (0 : ℚ) ≤ ((Int.tdiv d 1000000000 : Int) : ℚ) := by exact_mod_cast hs
  have hnq : (0 : ℚ) ≤ ((Int.tmod d 1000000000 : Int) : ℚ) := by exact_mod_cast hn
  have hx : (0 : ℚ) ≤ ((Int.tmod d 1000000000 : Int) : ℚ) / 1000000000 := by positivity
  have hf := float64Round_nonneg _ hx
  unfold Duration.Seconds
  apply float64Round_pos
  rcases lt_or_eq_of_le hs with h | h
  · have : (0 : ℚ) < ((Int.tdiv d 1000000000 : Int) : ℚ) := by exact_mod_cast h
    linarith
  · have hn1 : 0 < Int.tmod d 1000000000 := by omega
    have hnq1 : (0 : ℚ) < ((Int.tmod d 1000000000 : Int) : ℚ) := by exact_mod_cast hn1
    have hx1 : (0 : ℚ) < ((Int.tmod d 1000000000 : Int) : ℚ) / 1000000000 := by positivity
    have := float64Round_pos _ hx1
    linarith

/-- A duration that is not positive has a number of seconds that is not
positive. -/
theorem seconds_nonpos (d : Int) (hd : d ≤ 0) : Duration.Seconds d ≤ 0 := by
  obtain ⟨_, _, hneg⟩ := seconds_parts d
  obtain ⟨hs, hn⟩ := hneg hd
  have hsq : ((Int.tdiv d 1000000000 : Int) : ℚ) ≤ 0 := by exact_mod_cast hs
  have hnq : ((Int.tmod d 1000000000 : Int) : ℚ) ≤ 0 := by exact_mod_cast hn
  have hx : ((Int.tmod d 1000000000 : Int) : ℚ) / 1000000000 ≤ 0 :=
    div_nonpos_of_nonpos_of_nonneg hnq (by norm_num)
  have hf := float64Round_nonpos _ hx
  unfold Duration.Seconds
  apply float64Round_nonpos
  linarith

/-- Rounding a number that is not negative moves it by at most a relative
`2^-53`. -/
theorem float64Round_error_nonneg (q : ℚ) (hq : 0 ≤ q) : |float64Round q - q| ≤ q / 2 ^ 53 := by
  rcases lt_or_eq_of_le hq with h | h
  · exact float64Round_error q h
  · rw [← h, float64Round_zero]
    norm_num

/-- The seconds of a positive duration are within a relative `2^-51` of the
exact quotient by `10^9`. -/
theorem seconds_error (d : Int) (hd : 0 < d) :
    |Duration.Seconds d - (d : ℚ) / 1000000000| ≤ (d : ℚ) / 1000000000 / 2 ^ 51 := by
  obtain ⟨hsum, hpos, _⟩ := seconds_parts d
  obtain ⟨hs, hn⟩ := hpos (le_of_lt hd)
  have hex := seconds_exact d
  have hsq : (0 : ℚ) ≤ ((Int.tdiv d 1000000000 : Int) : ℚ) := by exact_mod_cast hs
  have hnq : (0 : ℚ) ≤ ((Int.tmod d 1000000000 : Int) : ℚ) := by exact_mod_cast hn
  have hx : (0 : ℚ) ≤ ((Int.tmod d 1000000000 : Int) : ℚ) / 1000000000 := by positivity
  have hf := float64Round_nonneg _ hx
  have he1 := abs_le.1 (float64Round_error_nonneg _ hx)
  have hS : (0 : ℚ) ≤ ((Int.tdiv d 1000000000 : Int) : ℚ)
      + float64Round (((Int.tmod d 1000000000 : Int) : ℚ) / 1000000000) := by linarith
  have he2 := abs_le.1 (float64Round_error_nonneg _ hS)
  unfold Duration.Seconds
  rw [← hex]
  have hu : (0 : ℚ) < 2 ^ 53 := by positivity
  rw [abs_le]
  generalize ((Int.tdiv d 1000000000 : Int) : ℚ) = s at *
  generalize ((Int.tmod d 1000000000 : Int) : ℚ) / 1000000000 = x at *
  generalize float64Round x = f at *
  generalize float64Round (s + f) = r at *
  have hx53 : x / 2 ^ 53 ≤ x := div_le_self hx (by norm_num)
  have e1 : x / 2 ^ 53 = x * (1 / 2 ^ 53) := by ring
  have e2 : (s + f) / 2 ^ 53 = (s + f) * (1 / 2 ^ 53) := by ring
  have e3 : (s + x) / 2 ^ 51 = (s + x) * (4 / 2 ^ 53) := by ring
  rw [e1] at he1 hx53
  rw [e2] at he2
  rw [e3]
  have hc : (0 : ℚ) < 1 / 2 ^ 53 := by positivity
  have hc1 : (1 : ℚ) / 2 ^ 53 ≤ 1 := by norm_num
  constructor <;> nlinarith [mul_nonneg hsq hc.le, mul_nonneg hx hc.le, mul_nonneg hf hc.le,
    mul_le_mul_of_nonneg_left hc1 hx, mul_le_mul_of_nonneg_left hc1 hf]

/-- The saturated difference of two instants has the sign of the true one. -/
theorem since_pos_iff (now start : Int) : 0 < Since now start ↔ start < now := by
  show (0 : Int) < max (-(2 ^ 63)) (min (now - start) (2 ^ 63 - 1)) ↔ start < now
  rw [max_def, min_def]
  split_ifs <;> omega

/-- The conversion of a positive `uint64` to `float64` is positive. -/
theorem float64OfUint64_pos (x : Nat) (h : 0 < x) : 0 < float64OfUint64 x := by
  by_cases hx : x < 2 ^ 53
  · rw [float64OfUint64_small x hx]
    exact h
  · have := float64OfUint64_large x (by omega)
    omega

/-- A quotient by a divisor known to a relative `2^-51`, itself rounded to a
relative `2^-53`, is within a relative `2^-50` of the exact quotient. -/
theorem quotient_error (e p secs d : ℚ) (hp : 0 ≤ p) (hsecs : 0 < secs) (hd : 0 < d)
    (he : |e - p / secs| ≤ p / secs / 2 ^ 53) (hs : |secs - d| ≤ d / 2 ^ 51) :
    |e - p / d| ≤ p / d / 2 ^ 50 := by
  have hq0 : 0 ≤ p / secs := div_nonneg hp hsecs.le
  have ht0 : 0 ≤ p / d := div_nonneg hp hd.le
  have hqs : p / secs * secs = p := by field_simp
  have htd : p / d * d = p := by field_simp
  obtain ⟨he1, he2⟩ := abs_le.1 he
  obtain ⟨hs1, hs2⟩ := abs_le.1 hs
  generalize p / secs = q at *
  generalize p / d = t at *
  have hup : q ≤ t * (1 + 5 / 2 ^ 53) := by
    have h1 : d ≤ (1 + 5 / 2 ^ 53) * secs := by linarith
    have h2 : t * d ≤ t * ((1 + 5 / 2 ^ 53) * secs) := mul_le_mul_of_nonneg_left h1 ht0
    have h3 : q * secs ≤ t * (1 + 5 / 2 ^ 53) * secs := by linarith
    exact le_of_mul_le_mul_right h3 hsecs
  have hlo : t * (1 - 4 / 2 ^ 53) ≤ q := by
    have h1 : (1 - 4 / 2 ^ 53) * secs ≤ d := by linarith
    have h2 : t * ((1 - 4 / 2 ^ 53) * secs) ≤ t * d := mul_le_mul_of_nonneg_left h1 ht0
    have h3 : t * (1 - 4 / 2 ^ 53) * secs ≤ q * secs := by linarith
    exact le_of_mul_le_mul_right h3 hsecs
  rw [abs_le]
  constructor <;> linarith

/-- Claim C22.  `EPS` returns 0 when the elapsed seconds are `<= 0`, which is
when the elapsed time is, and otherwise the `float64` quotient of `processed`
by the elapsed seconds: the elapsed seconds are within a relative `2^-51` of
the elapsed nanoseconds over `10^9`, and the result is within a relative
`2^-50` of `float64(processed)` over that, `float64(processed)` being
`processed` itself below `2^53`.  `EPS` is never negative, and it is strictly
positive whenever `processed > 0` and the elapsed time is positive. -/
theorem eps_spec (m : Metrics) (now : Time) :
    (0 < Since now m.startTime ↔ m.startTime < now) ∧
    ((Since now m.startTime).Seconds ≤ 0 ↔ Since now m.startTime ≤ 0) ∧
    (Since now m.startTime ≤ 0 → m.EPS now = 0) ∧
    (0 < Since now m.startTime →
      m.EPS now = float64Round
        ((float64OfUint64 m.processed : ℚ) / (Since now m.startTime).Seconds) ∧
      |(Since now m.startTime).Seconds - ((Since now m.startTime : Int) : ℚ) / 1000000000|
        ≤ ((Since now m.startTime : Int) : ℚ) / 1000000000 / 2 ^ 51 ∧
      |m.EPS now
          - (float64OfUint64 m.processed : ℚ) / (((Since now m.startTime : Int) : ℚ) / 1000000000)|
        ≤ (float64OfUint64 m.processed : ℚ) / (((Since now m.startTime : Int) : ℚ) / 1000000000)
            / 2 ^ 50 ∧
      (m.processed < 2 ^ 53 → float64OfUint64 m.processed = m.processed)) ∧
    0 ≤ m.EPS now ∧
    (0 < m.processed → 0 < Since now m.startTime → 0 < m.EPS now) := by
  have hiff : (Since now m.startTime).Seconds ≤ 0 ↔ Since now m.startTime ≤ 0 := by
    constructor
    · intro h
      by_contra hcon
      have := seconds_pos (Since now m.startTime) (not_le.1 hcon)
      linarith
    · exact seconds_nonpos _
  have hfp : (0 : ℚ) ≤ (float64OfUint64 m.processed : ℚ) := by positivity
  have heq : 0 < Since now m.startTime → m.EPS now = float64Round
      ((float64OfUint64 m.processed : ℚ) / (Since now m.startTime).Seconds) := by
    intro hd
    have hs := seconds_pos (Since now m.startTime) hd
    simp only [Metrics.EPS, Metrics.GetProcessed, not_le.2 hs, if_false]
  have hzero : Since now m.startTime ≤ 0 → m.EPS now = 0 := by
    intro hd
    unfold Metrics.EPS
    rw [if_pos (hiff.2 hd)]
  refine ⟨since_pos_iff now m.startTime, hiff, hzero, ?_, ?_, ?_⟩
  · intro hd
    have hs := seconds_pos (Since now m.startTime) hd
    have hdq : (0 : ℚ) < ((Since now m.startTime : Int) : ℚ) / 1000000000 := by
      have : (0 : ℚ) < ((Since now m.startTime : Int) : ℚ) := by exact_mod_cast hd
      positivity
    have herr := seconds_error (Since now m.startTime) hd
    refine ⟨heq hd, herr, ?_, fun h => float64OfUint64_small _ h⟩
    rw [heq hd]
    exact quotient_error _ _ _ _ hfp hs hdq
      (float64Round_error_nonneg _ (div_nonneg hfp hs.le)) herr
  · by_cases hd : 0 < Since now m.startTime
    · rw [heq hd]
      exact float64Round_nonneg _ (div_nonneg hfp (seconds_pos _ hd).le)
    · rw [hzero (not_lt.1 hd)]
  · intro hp hd
    rw [heq hd]
    have hfpos : (0 : ℚ) < (float64OfUint64 m.processed : ℚ) := by
      exact_mod_cast float64OfUint64_pos _ hp
    exact float64Round_pos _ (div_pos hfpos (seconds_pos _ hd))

/-- Witness for C22: two processed events read two seconds after the start give
a positive rate; read at the start they give 0. -/
theorem eps_spec_witness :
    (0 < ((NewMetrics 0).applyAll sampleMetricsCalls).processed ∧
      0 < Since 2000000000 ((NewMetrics 0).applyAll sampleMetricsCalls).startTime ∧
      Since 5 (NewMetrics 5).startTime ≤ 0) ∧
    0 < ((NewMetrics 0).applyAll sampleMetricsCalls).EPS 2000000000 ∧
    (NewMetrics 5).EPS 5 = 0 :=
  ⟨⟨by decide, by decide, by decide⟩,
    (eps_spec ((NewMetrics 0).applyAll sampleMetricsCalls) 2000000000).2.2.2.2.2 (by decide)
      (by decide),
    (eps_spec (NewMetrics 5) 5).2.2.1 (by decide)⟩

end EventPipeline
